import Mathlib

/-!
StackRabbit: move search, depth-2 search and aggregation.

A shallow embedding of `src/cpp_modules/src/move_search.cpp`,
`src/cpp_modules/src/high_level_search.cpp` and the helpers of
`src/cpp_modules/src/utils.hpp`, followed by theorems about them.

Conventions of the embedding.

* C++ `int` values are `Int`; board rows (bit patterns, never negative) are `Nat`.
* A read outside a C array (undefined in C++) yields a default value, a write
  outside is dropped.
* `while` loops whose termination depends on the data take a `fuel` argument and
  return `none` when it runs out; termination is proved separately.
* A `float` is the whole number of units of `2^-149` that it holds, an `Int`:
  every finite 32-bit float is such a number. A float sum or difference is the
  exact sum of the units, rounded to 24 significant bits, ties to even
  (`roundFloat`), once per operation, as when `float` expressions are evaluated
  in `float`. Infinities, NaN and the sign of zero are not modelled.
* The piece tables, the tuck tables and the evaluator live in files that are not
  part of the three sources; they are parameters (`Tables`, `Evaluator`).
-/

namespace StackRabbit

/-! ## Data model -/

/-- A tetromino descriptor: the fields of `Piece` that the sources read. -/
structure Piece where
  id : Char
  index : Int
  rowsByRotation : List (List Int)
  bottomSurfaceByRotation : List (List Int)
  maxYByRotation : List Int
  initialY : Int
deriving DecidableEq

/-- An in-flight piece. -/
structure SimState where
  x : Int
  y : Int
  rotationIndex : Int
  frameIndex : Int
  arrIndex : Int
  piece : Piece
deriving DecidableEq

/-- A resting position; `tuckNotation` is `'.'` for a placement that is not a tuck. -/
structure LockPlacement where
  x : Int
  y : Int
  rotationIndex : Int
  inputSequenceTag : Int
  tuckNotation : Char
  piece : Piece
deriving DecidableEq

/-- The state of a game between two pieces. -/
structure GameState where
  board : List Nat
  surfaceArray : List Int
  adjustedNumHoles : Int
  lines : Int
  level : Int
deriving DecidableEq

/-- One way of entering a tuck: a shift and a rotation pressed together. -/
structure TuckInput where
  xChange : Int
  rotationChange : Int
  notationChar : Char
deriving DecidableEq

/-- A cell of a piece rotation that can fill an overhang cell. -/
structure TuckOriginSpot where
  orientation : Int
  x : Int
  y : Int
deriving DecidableEq

/-- The tables and the helper that `move_search.cpp` takes from other files:
the horizontal bounds table with its offset, the tuck inputs, the tuck origin
spots of each piece, the tuck switch and `computeYValueOfEachShift`. -/
structure Tables where
  X_BOUNDS_COLLISION_TABLE : Int → Int → Int → Int
  X_BOUNDS_COLLISION_TABLE_OFFSET : Int
  TUCK_INPUTS : List TuckInput
  TUCK_SPOTS_LIST : Int → List TuckOriginSpot
  CAN_TUCK : Bool
  computeYValueOfEachShift : List Char → Int → Int → List Int

/-! ## utils.hpp -/

/-- The read `a[i]` of a C array. -/
def readAt {α : Type} (a : List α) (i : Int) (d : α) : α :=
  if i < 0 then d else a.getD i.toNat d

/-- The write `a[i] = v` of a C array. -/
def writeAt {α : Type} (a : List α) (i : Int) (v : α) : List α :=
  if i < 0 then a else a.set i.toNat v

/-- `SHIFTBY(x, y)`: right shift for positive `y`, left shift otherwise. -/
def SHIFTBY (x y : Int) : Int :=
  if y > 0 then x / 2 ^ y.toNat else x * 2 ^ (-1 * y).toNat

def SPAWN_X : Int := 3

def FULL_ROW : Nat := 1023

def TUCK_SETUP_BIT (x : Nat) : Nat := 1 <<< (29 - x)

def ALL_TUCK_SETUP_BITS : Nat := 1023 <<< 20

def TUCK_COL_ENCODED (r x : Int) : Int := r * 10 + x + 2

def UNREACHED : Int := 99

/-- The scan of one column in `getSurfaceArray`: the first row at or after `row`
whose `colMask` bit is set, or 20. -/
def surfaceScan (board : List Nat) (colMask : Nat) : Nat → Nat → Nat
  | 0, row => row
  | fuel + 1, row =>
    if board.getD row 0 &&& colMask = 0 ∧ row < 20 then surfaceScan board colMask fuel (row + 1)
    else row

/-- `getSurfaceArray`: the height of each of the ten columns. -/
def getSurfaceArray (board : List Nat) : List Int :=
  (List.range 10).map fun (col : Nat) => 20 - (surfaceScan board (1 <<< (9 - col)) 21 0 : Int)

def getGravity (level : Int) : Int :=
  if level ≤ 18 then 3 else if level < 29 then 2 else 1

/-- `shouldPerformInputsThisFrame`: whether the cyclic timeline has an `X` at the frame. -/
def shouldPerformInputsThisFrame (frameIndex : Int) (inputFrameTimeline : List Char) : Bool :=
  let len : Int := inputFrameTimeline.length
  let index := Int.tmod frameIndex len
  readAt inputFrameTimeline index ' ' == 'X'

/-! ## move_search.cpp -/

def INITIAL_X : Int := 3

def NO_TUCK_NOTATION : Char := '.'

/-- The row loop of `collision`, for the piece rows `r, r+1, ...` given as a list. -/
def collisionRows (board : List Nat) (x y : Int) : List Int → Int → Bool
  | [], _ => false
  | pieceRow :: rest, r =>
    if y + r < 0 then collisionRows board x y rest (r + 1)
    else if pieceRow = 0 then collisionRows board x y rest (r + 1)
    else if Int.land (SHIFTBY pieceRow x) (readAt board (y + r) 0 : Nat) ≠ 0 then true
    else collisionRows board x y rest (r + 1)

/-- `collision`: checks for collisions with the board and the edges of the screen. -/
def collision (T : Tables) (board : List Nat) (piece : Piece) (x y rotIndex : Int) : Bool :=
  if y > readAt piece.maxYByRotation rotIndex 0 then true
  else if T.X_BOUNDS_COLLISION_TABLE piece.index rotIndex
      (x + T.X_BOUNDS_COLLISION_TABLE_OFFSET) ≠ 0 then true
  else
    collisionRows board x y
      ((List.range 4).map fun (r : Nat) => readAt (readAt piece.rowsByRotation rotIndex []) (r : Int) 0)
      0

/-- `rotateTowardsGoal`: one rotation step towards the goal, to the right when ambiguous. -/
def rotateTowardsGoal (curRotation goalRotation : Int) : Int :=
  if curRotation = goalRotation then curRotation
  else if goalRotation = curRotation - 1 ∨ goalRotation = curRotation + 3 then goalRotation
  else curRotation + 1

/-- The input phase of one frame of `exploreHorizontally`: the shift, then the
rotation. `none` when either collides (the function returns). -/
def inputPhase (T : Tables) (board : List Nat) (simState : SimState)
    (shiftIncrement maxOrMinX goalRotationIndex : Int) : Option SimState :=
  if simState.x ≠ maxOrMinX ∧
      collision T board simState.piece (simState.x + shiftIncrement) simState.y
        simState.rotationIndex then none
  else
    let s1 : SimState :=
      if simState.x ≠ maxOrMinX then { simState with x := simState.x + shiftIncrement }
      else simState
    if s1.rotationIndex ≠ goalRotationIndex then
      let rotationAfter := rotateTowardsGoal s1.rotationIndex goalRotationIndex
      if collision T board s1.piece s1.x s1.y rotationAfter then none
      else some { s1 with rotationIndex := rotationAfter }
    else some s1

/-- The body of the frame loop of `exploreHorizontally` up to the registration:
`none` when an input collides (the function returns), otherwise the state after
the frame with the flags `foundNewPlacementThisFrame` and `didLockThisFrame`. -/
def exploreFrame (T : Tables) (board : List Nat)
    (shiftIncrement maxOrMinX goalRotationIndex : Int) (inputFrameTimeline : List Char)
    (gravity : Int) (simState : SimState) : Option (SimState × Bool × Bool) :=
  let isInputFrame := shouldPerformInputsThisFrame simState.frameIndex inputFrameTimeline
  let isGravityFrame : Bool := Int.tmod simState.frameIndex gravity = gravity - 1
  match (if isInputFrame then
      inputPhase T board simState shiftIncrement maxOrMinX goalRotationIndex
    else some simState) with
  | none => none
  | some s1 =>
    let foundNewPlacementThisFrame : Bool :=
      isInputFrame && (s1.rotationIndex = goalRotationIndex)
    let didLockThisFrame : Bool :=
      isGravityFrame && collision T board s1.piece s1.x (s1.y + 1) s1.rotationIndex
    let s2 : SimState :=
      if isGravityFrame && !didLockThisFrame then { s1 with y := s1.y + 1 } else s1
    some ({ s2 with frameIndex := s2.frameIndex + 1 }, foundNewPlacementThisFrame,
      didLockThisFrame)

/-- `exploreHorizontally`: the frame loop. The result is the returned range and
the list of legal placements after the call. -/
def exploreHorizontally (T : Tables) (board : List Nat)
    (shiftIncrement maxOrMinX goalRotationIndex : Int) (inputFrameTimeline : List Char)
    (gravity : Int) : Nat → SimState → Int → List SimState → Option (Int × List SimState)
  | fuel, simState, rangeCurrent, legalPlacements =>
    if simState.x = maxOrMinX ∧ simState.rotationIndex = goalRotationIndex then
      some (0, legalPlacements)
    else
      match fuel with
      | 0 => none
      | fuel + 1 =>
        match exploreFrame T board shiftIncrement maxOrMinX goalRotationIndex
            inputFrameTimeline gravity simState with
        | none => some (rangeCurrent, legalPlacements)
        | some (s3, foundNewPlacementThisFrame, didLockThisFrame) =>
          let range1 :=
            if shouldPerformInputsThisFrame simState.frameIndex inputFrameTimeline then s3.x
            else rangeCurrent
          let legal1 :=
            if foundNewPlacementThisFrame then legalPlacements ++ [s3] else legalPlacements
          if didLockThisFrame then some (range1, legal1)
          else
            exploreHorizontally T board shiftIncrement maxOrMinX goalRotationIndex
              inputFrameTimeline gravity fuel s3 range1 legal1

/-- The list `a, a+1, ..., b` of a counting `for` loop. -/
def intRange (a b : Int) : List Int :=
  (List.range (b - a + 1).toNat).map fun (k : Nat) => a + (k : Int)

/-- A loop over a list whose body can run out of fuel. -/
def forEachM {α σ : Type} (f : α → σ → Option σ) : List α → σ → Option σ
  | [], s => some s
  | a :: rest, s =>
    match f a s with
    | none => none
    | some s1 => forEachM f rest s1

/-- `explorePlacementsNearSpawn`: explores for moves with more rotations than shifts. -/
def explorePlacementsNearSpawn (T : Tables) (board : List Nat) (fuel : Nat) (simState : SimState)
    (goalRotationIndex : Int) (inputFrameTimeline : List Char) (gravity : Int)
    (legalPlacements : List SimState) : Option (List SimState) :=
  let rangeStart : Int := if goalRotationIndex = 2 then -1 else 0
  let rangeEnd : Int := if goalRotationIndex = 2 then 1 else 0
  forEachM
    (fun xOffset legal =>
      (exploreHorizontally T board xOffset (simState.x + xOffset) goalRotationIndex
        inputFrameTimeline gravity fuel simState 0 legal).map Prod.snd)
    (intRange rangeStart rangeEnd) legalPlacements

/-- The column loop of `getLockPlacementsFast`: how far the state is above the stack. -/
def rowsToShiftLoop (bottomSurface surfaceArray : List Int) (simState : SimState) :
    List Int → Int → Int
  | [], rowsToShift => rowsToShift
  | c :: rest, rowsToShift =>
    if readAt bottomSurface c 0 = -1 then
      rowsToShiftLoop bottomSurface surfaceArray simState rest rowsToShift
    else
      let currentUnderSurface := 20 - readAt bottomSurface c 0 - simState.y
      let colHeight := readAt surfaceArray (simState.x + c) 0
      rowsToShiftLoop bottomSurface surfaceArray simState rest
        (min rowsToShift (currentUnderSurface - colHeight))

/-- The lock row that `getLockPlacementsFast` computes for one legal state. -/
def lockRow (surfaceArray : List Int) (simState : SimState) : Int :=
  simState.y +
    rowsToShiftLoop (readAt simState.piece.bottomSurfaceByRotation simState.rotationIndex [])
      surfaceArray simState (intRange 0 3) 99999

/-- `getLockPlacementsFast`: converts legal placements to lock placements and
records the lock rows in `availableTuckCols`. -/
def getLockPlacementsFast (surfaceArray : List Int) :
    List SimState → List Int → List LockPlacement → List Int × List LockPlacement
  | [], availableTuckCols, lockPlacements => (availableTuckCols, lockPlacements)
  | simState :: rest, availableTuckCols, lockPlacements =>
    let y := lockRow surfaceArray simState
    getLockPlacementsFast surfaceArray rest
      (writeAt availableTuckCols (TUCK_COL_ENCODED simState.rotationIndex simState.x) y)
      (lockPlacements ++
        [{ x := simState.x, y := y, rotationIndex := simState.rotationIndex,
           inputSequenceTag := -1, tuckNotation := NO_TUCK_NOTATION, piece := simState.piece }])

/-- The number of orientations that `findTuckInput` derives from the piece. -/
def numOrientations (piece : Piece) : Int :=
  if piece.id = 'O' then 1
  else if readAt (readAt piece.rowsByRotation 3 []) 0 0 = -1 then 2
  else 4

/-- The rotation before the tuck input, as `findTuckInput` computes it. -/
def preTuckRotIndex (piece : Piece) (rotationIndex : Int) (tuckInput : TuckInput) : Int :=
  let rotationModulusMask : Int := if numOrientations piece = 4 then 3 else 1
  if piece.id ≠ 'O' then
    Int.land (rotationIndex - tuckInput.rotationChange + 4) rotationModulusMask
  else rotationIndex

/-- The body of the loop of `findTuckInput`: whether the input passes every check. -/
def tuckInputPasses (T : Tables) (board : List Nat) (afterTuckState : SimState)
    (availableTuckCols minTuckYValsByNumPrevInputs : List Int) (tuckInput : TuckInput) : Bool :=
  let preTuckRot := preTuckRotIndex afterTuckState.piece afterTuckState.rotationIndex tuckInput
  let preTuckX := afterTuckState.x - tuckInput.xChange
  let index := TUCK_COL_ENCODED preTuckRot preTuckX
  let numRotsBeforeTuck : Int := if preTuckRot = 3 then 1 else preTuckRot
  let numInputs := max numRotsBeforeTuck |preTuckX - SPAWN_X|
  let minY := readAt minTuckYValsByNumPrevInputs (numInputs + 1) 0
  let maxY := readAt availableTuckCols index 0
  if afterTuckState.y < minY ∨ afterTuckState.y > maxY then false
  else if collision T board afterTuckState.piece afterTuckState.x afterTuckState.y preTuckRot then
    false
  else if collision T board afterTuckState.piece preTuckX afterTuckState.y preTuckRot then false
  else true

/-- The loop of `findTuckInput` over the tuck inputs still to try. -/
def findTuckInputLoop (T : Tables) (board : List Nat) (afterTuckState : SimState)
    (availableTuckCols minTuckYValsByNumPrevInputs : List Int) : List TuckInput → Char
  | [] => NO_TUCK_NOTATION
  | tuckInput :: rest =>
    if tuckInputPasses T board afterTuckState availableTuckCols minTuckYValsByNumPrevInputs
        tuckInput then tuckInput.notationChar
    else
      findTuckInputLoop T board afterTuckState availableTuckCols minTuckYValsByNumPrevInputs rest

/-- `findTuckInput`: the notation of the first tuck input that reaches the state. -/
def findTuckInput (T : Tables) (board : List Nat) (afterTuckState : SimState)
    (availableTuckCols minTuckYValsByNumPrevInputs : List Int) : Char :=
  findTuckInputLoop T board afterTuckState availableTuckCols minTuckYValsByNumPrevInputs
    T.TUCK_INPUTS

/-- The gravity loop of `findTucks`: the row where the piece comes to rest. -/
def dropToLock (T : Tables) (board : List Nat) (piece : Piece) (pieceX orientation : Int) :
    Nat → Int → Option Int
  | fuel, lockPieceY =>
    if collision T board piece pieceX (lockPieceY + 1) orientation then some lockPieceY
    else
      match fuel with
      | 0 => none
      | fuel + 1 => dropToLock T board piece pieceX orientation fuel (lockPieceY + 1)

/-- The body of the innermost loop of `findTucks`, for one origin spot of one
overhang cell. The state is the lock placement list and the set of lock spots. -/
def findTucksSpot (T : Tables) (fuel : Nat) (board : List Nat) (piece : Piece)
    (availableTuckCols minTuckYValsByNumPrevInputs : List Int) (overhangX overhangY : Int)
    (spot : TuckOriginSpot) (st : List LockPlacement × List Int) :
    Option (List LockPlacement × List Int) :=
  let pieceX := overhangX - spot.x
  let postTuckPieceY := overhangY - spot.y
  if collision T board piece pieceX postTuckPieceY spot.orientation then some st
  else
    match dropToLock T board piece pieceX spot.orientation fuel postTuckPieceY with
    | none => none
    | some lockPieceY =>
      let lockPositionHash := lockPieceY * 1000 + pieceX * 10 + spot.orientation
      if lockPositionHash ∈ st.2 then some st
      else
        let c := findTuckInput T board
          { x := pieceX, y := postTuckPieceY, rotationIndex := spot.orientation,
            frameIndex := -1, arrIndex := -1, piece := piece }
          availableTuckCols minTuckYValsByNumPrevInputs
        if c ≠ NO_TUCK_NOTATION then
          some (st.1 ++
            [{ x := pieceX, y := lockPieceY, rotationIndex := spot.orientation,
               inputSequenceTag := -1, tuckNotation := c, piece := piece }],
            lockPositionHash :: st.2)
        else some st

/-- The loop of `findTucks` over the columns of one row. -/
def findTucksCell (T : Tables) (fuel : Nat) (board : List Nat) (piece : Piece)
    (availableTuckCols minTuckYValsByNumPrevInputs : List Int) (overhangY overhangX : Int)
    (st : List LockPlacement × List Int) : Option (List LockPlacement × List Int) :=
  if readAt board overhangY 0 &&& TUCK_SETUP_BIT overhangX.toNat > 0 then
    forEachM
      (findTucksSpot T fuel board piece availableTuckCols minTuckYValsByNumPrevInputs
        overhangX overhangY)
      (T.TUCK_SPOTS_LIST piece.index) st
  else some st

/-- The loop of `findTucks` over the rows of the board. -/
def findTucksRow (T : Tables) (fuel : Nat) (board : List Nat) (piece : Piece)
    (availableTuckCols minTuckYValsByNumPrevInputs : List Int) (overhangY : Int)
    (st : List LockPlacement × List Int) : Option (List LockPlacement × List Int) :=
  if readAt board overhangY 0 &&& ALL_TUCK_SETUP_BITS = 0 then some st
  else
    forEachM
      (findTucksCell T fuel board piece availableTuckCols minTuckYValsByNumPrevInputs overhangY)
      (intRange 0 9) st

/-- `findTucks`: appends the reachable tuck placements to the lock placements. -/
def findTucks (T : Tables) (fuel : Nat) (board : List Nat) (piece : Piece)
    (availableTuckCols minTuckYValsByNumPrevInputs : List Int)
    (lockPlacements : List LockPlacement) : Option (List LockPlacement) :=
  (forEachM
    (findTucksRow T fuel board piece availableTuckCols minTuckYValsByNumPrevInputs)
    (intRange 0 19) (lockPlacements, [])).map Prod.fst

/-- The loop of `moveSearchInternal` over the goal rotations still to explore.
`some none` is the early `return 0` on a spawn collision. -/
def rotationLoop (T : Tables) (fuel : Nat) (board : List Nat) (spawnState : SimState)
    (piece : Piece) (inputFrameTimeline : List Char) (gravity : Int) :
    List Int → List SimState → Option (Option (List SimState))
  | [], legal => some (some legal)
  | goalRotIndex :: rest, legal =>
    if readAt (readAt piece.rowsByRotation goalRotIndex []) 0 0 = -1 then
      rotationLoop T fuel board spawnState piece inputFrameTimeline gravity rest legal
    else if goalRotIndex = 0 ∧
        collision T board piece spawnState.x spawnState.y spawnState.rotationIndex then
      some none
    else
      let legal0 := if goalRotIndex = 0 then legal ++ [spawnState] else legal
      match exploreHorizontally T board (-1) (-99) goalRotIndex inputFrameTimeline gravity
          fuel spawnState 0 legal0 with
      | none => none
      | some (_, legal1) =>
        match exploreHorizontally T board 1 99 goalRotIndex inputFrameTimeline gravity
            fuel spawnState 0 legal1 with
        | none => none
        | some (_, legal2) =>
          match explorePlacementsNearSpawn T board fuel spawnState goalRotIndex
              inputFrameTimeline gravity legal2 with
          | none => none
          | some legal3 =>
            rotationLoop T fuel board spawnState piece inputFrameTimeline gravity rest legal3

/-- `moveSearchInternal`: the returned count and the lock placement list after the call. -/
def moveSearchInternal (T : Tables) (fuel : Nat) (gameState : GameState) (spawnState : SimState)
    (piece : Piece) (inputFrameTimeline : List Char) (lockPlacements : List LockPlacement) :
    Option (Int × List LockPlacement) :=
  let gravity := getGravity gameState.level
  let availableTuckCols : List Int := List.replicate 40 0
  let minTuckYValsByNumPrevInputs :=
    T.computeYValueOfEachShift inputFrameTimeline gravity piece.initialY
  match rotationLoop T fuel gameState.board spawnState piece inputFrameTimeline gravity
      (intRange 0 3) [] with
  | none => none
  | some none => some (0, lockPlacements)
  | some (some legalMidairPlacements) =>
    let locked := getLockPlacementsFast gameState.surfaceArray legalMidairPlacements
      availableTuckCols lockPlacements
    if T.CAN_TUCK then
      match findTucks T fuel gameState.board piece locked.1 minTuckYValsByNumPrevInputs
          locked.2 with
      | none => none
      | some withTucks => some ((withTucks.length : Int), withTucks)
    else some ((locked.2.length : Int), locked.2)

/-- `moveSearch`: the search from the spawn position. -/
def moveSearch (T : Tables) (fuel : Nat) (gameState : GameState) (piece : Piece)
    (inputFrameTimeline : List Char) (lockPlacements : List LockPlacement) :
    Option (Int × List LockPlacement) :=
  let spawnState : SimState :=
    { x := INITIAL_X, y := piece.initialY, rotationIndex := 0, frameIndex := 0, arrIndex := 0,
      piece := piece }
  moveSearchInternal T fuel gameState spawnState piece inputFrameTimeline lockPlacements

/-- `adjustmentSearch`: the search from a position in mid-air.  As in the source,
`existingRotation` is not used: the start state is in rotation 0. -/
def adjustmentSearch (T : Tables) (fuel : Nat) (gameState : GameState) (piece : Piece)
    (inputFrameTimeline : List Char)
    (existingXOffset existingYOffset existingRotation framesAlreadyElapsed : Int)
    (arrWasReset : Bool) (lockPlacements : List LockPlacement) :
    Option (Int × List LockPlacement) :=
  let startState : SimState :=
    { x := INITIAL_X + existingXOffset, y := piece.initialY + existingYOffset,
      rotationIndex := 0, frameIndex := 0,
      arrIndex := if arrWasReset then 0 else framesAlreadyElapsed, piece := piece }
  moveSearchInternal T fuel gameState startState piece inputFrameTimeline lockPlacements

/-! ## high_level_search.cpp -/

/-- The position part of a lock placement. -/
structure LockLocation where
  x : Int
  y : Int
  rotationIndex : Int
deriving DecidableEq

/-- A pair of placements with the evaluation of the state they lead to. The two
scores are floats. -/
structure Depth2Possibility where
  firstPlacement : LockLocation
  secondPlacement : LockLocation
  resultingState : GameState
  evalScore : Int
  immediateReward : Int
deriving DecidableEq

/-- The part of `EvalContext` that the search reads or passes on. -/
structure EvalContext where
  inputFrameTimeline : List Char
  weights : List Int
  shouldRewardLineClears : Int

/-- The functions that `high_level_search.cpp` takes from other files. The first
argument of `getPlayoutScore` is the number of playouts run before the call (a
playout draws random pieces, so two calls on one state can differ). The results
of `getLineClearFactor`, `fastEval` and `getPlayoutScore` are floats. -/
structure Evaluator where
  advanceGameState : GameState → LockPlacement → EvalContext → GameState
  getLineClearFactor : Int → List Int → Int → Int
  fastEval : GameState → GameState → LockPlacement → EvalContext → Int
  getPlayoutScore : Nat → GameState → Int → Int

/-- The float 1 in units of `2^-149`. -/
def floatOne : Nat := 2 ^ 149

/-- The spacing of the floats around a magnitude of `a` units: the least `u` among
the given one and its doubles with `a < u * 2^24` (a float has 24 significant
bits). From `u = 1` the fuel 253 reaches the spacing of the largest floats. -/
def floatSpacing : Nat → Nat → Nat → Nat
  | 0, u, _ => u
  | fuel + 1, u, a => if a < u * 16777216 then u else floatSpacing fuel (2 * u) a

/-- The whole multiple of the spacing `u` nearest to `a`, as a number of spacings:
the quotient rounded to nearest, a tie to the even neighbour. -/
def roundNearestEven (a u : Nat) : Nat :=
  let q := a / u
  let r := a % u
  if 2 * r < u then q else if 2 * r > u then q + 1 else if q % 2 = 0 then q else q + 1

/-- The float nearest to an exact number of units, ties to the even significand:
the result that a float operation delivers for its exact result. -/
def roundFloat (v : Int) : Int :=
  let a := v.natAbs
  let u := floatSpacing 253 1 a
  let m := roundNearestEven a u * u
  if v < 0 then -(m : Int) else (m : Int)

/-- The conversion of an `int` to `float`. -/
def floatOfInt (n : Int) : Int := roundFloat (n * floatOne)

/-- The `int` constant `UNEXPLORED_PENALTY`, converted to `float` by the sum it is
part of. -/
def UNEXPLORED_PENALTY : Int := floatOfInt (-500)

/-- The `int` constant `MAP_OFFSET`, converted to `float` by the sum it is part of. -/
def MAP_OFFSET : Int := floatOfInt 20000

/-- The decimal text that `%d` prints. -/
def decimalText (v : Int) : List Char :=
  if v < 0 then '-' :: Nat.toDigits 10 v.natAbs else Nat.toDigits 10 v.natAbs

/-- `encodeLockPosition`: the text `rot|x|y`. -/
def encodeLockPosition (lockLocation : LockLocation) : String :=
  String.mk (decimalText lockLocation.rotationIndex ++ '|' :: decimalText lockLocation.x ++
    '|' :: decimalText lockLocation.y)

/-- The list of `searchDepth2` with its cursor: `cutoffPossibility` is the position
the iterator points at (the length of the list for `end()`), `size` the counter. -/
structure Depth2List where
  possibilityList : List Depth2Possibility
  cutoffPossibility : Nat
  size : Int
deriving DecidableEq

/-- The position at which the sorted insertion loop stops: before the first entry
with a smaller score, or at the end. -/
def sortedInsertIndex (evalScore : Int) : List Depth2Possibility → Nat
  | [] => 0
  | p :: rest => if evalScore > p.evalScore then 0 else sortedInsertIndex evalScore rest + 1

/-- The first branch of the insertion policy: sorted insertion, then the update of
the cutoff cursor. An insertion at or before the cursor moves the cursor along with
its entry. `none` stands for an iterator step that C++ leaves undefined. -/
def insertSorted (keepTopN : Int) (st : Depth2List) (newPossibility : Depth2Possibility) :
    Option Depth2List :=
  let j := sortedInsertIndex newPossibility.evalScore st.possibilityList
  let list1 := st.possibilityList.take j ++ newPossibility :: st.possibilityList.drop j
  let cutoff1 := if j ≤ st.cutoffPossibility then st.cutoffPossibility + 1
    else st.cutoffPossibility
  let size1 := st.size + 1
  if size1 = keepTopN then
    if keepTopN - 1 < 0 ∨ list1.length < (keepTopN - 1).toNat then none
    else some { possibilityList := list1, cutoffPossibility := (keepTopN - 1).toNat, size := size1 }
  else if size1 > keepTopN then
    if cutoff1 = 0 then none
    else some { possibilityList := list1, cutoffPossibility := cutoff1 - 1, size := size1 }
  else some { possibilityList := list1, cutoffPossibility := cutoff1, size := size1 }

/-- The insertion policy of `searchDepth2` for one new possibility. -/
def depth2Insert (keepTopN : Int) (st : Depth2List) (newPossibility : Depth2Possibility) :
    Option Depth2List :=
  if st.size < keepTopN then insertSorted keepTopN st newPossibility
  else
    match st.possibilityList[st.cutoffPossibility]? with
    | none => none
    | some cutoff =>
      if newPossibility.evalScore > cutoff.evalScore then
        insertSorted keepTopN st newPossibility
      else some { st with possibilityList := st.possibilityList ++ [newPossibility] }

/-- The insertion policy applied to a sequence of possibilities in order. -/
def depth2InsertAll (keepTopN : Int) :
    List Depth2Possibility → Depth2List → Option Depth2List :=
  forEachM (fun newPossibility st => depth2Insert keepTopN st newPossibility)

/-- The possibility that `searchDepth2` builds for a pair of placements. -/
def newPossibility (E : Evaluator) (evalContext : EvalContext) (firstPlacement : LockPlacement)
    (afterFirstMove : GameState) (firstMoveReward : Int) (secondPlacement : LockPlacement) :
    Depth2Possibility :=
  let resultingState := E.advanceGameState afterFirstMove secondPlacement evalContext
  let evalScore :=
    roundFloat
      (firstMoveReward + E.fastEval afterFirstMove resultingState secondPlacement evalContext)
  let secondMoveReward :=
    E.getLineClearFactor (resultingState.lines - afterFirstMove.lines) evalContext.weights
      evalContext.shouldRewardLineClears
  { firstPlacement :=
      { x := firstPlacement.x, y := firstPlacement.y,
        rotationIndex := firstPlacement.rotationIndex },
    secondPlacement :=
      { x := secondPlacement.x, y := secondPlacement.y,
        rotationIndex := secondPlacement.rotationIndex },
    resultingState := resultingState,
    evalScore := evalScore,
    immediateReward := roundFloat (firstMoveReward + secondMoveReward) }

/-- The body of the outer loop of `searchDepth2`, for one first placement. -/
def searchDepth2First (T : Tables) (E : Evaluator) (fuel : Nat) (gameState : GameState)
    (secondPiece : Piece) (keepTopN : Int) (evalContext : EvalContext)
    (firstPlacement : LockPlacement) (st : Depth2List) : Option Depth2List :=
  let afterFirstMove := E.advanceGameState gameState firstPlacement evalContext
  let firstMoveReward :=
    E.getLineClearFactor (afterFirstMove.lines - gameState.lines) evalContext.weights
      evalContext.shouldRewardLineClears
  match moveSearch T fuel afterFirstMove secondPiece evalContext.inputFrameTimeline [] with
  | none => none
  | some (_, secondLockPlacements) =>
    depth2InsertAll keepTopN
      (secondLockPlacements.map
        (newPossibility E evalContext firstPlacement afterFirstMove firstMoveReward)) st

/-- `searchDepth2`: the returned count and the possibility list after the call. -/
def searchDepth2 (T : Tables) (E : Evaluator) (fuel : Nat) (gameState : GameState)
    (firstPiece secondPiece : Piece) (keepTopN : Int) (evalContext : EvalContext)
    (possibilityList : List Depth2Possibility) : Option (Int × List Depth2Possibility) :=
  match moveSearch T fuel gameState firstPiece evalContext.inputFrameTimeline [] with
  | none => none
  | some (_, firstLockPlacements) =>
    match forEachM (searchDepth2First T E fuel gameState secondPiece keepTopN evalContext)
        firstLockPlacements
        { possibilityList := possibilityList, cutoffPossibility := 0, size := 0 } with
    | none => none
    | some st => some ((st.possibilityList.length : Int), st.possibilityList)

/-- The possibilities of every pair of a first and a second placement, in the order
in which the two move searches enumerate them. -/
def enumeratedPossibilities (T : Tables) (E : Evaluator) (fuel : Nat) (gameState : GameState)
    (firstPiece secondPiece : Piece) (evalContext : EvalContext) :
    Option (List Depth2Possibility) :=
  match moveSearch T fuel gameState firstPiece evalContext.inputFrameTimeline [] with
  | none => none
  | some (_, firstLockPlacements) =>
    forEachM
      (fun firstPlacement acc =>
        let afterFirstMove := E.advanceGameState gameState firstPlacement evalContext
        let firstMoveReward :=
          E.getLineClearFactor (afterFirstMove.lines - gameState.lines) evalContext.weights
            evalContext.shouldRewardLineClears
        match moveSearch T fuel afterFirstMove secondPiece evalContext.inputFrameTimeline [] with
        | none => none
        | some (_, secondLockPlacements) =>
          some (acc ++ secondLockPlacements.map
            (newPossibility E evalContext firstPlacement afterFirstMove firstMoveReward)))
      firstLockPlacements []

/-- The state of the aggregation loop of `getLockValueLookupEncoded`. A key is
absent from `lockValueMap` while it maps to `none`; `lockValueRepeatMap` is only
read through `operator[]`, so it is its value with the default 0. `playoutLog`
lists the iteration indices at which `getPlayoutScore` was called. -/
structure Aggregation where
  lockValueMap : String → Option Int
  lockValueRepeatMap : String → Int
  i : Int
  numPlayedOut : Int
  playoutLog : List Int

/-- The score that the loop computes for a possibility before adding `MAP_OFFSET`:
one float sum when played out, two otherwise. -/
def candidateScore (E : Evaluator) (secondPiece : Piece) (shouldPlayout : Bool)
    (playoutsBefore : Nat) (possibility : Depth2Possibility) : Int :=
  if shouldPlayout then
    roundFloat (possibility.immediateReward +
      E.getPlayoutScore playoutsBefore possibility.resultingState secondPiece.index)
  else
    roundFloat
      (roundFloat (possibility.immediateReward + possibility.evalScore) + UNEXPLORED_PENALTY)

/-- The decision `shouldPlayout` of one iteration. -/
def shouldPlayout (keepTopN numSorted : Int) (st : Aggregation) (lockPosEncoded : String) :
    Bool :=
  st.i < numSorted && st.numPlayedOut < keepTopN && st.lockValueRepeatMap lockPosEncoded < 3

/-- The body of the aggregation loop for one possibility. -/
def aggregateStep (E : Evaluator) (secondPiece : Piece) (keepTopN numSorted : Int)
    (st : Aggregation) (possibility : Depth2Possibility) : Aggregation :=
  let lockPosEncoded := encodeLockPosition possibility.firstPlacement
  let playout := shouldPlayout keepTopN numSorted st lockPosEncoded
  let overallScore :=
    roundFloat
      (MAP_OFFSET + candidateScore E secondPiece playout st.playoutLog.length possibility)
  let stored := (st.lockValueMap lockPosEncoded).getD 0
  let improves : Bool := overallScore > stored
  { lockValueMap := fun k =>
      if k = lockPosEncoded then some (if improves then overallScore else stored)
      else st.lockValueMap k,
    lockValueRepeatMap := fun k =>
      if k = lockPosEncoded ∧ improves then st.lockValueRepeatMap k + 1
      else st.lockValueRepeatMap k,
    i := st.i + 1,
    numPlayedOut := if playout then st.numPlayedOut + 1 else st.numPlayedOut,
    playoutLog := if playout then st.playoutLog ++ [st.i] else st.playoutLog }

/-- The state in which the aggregation loop starts: empty maps and zero counters. -/
def aggregateInit : Aggregation :=
  { lockValueMap := fun _ => none, lockValueRepeatMap := fun _ => 0, i := 0,
    numPlayedOut := 0, playoutLog := [] }

/-- The aggregation loop of `getLockValueLookupEncoded` over a possibility list. -/
def aggregate (E : Evaluator) (secondPiece : Piece) (keepTopN : Int)
    (possibilityList : List Depth2Possibility) : Aggregation :=
  possibilityList.foldl (aggregateStep E secondPiece keepTopN (keepTopN * 2)) aggregateInit

/-- The value that the encoded lookup shows for a key of the map: the float
difference of the stored value and `MAP_OFFSET`. -/
def exposedValue (st : Aggregation) (key : String) : Option Int :=
  (st.lockValueMap key).map fun v => roundFloat (v - MAP_OFFSET)

/-- `getLockValueLookupEncoded` up to the text encoding: the aggregation of the
list that `searchDepth2` returns for `numSorted = 2 * keepTopN`. -/
def getLockValueLookup (T : Tables) (E : Evaluator) (fuel : Nat) (gameState : GameState)
    (firstPiece secondPiece : Piece) (keepTopN : Int) (evalContext : EvalContext) :
    Option Aggregation :=
  (searchDepth2 T E fuel gameState firstPiece secondPiece (keepTopN * 2) evalContext []).map
    fun r => aggregate E secondPiece keepTopN r.2

/-! ## Definitions used by the proofs -/

/-- Sorted insertion written by recursion on the list: the new possibility goes
before the first entry with a smaller score. -/
def insertDesc (newP : Depth2Possibility) : List Depth2Possibility → List Depth2Possibility
  | [] => [newP]
  | p :: rest =>
    if newP.evalScore > p.evalScore then newP :: p :: rest else p :: insertDesc newP rest

/-- A list of possibilities in descending order of score, ties allowed. -/
def SortedDesc (l : List Depth2Possibility) : Prop :=
  l.Pairwise fun a b => b.evalScore ≤ a.evalScore

/-- The invariant of the insertion policy for a positive `keepTopN`: until
`keepTopN` entries are in, the whole list is sorted and `size` is its length; from
then on the cursor is at position `keepTopN - 1`, the first `keepTopN` entries are
sorted and no later entry beats any of them. -/
def Depth2Inv (keepTopN : Int) (st : Depth2List) : Prop :=
  (st.size < keepTopN ∧ (st.possibilityList.length : Int) = st.size ∧
      SortedDesc st.possibilityList) ∨
  (keepTopN ≤ st.size ∧ st.cutoffPossibility + 1 = keepTopN.toNat ∧
    ∃ P T, st.possibilityList = P ++ T ∧ P.length = keepTopN.toNat ∧ SortedDesc P ∧
      ∀ p ∈ P, ∀ t ∈ T, t.evalScore ≤ p.evalScore)

/-- What one iteration of the aggregation loop does: the key, whether the
possibility is played out, its candidate score and whether the map is updated. -/
structure AggregationEvent where
  key : String
  playedOut : Bool
  candidate : Int
  improved : Bool
deriving DecidableEq

/-- The event of the iteration that starts in state `st` with possibility `p`. -/
def stepEvent (E : Evaluator) (secondPiece : Piece) (keepTopN numSorted : Int) (st : Aggregation)
    (p : Depth2Possibility) : AggregationEvent :=
  let key := encodeLockPosition p.firstPlacement
  let playout := shouldPlayout keepTopN numSorted st key
  let candidate := candidateScore E secondPiece playout st.playoutLog.length p
  { key := key, playedOut := playout, candidate := candidate,
    improved := roundFloat (MAP_OFFSET + candidate) > (st.lockValueMap key).getD 0 }

/-- The events of the iterations of the loop from state `st` over a list. -/
def aggregateEvents (E : Evaluator) (secondPiece : Piece) (keepTopN numSorted : Int) :
    Aggregation → List Depth2Possibility → List AggregationEvent
  | _, [] => []
  | st, p :: rest =>
    stepEvent E secondPiece keepTopN numSorted st p ::
      aggregateEvents E secondPiece keepTopN numSorted
        (aggregateStep E secondPiece keepTopN numSorted st p) rest

/-- The candidate scores of the iterations with the given key, in order. -/
def candidatesOf (key : String) (events : List AggregationEvent) : List Int :=
  (events.filter fun e => e.key = key).map fun e => e.candidate

/-- The number of map updates for the key that come from played-out possibilities. -/
def playoutUpdates (key : String) (events : List AggregationEvent) : Nat :=
  (events.filter fun e => e.key = key ∧ e.playedOut = true ∧ e.improved = true).length

/-- The invariant behind the playout budget. -/
def PlayoutInv (keepTopN : Int) (st : Aggregation) : Prop :=
  st.numPlayedOut = st.playoutLog.length ∧ st.numPlayedOut ≤ keepTopN ∧
    ∀ i ∈ st.playoutLog, i < keepTopN * 2

/-- The empty list of `searchDepth2` before the first insertion. -/
def depth2Init : Depth2List :=
  { possibilityList := [], cutoffPossibility := 0, size := 0 }

/-- A possibility for the examples: first placement `(3, y, 0)`, the given score
and reward. -/
def possibilityOf (y evalScore immediateReward : Int) : Depth2Possibility :=
  { firstPlacement := { x := 3, y := y, rotationIndex := 0 },
    secondPlacement := { x := 3, y := 15, rotationIndex := 0 },
    resultingState :=
      { board := [], surfaceArray := [], adjustedNumHoles := 0, lines := 0, level := 18 },
    evalScore := evalScore,
    immediateReward := immediateReward }

/-- An evaluator for the examples: the playouts return the listed scores in order. -/
def playoutsOf (scores : List Int) : Evaluator :=
  { advanceGameState := fun g _ _ => g,
    getLineClearFactor := fun _ _ _ => 0,
    fastEval := fun _ _ _ _ => 0,
    getPlayoutScore := fun k _ _ => scores.getD k 0 }

/-- The float `0.1f`, which is `13421773 * 2^-27`, in units of `2^-149`. -/
def floatTenth : Int := 13421773 * 2 ^ 122

/-- An evaluator for the examples that leaves the board unchanged and gives no line
clear reward: every fast evaluation is `eval`, every playout scores `playout`. -/
def constantEvaluator (eval playout : Int) : Evaluator :=
  { advanceGameState := fun g _ _ => g,
    getLineClearFactor := fun _ _ _ => 0,
    fastEval := fun _ _ _ _ => eval,
    getPlayoutScore := fun _ _ _ => playout }

/-- An evaluator for the examples that leaves the board unchanged and gives no line
clear reward: the fast evaluation is the whole number `3 - x` for a second
placement in column `x ≤ 3` and `x + 1` right of it, every playout scores 0. -/
def columnEvaluator : Evaluator :=
  { advanceGameState := fun g _ _ => g,
    getLineClearFactor := fun _ _ _ => 0,
    fastEval := fun _ _ p _ => if p.x ≤ 3 then floatOfInt (3 - p.x) else floatOfInt (p.x + 1),
    getPlayoutScore := fun _ _ _ => 0 }

/-- The evaluation context of the examples: inputs on every fourth frame. -/
def exampleContext : EvalContext :=
  { inputFrameTimeline := ['X', '.', '.', '.'], weights := [], shouldRewardLineClears := 0 }

/-- The O piece for the examples: cells in columns 1 and 2 of rows 1 and 2. -/
def pieceO : Piece :=
  { id := 'O', index := 1,
    rowsByRotation := [[0, 384, 384, 0], [-1, -1, -1, -1], [-1, -1, -1, -1], [-1, -1, -1, -1]],
    bottomSurfaceByRotation :=
      [[-1, 3, 3, -1], [-1, -1, -1, -1], [-1, -1, -1, -1], [-1, -1, -1, -1]],
    maxYByRotation := [17, -1, -1, -1],
    initialY := -1 }

/-- The T piece for the examples, pointing down in rotation 0. -/
def pieceT : Piece :=
  { id := 'T', index := 2,
    rowsByRotation := [[0, 448, 128, 0], [128, 384, 128, 0], [128, 448, 0, 0], [128, 192, 128, 0]],
    bottomSurfaceByRotation := [[-1, 2, 3, 2], [-1, 2, 3, -1], [-1, 2, 2, 2], [-1, -1, 3, 2]],
    maxYByRotation := [17, 17, 18, 17],
    initialY := -1 }

/-- Tables for the examples: the horizontal bounds of `pieceO` and `pieceT`, the
tuck inputs left, right and the two rotations, one tuck spot of the T piece, and
a table of shift rows that allows every row. -/
def exampleTables : Tables :=
  { X_BOUNDS_COLLISION_TABLE := fun index rot i =>
      let x := i - 3
      if index = 1 then (if x < -1 ∨ x > 7 then 1 else 0)
      else if rot = 1 then (if x < -1 ∨ x > 7 then 1 else 0)
      else if rot = 3 then (if x < -2 ∨ x > 6 then 1 else 0)
      else (if x < -1 ∨ x > 6 then 1 else 0),
    X_BOUNDS_COLLISION_TABLE_OFFSET := 3,
    TUCK_INPUTS :=
      [{ xChange := -1, rotationChange := 0, notationChar := 'L' },
       { xChange := 1, rotationChange := 0, notationChar := 'R' },
       { xChange := 0, rotationChange := 1, notationChar := 'A' },
       { xChange := 0, rotationChange := -1, notationChar := 'B' }],
    TUCK_SPOTS_LIST := fun index =>
      if index = 2 then [{ orientation := 2, x := 1, y := 1 }] else [],
    CAN_TUCK := true,
    computeYValueOfEachShift := fun _ _ initialY => List.replicate 7 initialY }

/-- The empty board with its surface, at level 18. -/
def emptyGame : GameState :=
  { board := List.replicate 20 0, surfaceArray := List.replicate 10 0, adjustedNumHoles := 0,
    lines := 0, level := 18 }

/-- The gravity phase and the frame advance, from the state `s1` after the inputs. -/
def afterGravity (T : Tables) (board : List Nat) (isGravityFrame : Bool) (s1 : SimState) :
    SimState :=
  let didLock : Bool :=
    isGravityFrame && collision T board s1.piece s1.x (s1.y + 1) s1.rotationIndex
  let s2 : SimState := if isGravityFrame && !didLock then { s1 with y := s1.y + 1 } else s1
  { s2 with frameIndex := s2.frameIndex + 1 }


/-- The frames left before gravity must lock the piece: `M` bounds the deepest row
of every rotation. -/
def framesLeft (M gravity : Int) (s : SimState) : Nat :=
  (M - s.y).toNat * gravity.toNat + (gravity.toNat - 1 - (s.frameIndex % gravity).toNat)


/-- The lock placement that `getLockPlacementsFast` makes of a legal state. -/
def toLockPlacement (surfaceArray : List Int) (simState : SimState) : LockPlacement :=
  { x := simState.x, y := lockRow surfaceArray simState,
    rotationIndex := simState.rotationIndex, inputSequenceTag := -1,
    tuckNotation := NO_TUCK_NOTATION, piece := simState.piece }

/-- What `findTucks` guarantees of a placement it emits: the notation is the one
that `findTuckInput` returns for the pose after the tuck in some row `y0`, it is
not the sentinel, and the placement is the rest position below that pose. -/
def TuckEmitted (T : Tables) (board : List Nat) (piece : Piece)
    (availableTuckCols minTuckYValsByNumPrevInputs : List Int) (p : LockPlacement) : Prop :=
  p.piece = piece ∧ p.tuckNotation ≠ NO_TUCK_NOTATION ∧
  collision T board piece p.x p.y p.rotationIndex = false ∧
  collision T board piece p.x (p.y + 1) p.rotationIndex = true ∧
  ∃ spot ∈ T.TUCK_SPOTS_LIST piece.index, ∃ y0 : Int,
    spot.orientation = p.rotationIndex ∧ y0 ≤ p.y ∧
    collision T board piece p.x y0 p.rotationIndex = false ∧
    p.tuckNotation = findTuckInput T board
      { x := p.x, y := y0, rotationIndex := p.rotationIndex, frameIndex := -1, arrIndex := -1,
        piece := piece }
      availableTuckCols minTuckYValsByNumPrevInputs

/-- The invariant of the loops of `findTucks`: the list is the input list followed
by emitted tucks. -/
def TuckInv (T : Tables) (board : List Nat) (piece : Piece)
    (availableTuckCols minTuckYValsByNumPrevInputs : List Int)
    (lockPlacements : List LockPlacement) (st : List LockPlacement × List Int) : Prop :=
  ∃ added, st.1 = lockPlacements ++ added ∧
    ∀ p ∈ added, TuckEmitted T board piece availableTuckCols minTuckYValsByNumPrevInputs p

/-- What the exploration from `s` guarantees of a state `a` that it registers: the
goal rotation, the piece, a pose that does not collide, and a column between the
column of `s` and the bound, different from the column of `s` unless `s` is at the
bound in another rotation. -/
def Registered (T : Tables) (board : List Nat) (inc bound goal : Int) (s a : SimState) : Prop :=
  a.rotationIndex = goal ∧ a.piece = s.piece ∧
  collision T board a.piece a.x a.y a.rotationIndex = false ∧
  0 ≤ inc * (a.x - s.x) ∧ inc * (a.x - s.x) ≤ inc * (bound - s.x) ∧
  (inc = 0 → a.x = s.x) ∧ (a.x = s.x → s.x = bound ∧ s.rotationIndex ≠ goal)

/-- What `moveSearchInternal` guarantees of a state in its legal list while it
explores the goal rotation `goal`. -/
def LegalFor (T : Tables) (board : List Nat) (piece : Piece) (goal : Int) (a : SimState) :
    Prop :=
  a.rotationIndex = goal ∧ a.piece = piece ∧
  collision T board a.piece a.x a.y a.rotationIndex = false

/-- The legal list of `moveSearchInternal`: states of the piece, in rotations that
exist, at poses that do not collide, no two in the same rotation and column. -/
def LegalList (T : Tables) (board : List Nat) (piece : Piece) (l : List SimState) : Prop :=
  (∀ a ∈ l, a.piece = piece ∧ collision T board a.piece a.x a.y a.rotationIndex = false ∧
    readAt (readAt piece.rowsByRotation a.rotationIndex []) 0 0 ≠ -1 ∧
    0 ≤ a.rotationIndex ∧ a.rotationIndex ≤ 3) ∧
  l.Pairwise fun a b => a.rotationIndex ≠ b.rotationIndex ∨ a.x ≠ b.x

/-- The state in which `moveSearch` spawns the piece. -/
def spawnStateOf (piece : Piece) : SimState :=
  { x := INITIAL_X, y := piece.initialY, rotationIndex := 0, frameIndex := 0, arrIndex := 0,
    piece := piece }

/-- The placement of the O piece resting on the floor of the empty board in column `x`. -/
def floorPlacementO (x : Int) : LockPlacement :=
  { x := x, y := 17, rotationIndex := 0, inputSequenceTag := -1, tuckNotation := '.',
    piece := pieceO }

/-- The four checks of a tuck input for the state after the tuck, in the words of
the specification: the pre-tuck column and rotation are derived in reverse, the row
lies between the row reachable after the inputs made before the tuck and the lock
row of the pre-tuck column, and the piece collides neither after the shift nor before
the tuck. -/
def TuckChecks (T : Tables) (board : List Nat) (afterTuckState : SimState)
    (availableTuckCols minYByNumInputs : List Int) (t : TuckInput) : Prop :=
  let preTuckX := afterTuckState.x - t.xChange
  let preTuckRot :=
    (afterTuckState.rotationIndex - t.rotationChange) % numOrientations afterTuckState.piece
  let numInputs := max (if preTuckRot = 3 then 1 else preTuckRot) |preTuckX - 3|
  readAt minYByNumInputs (numInputs + 1) 0 ≤ afterTuckState.y ∧
  afterTuckState.y ≤ readAt availableTuckCols (TUCK_COL_ENCODED preTuckRot preTuckX) 0 ∧
  collision T board afterTuckState.piece afterTuckState.x afterTuckState.y preTuckRot = false ∧
  collision T board afterTuckState.piece preTuckX afterTuckState.y preTuckRot = false

/-- The state after a tuck that `findTucks` hands to `findTuckInput`. -/
def tuckState (piece : Piece) (x y rot : Int) : SimState :=
  { x := x, y := y, rotationIndex := rot, frameIndex := -1, arrIndex := -1, piece := piece }

/-- Row `r` of the piece in rotation `rot`, as `collision` reads it. -/
def pieceRow (piece : Piece) (rot : Int) (r : Nat) : Int :=
  readAt (readAt piece.rowsByRotation rot []) (r : Int) 0

/-- Whether the piece in rotation `rot` has a cell in row `r` of its column `c`
(column 0 is bit 9 of the row mask). -/
def pieceCell (piece : Piece) (rot : Int) (r c : Nat) : Bool :=
  (pieceRow piece rot r).toNat.testBit (9 - c)

/-- The bottom surface entry of column `c`, as `getLockPlacementsFast` reads it. -/
def bottomOf (piece : Piece) (rot : Int) (c : Nat) : Int :=
  readAt (readAt piece.bottomSurfaceByRotation rot []) (c : Int) 0

/-- The tables of a rotation describe its row masks: the masks lie in the columns
0 to 3; the bottom surface of a column is -1 when the column is empty and otherwise
one more than the row of its lowest cell; `maxYByRotation` puts the lowest cell of
the rotation in row 19; the bounds table is set exactly for the columns `x` that
put a cell outside the columns 0 to 9. -/
def RotationDescribed (T : Tables) (piece : Piece) (rot : Int) : Prop :=
  (∀ r : Nat, r < 4 → 0 ≤ pieceRow piece rot r ∧
    ∀ i : Nat, (pieceRow piece rot r).toNat.testBit i = true → 6 ≤ i ∧ i ≤ 9) ∧
  (∀ c : Nat, c < 4 →
    (bottomOf piece rot c = -1 ∧ ∀ r : Nat, r < 4 → pieceCell piece rot r c = false) ∨
    (∃ r : Nat, r < 4 ∧ bottomOf piece rot c = (r : Int) + 1 ∧
      pieceCell piece rot r c = true ∧
      ∀ r2 : Nat, r2 < 4 → r < r2 → pieceCell piece rot r2 c = false)) ∧
  (∃ c : Nat, c < 4 ∧ bottomOf piece rot c ≠ -1 ∧
    readAt piece.maxYByRotation rot 0 = 20 - bottomOf piece rot c) ∧
  (∀ c : Nat, c < 4 → bottomOf piece rot c ≠ -1 →
    readAt piece.maxYByRotation rot 0 ≤ 20 - bottomOf piece rot c) ∧
  (∀ x : Int,
    T.X_BOUNDS_COLLISION_TABLE piece.index rot (x + T.X_BOUNDS_COLLISION_TABLE_OFFSET) ≠ 0 ↔
      ∃ c : Nat, c < 4 ∧ bottomOf piece rot c ≠ -1 ∧ (x + (c : Int) < 0 ∨ 9 < x + (c : Int)))

/-- The tables of a piece describe its row masks: every rotation that exists is
described, and the piece spawns in row -2 or below it. -/
def PieceDescribed (T : Tables) (piece : Piece) : Prop :=
  -2 ≤ piece.initialY ∧
  ∀ rot : Int, 0 ≤ rot → rot ≤ 3 →
    readAt (readAt piece.rowsByRotation rot []) 0 0 ≠ -1 → RotationDescribed T piece rot

/-- The row mask `n` moved by `x` columns, as a bit pattern. -/
def shiftedMask (n : Nat) (x : Int) : Nat :=
  if x > 0 then n >>> x.toNat else n <<< (-1 * x).toNat

/-- The board of the adjustment test of `move_search.cpp` with its surface array,
at level 18. -/
def stairGame : GameState :=
  { board := List.replicate 16 0 ++ [1016, 1016, 1020, 1022],
    surfaceArray := [4, 4, 4, 4, 4, 4, 4, 2, 1, 0], adjustedNumHoles := 0, lines := 0,
    level := 18 }

/-- A non-tuck placement of the O piece in column `x` and row `y`. -/
def placementO (x y : Int) : LockPlacement :=
  { x := x, y := y, rotationIndex := 0, inputSequenceTag := -1, tuckNotation := '.',
    piece := pieceO }

/-- The rotation after `n` steps of `rotateTowardsGoal` from rotation `cur` towards `goal`. -/
def rotationAfterSteps (goal : Int) : Nat → Int → Int
  | 0, cur => cur
  | n + 1, cur => rotationAfterSteps goal n (rotateTowardsGoal cur goal)

/-- A step from rotation `a` to rotation `b` is a right rotation. -/
@[reducible]
def IsRightRotation (a b : Int) : Prop := b = (a + 1) % 4

/-- A step from rotation `a` to rotation `b` is a left rotation. -/
@[reducible]
def IsLeftRotation (a b : Int) : Prop := b = (a - 1) % 4

/-- Modelled from the spec: the J piece, whose tables are in a file that is not
among the sources. Four row masks in the columns 0..3 for each rotation (column 0 is
bit 9), the bottom surface of each column (one more than the row of its lowest cell,
-1 for an empty column), the largest row of each rotation (the lowest cell in row
19), and the spawn row -1 of a piece whose index is not 0. -/
def pieceJ : Piece :=
  { id := 'J', index := 3,
    rowsByRotation := [[0, 448, 64, 0], [128, 128, 384, 0], [256, 448, 0, 0], [192, 128, 128, 0]],
    bottomSurfaceByRotation := [[-1, 2, 2, 3], [-1, 3, 3, -1], [-1, 2, 2, 2], [-1, -1, 3, 1]],
    maxYByRotation := [17, 17, 18, 17],
    initialY := -1 }

/-- The board without any filled cell. -/
def emptyBoard : List Nat := List.replicate 20 0

/-- The collision test in the words of the specification: the row is past the
largest row of the rotation, or the bit of the horizontal bounds table is set, or
some piece row `r` in 0..3 with `y + r >= 0` and a mask that is not zero, shifted by
`x`, overlaps the board row masked with `FULL_ROW`. -/
def collisionStated (T : Tables) (board : List Nat) (piece : Piece) (x y rot : Int) : Bool :=
  decide (y > readAt piece.maxYByRotation rot 0) ||
  decide (T.X_BOUNDS_COLLISION_TABLE piece.index rot (x + T.X_BOUNDS_COLLISION_TABLE_OFFSET) ≠ 0) ||
  (List.range 4).any fun (r : Nat) =>
    decide (0 ≤ y + (r : Int)) && decide (pieceRow piece rot r ≠ 0) &&
      decide (Int.land (SHIFTBY (pieceRow piece rot r) x)
        ((readAt board (y + (r : Int)) 0 &&& FULL_ROW : Nat) : Int) ≠ 0)

/-- The empty board with one auxiliary bit set: the hole bit of column 9 (bit 10)
in row 0. -/
def holeBitBoard : List Nat := 1024 :: List.replicate 19 0

/-- The value of a decimal digit. -/
def digitValue (c : Char) : Option Nat :=
  if 48 ≤ c.toNat ∧ c.toNat ≤ 57 then some (c.toNat - 48) else none

/-- The number that a text of decimal digits stands for, continuing from `acc`. -/
def parseNatural : List Char → Nat → Option Nat
  | [], acc => some acc
  | c :: rest, acc =>
    match digitValue c with
    | none => none
    | some d => parseNatural rest (acc * 10 + d)

/-- The integer that a decimal text stands for: digits, after a minus sign for a
negative number. -/
def parseDecimal (cs : List Char) : Option Int :=
  match cs with
  | [] => none
  | c :: rest =>
    if c = '-' then
      if rest = [] then none else (parseNatural rest 0).map fun n => -(n : Int)
    else (parseNatural (c :: rest) 0).map fun n => (n : Int)

/-- The fields of a text between its `'|'` separators. -/
def splitAtBars : List Char → List (List Char)
  | [] => [[]]
  | c :: rest =>
    if c = '|' then [] :: splitAtBars rest
    else
      match splitAtBars rest with
      | [] => [[c]]
      | field :: fields => (c :: field) :: fields

/-- The reading of a key `rot|x|y`: the text is split at its two separators and
each field is read as a decimal number. -/
def parseLockPosition (key : String) : Option LockLocation :=
  match splitAtBars key.data with
  | [rot, x, y] =>
    match parseDecimal rot, parseDecimal x, parseDecimal y with
    | some r, some xv, some yv => some { x := xv, y := yv, rotationIndex := r }
    | _, _, _ => none
  | _ => none

/-- The array `availableTuckCols` that `moveSearchInternal` hands to `findTucks`:
the zero-initialised array after `getLockPlacementsFast` has recorded the lock rows
of the legal list. `some none` when the search returns on a spawn collision. -/
def tuckColsHanded (T : Tables) (fuel : Nat) (gameState : GameState) (spawnState : SimState)
    (piece : Piece) (inputFrameTimeline : List Char) : Option (Option (List Int)) :=
  (rotationLoop T fuel gameState.board spawnState piece inputFrameTimeline
    (getGravity gameState.level) (intRange 0 3) []).map
    (Option.map fun legalMidairPlacements =>
      (getLockPlacementsFast gameState.surfaceArray legalMidairPlacements
        (List.replicate 40 0) []).1)

/-- A non-tuck placement of the T piece in column `x`, row `y` and rotation `rot`. -/
def placementT (x y rot : Int) : LockPlacement :=
  { x := x, y := y, rotationIndex := rot, inputSequenceTag := -1, tuckNotation := '.',
    piece := pieceT }

/-- The timeline `X...` of the scenarios. -/
def timelineX : List Char := ['X', '.', '.', '.']

/-- A state of the T piece in rotation 1, for the examples. -/
def stateT (x y frameIndex : Int) : SimState :=
  { x := x, y := y, rotationIndex := 1, frameIndex := frameIndex, arrIndex := 0, piece := pieceT }

/-- The hash `lockPieceY * 1000 + pieceX * 10 + spot.orientation` under which
`findTucks` remembers an emitted tuck. -/
def lockPositionHash (x y orientation : Int) : Int := y * 1000 + x * 10 + orientation

/-- The invariant of the loops of `findTucks` behind the deduplication: the hash of
every emitted tuck is in the set, and no two emitted tucks have the same hash. -/
def DedupInv (lockPlacements : List LockPlacement) (st : List LockPlacement × List Int) :
    Prop :=
  ∃ added, st.1 = lockPlacements ++ added ∧
    (∀ p ∈ added, lockPositionHash p.x p.y p.rotationIndex ∈ st.2 ∧
      p.tuckNotation ≠ NO_TUCK_NOTATION) ∧
    added.Pairwise fun p q =>
      lockPositionHash p.x p.y p.rotationIndex ≠ lockPositionHash q.x q.y q.rotationIndex

/-- A board without filled cells whose tuck-setup plane marks the columns 4 and 5 of
row 18 and the column 4 of row 19. -/
def overhangBoard : List Nat := List.replicate 18 0 ++ [50331648, 33554432]

/-- A tuck placement of the T piece with the notation `L`. -/
def tuckPlacementT (x y rot : Int) : LockPlacement :=
  { x := x, y := y, rotationIndex := rot, inputSequenceTag := -1, tuckNotation := 'L',
    piece := pieceT }

/-- A state of the O piece in rotation 0, for the examples. -/
def stateO (x y frameIndex : Int) : SimState :=
  { x := x, y := y, rotationIndex := 0, frameIndex := frameIndex, arrIndex := 0, piece := pieceO }

/-- The index `numInputs + 1` that `findTuckInput` uses on
`minTuckYValsByNumPrevInputs` for a tuck input. -/
def minYIndex (afterTuckState : SimState) (tuckInput : TuckInput) : Int :=
  let preTuckRot := preTuckRotIndex afterTuckState.piece afterTuckState.rotationIndex tuckInput
  let preTuckX := afterTuckState.x - tuckInput.xChange
  let numRotsBeforeTuck : Int := if preTuckRot = 3 then 1 else preTuckRot
  let numInputs := max numRotsBeforeTuck |preTuckX - SPAWN_X|
  numInputs + 1

/-- The index `TUCK_COL_ENCODED(preTuckRotIndex, preTuckX)` that `findTuckInput` uses
on `availableTuckCols` for a tuck input. -/
def tuckColIndex (afterTuckState : SimState) (tuckInput : TuckInput) : Int :=
  TUCK_COL_ENCODED
    (preTuckRotIndex afterTuckState.piece afterTuckState.rotationIndex tuckInput)
    (afterTuckState.x - tuckInput.xChange)

/-- The tuck input `R`: one shift to the right. -/
def tuckInputR : TuckInput := { xChange := 1, rotationChange := 0, notationChar := 'R' }

/-- The tuck input `L`: one shift to the left. -/
def tuckInputL : TuckInput := { xChange := -1, rotationChange := 0, notationChar := 'L' }

/-- The state `s` with another `arrIndex`. -/
def withArrIndex (k : Int) (s : SimState) : SimState := { s with arrIndex := k }

/-- The rows of the board that the scan of one column in `getSurfaceArray` reads,
in order. The loop condition `!(board[row] & colMask) && row < 20` evaluates
`board[row]` first, in every test of the condition. -/
def surfaceScanReads (board : List Nat) (colMask : Nat) : Nat → Nat → List Nat
  | 0, _ => []
  | fuel + 1, row =>
    row ::
      (if board.getD row 0 &&& colMask = 0 ∧ row < 20 then
        surfaceScanReads board colMask fuel (row + 1)
      else [])

/-! ## Depth-2 insertion -/

theorem take_drop_eq_insertDesc (newP : Depth2Possibility) (l : List Depth2Possibility) :
    l.take (sortedInsertIndex newP.evalScore l) ++
      newP :: l.drop (sortedInsertIndex newP.evalScore l) = insertDesc newP l := by
  induction l with
  | nil => simp [sortedInsertIndex, insertDesc]
  | cons p rest ih =>
    by_cases h : newP.evalScore > p.evalScore
    · simp [sortedInsertIndex, insertDesc, h]
    · simp [sortedInsertIndex, insertDesc, h, ih]

theorem insertDesc_perm (newP : Depth2Possibility) (l : List Depth2Possibility) :
    (insertDesc newP l).Perm (newP :: l) := by
  induction l with
  | nil => simp [insertDesc]
  | cons p rest ih =>
    by_cases h : newP.evalScore > p.evalScore
    · simp [insertDesc, h]
    · simp only [insertDesc, h, if_false]
      exact (List.Perm.cons p ih).trans (List.Perm.swap newP p rest)

theorem insertDesc_length (newP : Depth2Possibility) (l : List Depth2Possibility) :
    (insertDesc newP l).length = l.length + 1 := by
  simpa using (insertDesc_perm newP l).length_eq

theorem insertDesc_sorted (newP : Depth2Possibility) (l : List Depth2Possibility)
    (hl : SortedDesc l) : SortedDesc (insertDesc newP l) := by
  induction l with
  | nil => simp [insertDesc, SortedDesc]
  | cons p rest ih =>
    unfold SortedDesc at hl ih ⊢
    rw [List.pairwise_cons] at hl
    by_cases h : newP.evalScore > p.evalScore
    · simp only [insertDesc, h, if_true]
      refine List.Pairwise.cons ?_ (List.Pairwise.cons hl.1 hl.2)
      intro a ha
      rcases List.mem_cons.1 ha with rfl | ha
      · omega
      · have := hl.1 a ha
        omega
    · simp only [insertDesc, h, if_false]
      refine List.Pairwise.cons ?_ (ih hl.2)
      intro a ha
      rcases List.mem_cons.1 ((insertDesc_perm newP rest).mem_iff.1 ha) with rfl | ha
      · omega
      · exact hl.1 a ha

theorem insertDesc_append (newP : Depth2Possibility) (P T : List Depth2Possibility)
    (h : ∃ p ∈ P, p.evalScore < newP.evalScore) :
    insertDesc newP (P ++ T) = insertDesc newP P ++ T := by
  induction P with
  | nil => simp at h
  | cons p rest ih =>
    by_cases hp : newP.evalScore > p.evalScore
    · simp [insertDesc, hp]
    · obtain ⟨q, hq, hlt⟩ := h
      rcases List.mem_cons.1 hq with rfl | hq
      · omega
      · simp [insertDesc, hp, ih ⟨q, hq, hlt⟩]

theorem sortedInsertIndex_le (s : Int) (l : List Depth2Possibility) (i : Nat)
    (c : Depth2Possibility) (hc : l[i]? = some c) (hlt : c.evalScore < s) :
    sortedInsertIndex s l ≤ i := by
  induction l generalizing i with
  | nil => simp at hc
  | cons p rest ih =>
    by_cases hp : s > p.evalScore
    · simp [sortedInsertIndex, hp]
    · cases i with
      | zero => simp at hc; subst hc; omega
      | succ i =>
        simp at hc
        simp only [sortedInsertIndex, hp, if_false]
        have := ih i hc
        omega

theorem depth2Inv_init (keepTopN : Int) (h : 1 ≤ keepTopN) :
    Depth2Inv keepTopN depth2Init := by
  left
  simp [SortedDesc, depth2Init]
  omega

theorem sortedDesc_dropLast_getLast (Q : List Depth2Possibility) (hQ : SortedDesc Q)
    (hne : Q ≠ []) : SortedDesc Q.dropLast ∧
      ∀ p ∈ Q.dropLast, (Q.getLast hne).evalScore ≤ p.evalScore := by
  have hsplit := List.dropLast_append_getLast hne
  unfold SortedDesc at hQ ⊢
  rw [← hsplit, List.pairwise_append] at hQ
  refine ⟨hQ.1, fun p hp => hQ.2.2 p hp _ (by simp)⟩

theorem depth2Insert_inv (keepTopN : Int) (h : 1 ≤ keepTopN) (st : Depth2List)
    (newP : Depth2Possibility) (hinv : Depth2Inv keepTopN st) :
    ∃ st1, depth2Insert keepTopN st newP = some st1 ∧ Depth2Inv keepTopN st1 ∧
      st1.possibilityList.Perm (newP :: st.possibilityList) := by
  rcases hinv with ⟨hlt, hlen, hsorted⟩ | ⟨hge, hcut, P, T, hPT, hPlen, hPsorted, hPT2⟩
  · -- fewer than keepTopN entries: sorted insertion into a sorted list
    have hstep : depth2Insert keepTopN st newP = insertSorted keepTopN st newP := by
      simp [depth2Insert, hlt]
    rw [hstep]
    unfold insertSorted
    simp only [take_drop_eq_insertDesc]
    by_cases hN : st.size + 1 = keepTopN
    · have hguard : ¬ (keepTopN - 1 < 0 ∨
          (insertDesc newP st.possibilityList).length < (keepTopN - 1).toNat) := by
        rw [insertDesc_length]; omega
      simp only [hN, if_true, hguard, if_false]
      refine ⟨_, rfl, ?_, insertDesc_perm _ _⟩
      right
      refine ⟨by simp, by simp; omega, insertDesc newP st.possibilityList, [], by simp, ?_,
        insertDesc_sorted _ _ hsorted, by simp⟩
      rw [insertDesc_length]; omega
    · have hN2 : ¬ (st.size + 1 > keepTopN) := by omega
      simp only [hN, if_false, hN2]
      refine ⟨_, rfl, ?_, insertDesc_perm _ _⟩
      left
      refine ⟨by simp; omega, ?_, insertDesc_sorted _ _ hsorted⟩
      simp only [insertDesc_length]; push_cast; omega
  · -- the prefix is full
    have hn : 1 ≤ keepTopN.toNat := by omega
    have hPne : P ≠ [] := by
      intro h0; rw [h0] at hPlen; simp at hPlen; omega
    have hcutIdx : st.cutoffPossibility = P.length - 1 := by omega
    have hderef : st.possibilityList[st.cutoffPossibility]? = some (P.getLast hPne) := by
      rw [hPT, hcutIdx, List.getElem?_append_left (by
        have : 0 < P.length := List.length_pos.2 hPne
        omega), List.getLast_eq_getElem]
      simp
    have hnot : ¬ st.size < keepTopN := by omega
    by_cases hgt : newP.evalScore > (P.getLast hPne).evalScore
    · have hstep : depth2Insert keepTopN st newP = insertSorted keepTopN st newP := by
        simp [depth2Insert, hnot, hderef, hgt]
      rw [hstep]
      unfold insertSorted
      have hj : sortedInsertIndex newP.evalScore st.possibilityList ≤ st.cutoffPossibility :=
        sortedInsertIndex_le _ _ _ _ hderef hgt
      simp only [take_drop_eq_insertDesc]
      have hN : ¬ (st.size + 1 = keepTopN) := by omega
      have hN2 : st.size + 1 > keepTopN := by omega
      simp only [hN, if_false, hN2, if_true, hj]
      simp only [Nat.add_one_ne_zero, if_false, Nat.add_sub_cancel]
      refine ⟨_, rfl, ?_, insertDesc_perm _ _⟩
      right
      have happ : insertDesc newP st.possibilityList = insertDesc newP P ++ T := by
        rw [hPT]
        exact insertDesc_append _ _ _ ⟨_, List.getLast_mem hPne, hgt⟩
      have hQne : insertDesc newP P ≠ [] := by
        intro h0
        have := insertDesc_length newP P
        rw [h0] at this; simp at this
      have hQ := sortedDesc_dropLast_getLast _ (insertDesc_sorted newP P hPsorted) hQne
      refine ⟨by simp; omega, hcut, (insertDesc newP P).dropLast,
        (insertDesc newP P).getLast hQne :: T, ?_, ?_, hQ.1, ?_⟩
      · simp only [happ]
        rw [show (insertDesc newP P).dropLast ++ (insertDesc newP P).getLast hQne :: T =
          ((insertDesc newP P).dropLast ++ [(insertDesc newP P).getLast hQne]) ++ T by simp,
          List.dropLast_append_getLast hQne]
      · simp [insertDesc_length]; omega
      · intro p hp t ht
        rcases List.mem_cons.1 ht with hteq | htT
        · rw [hteq]; exact hQ.2 p hp
        · have hpQ : p ∈ insertDesc newP P := List.mem_of_mem_dropLast hp
          rcases List.mem_cons.1 ((insertDesc_perm newP P).mem_iff.1 hpQ) with hpeq | hpP
          · have := hPT2 _ (List.getLast_mem hPne) t htT
            rw [hpeq]
            omega
          · exact hPT2 p hpP t htT
    · have hstep : depth2Insert keepTopN st newP =
          some { st with possibilityList := st.possibilityList ++ [newP] } := by
        simp [depth2Insert, hnot, hderef, hgt]
      rw [hstep]
      refine ⟨_, rfl, ?_, ?_⟩
      · right
        refine ⟨hge, hcut, P, T ++ [newP], by simp [hPT], hPlen, hPsorted, ?_⟩
        intro p hp t ht
        rcases List.mem_append.1 ht with ht | ht
        · exact hPT2 p hp t ht
        · simp at ht; subst ht
          have hlast : (P.getLast hPne).evalScore ≤ p.evalScore := by
            have hsplit := List.dropLast_append_getLast hPne
            rw [← hsplit] at hp
            rcases List.mem_append.1 hp with hp | hp
            · exact (sortedDesc_dropLast_getLast P hPsorted hPne).2 p hp
            · simp at hp; rw [hp]
          omega
      · simp

theorem depth2InsertAll_inv (keepTopN : Int) (h : 1 ≤ keepTopN) (ps : List Depth2Possibility)
    (st : Depth2List) (hinv : Depth2Inv keepTopN st) :
    ∃ st1, depth2InsertAll keepTopN ps st = some st1 ∧ Depth2Inv keepTopN st1 ∧
      st1.possibilityList.Perm (st.possibilityList ++ ps) := by
  induction ps generalizing st with
  | nil => exact ⟨st, rfl, hinv, by simp⟩
  | cons p rest ih =>
    obtain ⟨st1, h1, hinv1, hperm1⟩ := depth2Insert_inv keepTopN h st p hinv
    obtain ⟨st2, h2, hinv2, hperm2⟩ := ih st1 hinv1
    refine ⟨st2, ?_, hinv2, ?_⟩
    · simp only [depth2InsertAll, forEachM, h1]
      exact h2
    · refine hperm2.trans ?_
      refine (List.Perm.append_right rest hperm1).trans ?_
      simp
      exact List.perm_middle.symm

/-- With the invariant, no entry after the first `keepTopN` beats one of them. -/
theorem depth2Inv_prefix_suffix (keepTopN : Int) (st : Depth2List)
    (hinv : Depth2Inv keepTopN st) :
    ∀ a ∈ st.possibilityList.take keepTopN.toNat,
      ∀ b ∈ st.possibilityList.drop keepTopN.toNat, b.evalScore ≤ a.evalScore := by
  rcases hinv with ⟨hlt, hlen, _⟩ | ⟨_, _, P, T, hPT, hPlen, _, hPT2⟩
  · intro a _ b hb
    have hle : st.possibilityList.length ≤ keepTopN.toNat := by omega
    rw [List.drop_of_length_le hle] at hb
    simp at hb
  · intro a ha b hb
    rw [hPT, ← hPlen, List.take_left] at ha
    rw [hPT, ← hPlen, List.drop_left] at hb
    exact hPT2 a ha b hb

/-- With the invariant, the first `keepTopN` entries are in descending order. -/
theorem depth2Inv_prefix_sorted (keepTopN : Int) (st : Depth2List)
    (hinv : Depth2Inv keepTopN st) :
    SortedDesc (st.possibilityList.take keepTopN.toNat) := by
  rcases hinv with ⟨_, _, hsorted⟩ | ⟨_, _, P, T, hPT, hPlen, hPsorted, _⟩
  · exact List.Pairwise.sublist (List.take_sublist _ _) hsorted
  · rw [hPT, ← hPlen, List.take_left]
    exact hPsorted

/-- C3 (cutoff invariant of `searchDepth2`). For every `keepTopN ≥ 1` and every
sequence of possibilities fed to the insertion policy in order, starting from the
empty list, the policy yields a list in which no entry at a position `≥ keepTopN`
has a larger `evalScore` than the entry at position `keepTopN - 1`; more generally
no such entry beats any of the first `keepTopN` entries, so these are the
`keepTopN` highest-scoring possibilities. -/
theorem searchDepth2_cutoff_invariant (keepTopN : Int) (h : 1 ≤ keepTopN)
    (ps : List Depth2Possibility) :
    ∃ st, depth2InsertAll keepTopN ps depth2Init = some st ∧
      (∀ cutoff, st.possibilityList[keepTopN.toNat - 1]? = some cutoff →
        ∀ j p, keepTopN.toNat ≤ j → st.possibilityList[j]? = some p →
          p.evalScore ≤ cutoff.evalScore) ∧
      (∀ a ∈ st.possibilityList.take keepTopN.toNat,
        ∀ b ∈ st.possibilityList.drop keepTopN.toNat, b.evalScore ≤ a.evalScore) := by
  obtain ⟨st, hst, hinv, _⟩ :=
    depth2InsertAll_inv keepTopN h ps depth2Init (depth2Inv_init keepTopN h)
  have hps := depth2Inv_prefix_suffix keepTopN st hinv
  refine ⟨st, hst, ?_, hps⟩
  intro cutoff hcut j p hj hp
  have hn : 1 ≤ keepTopN.toNat := by omega
  refine hps cutoff ?_ p ?_
  · rw [List.mem_iff_getElem?]
    refine ⟨keepTopN.toNat - 1, ?_⟩
    rw [List.getElem?_take_of_lt (by omega)]
    exact hcut
  · rw [List.mem_iff_getElem?]
    refine ⟨j - keepTopN.toNat, ?_⟩
    rw [List.getElem?_drop]
    rw [show keepTopN.toNat + (j - keepTopN.toNat) = j by omega]
    exact hp

/-- Scenario S5 for C3: with `keepTopN = 2` the scores `[3, 1, 5, 2, 4]` give the
list `[5, 4, 3, 1, 2]`: it begins `[5, 4]` and every later entry is at most 4. -/
theorem searchDepth2_cutoff_invariant_witness :
    (1 : Int) ≤ 2 ∧
    (∃ st, depth2InsertAll 2 ([3, 1, 5, 2, 4].map fun s => possibilityOf 17 s 0) depth2Init =
        some st ∧
      (∀ cutoff, st.possibilityList[(2 : Int).toNat - 1]? = some cutoff →
        ∀ j p, (2 : Int).toNat ≤ j → st.possibilityList[j]? = some p →
          p.evalScore ≤ cutoff.evalScore) ∧
      (∀ a ∈ st.possibilityList.take (2 : Int).toNat,
        ∀ b ∈ st.possibilityList.drop (2 : Int).toNat, b.evalScore ≤ a.evalScore)) ∧
    (depth2InsertAll 2 ([3, 1, 5, 2, 4].map fun s => possibilityOf 17 s 0) depth2Init).map
        (fun st => st.possibilityList.map fun p => p.evalScore) = some [5, 4, 3, 1, 2] :=
  ⟨by decide, searchDepth2_cutoff_invariant 2 (by decide) _, by decide⟩

/-- C4 as stated fails: with `keepTopN = 2` two possibilities of equal score 1 give
the list `[1, 1]`, whose first two entries are not strictly descending. -/
theorem depth2_prefix_not_strict :
    (depth2InsertAll 2 [possibilityOf 17 1 0, possibilityOf 16 1 0] depth2Init).map
        (fun st => (st.possibilityList.take 2).map fun p => p.evalScore) = some [1, 1] ∧
    ¬ ∃ st, depth2InsertAll 2 [possibilityOf 17 1 0, possibilityOf 16 1 0] depth2Init = some st ∧
      (st.possibilityList.take (min 2 st.possibilityList.length)).Pairwise
        fun a b => b.evalScore < a.evalScore := by
  refine ⟨by decide, ?_⟩
  rintro ⟨st, hst, hstrict⟩
  have hval : depth2InsertAll 2 [possibilityOf 17 1 0, possibilityOf 16 1 0] depth2Init =
      some { possibilityList := [possibilityOf 17 1 0, possibilityOf 16 1 0],
             cutoffPossibility := 1, size := 2 } := by decide
  rw [hval] at hst
  cases hst
  revert hstrict
  decide

/-- C4 (depth-2 prefix order), amended. For every `keepTopN ≥ 1` and every sequence
of possibilities inserted by the policy of `searchDepth2`, the first
`min keepTopN length` entries of the resulting list are in descending order of
`evalScore` with ties allowed: each of them is at least as large as every entry
that follows it in the prefix. -/
theorem depth2_prefix_descending (keepTopN : Int) (h : 1 ≤ keepTopN)
    (ps : List Depth2Possibility) :
    ∃ st, depth2InsertAll keepTopN ps depth2Init = some st ∧
      (st.possibilityList.take (min keepTopN.toNat st.possibilityList.length)).Pairwise
        fun a b => b.evalScore ≤ a.evalScore := by
  obtain ⟨st, hst, hinv, _⟩ :=
    depth2InsertAll_inv keepTopN h ps depth2Init (depth2Inv_init keepTopN h)
  refine ⟨st, hst, ?_⟩
  have hsorted := depth2Inv_prefix_sorted keepTopN st hinv
  unfold SortedDesc at hsorted
  rcases Nat.le_total keepTopN.toNat st.possibilityList.length with hle | hle
  · rw [Nat.min_eq_left hle]; exact hsorted
  · rw [Nat.min_eq_right hle, List.take_length]
    rw [List.take_of_length_le hle] at hsorted
    exact hsorted

/-- An instance of the amended C4: `keepTopN = 2` and the scores `[1, 1, 3]`. -/
theorem depth2_prefix_descending_witness :
    (1 : Int) ≤ 2 ∧
    ∃ st, depth2InsertAll 2 ([1, 1, 3].map fun s => possibilityOf 17 s 0) depth2Init = some st ∧
      (st.possibilityList.take (min (2 : Int).toNat st.possibilityList.length)).Pairwise
        fun a b => b.evalScore ≤ a.evalScore :=
  ⟨by decide, depth2_prefix_descending 2 (by decide) _⟩

/-! ## Float rounding -/

theorem floatSpacing_succ_lt (fuel u a : Nat) (h : a < u * 16777216) :
    floatSpacing (fuel + 1) u a = u := by
  simp [floatSpacing, h]

theorem floatSpacing_succ_ge (fuel u a : Nat) (h : ¬ a < u * 16777216) :
    floatSpacing (fuel + 1) u a = floatSpacing fuel (2 * u) a := by
  simp [floatSpacing, h]

theorem floatSpacing_dvd (fuel u a : Nat) : u ∣ floatSpacing fuel u a := by
  induction fuel generalizing u with
  | zero => simp [floatSpacing]
  | succ k ih =>
    by_cases h : a < u * 16777216
    · rw [floatSpacing_succ_lt k u a h]
    · rw [floatSpacing_succ_ge k u a h]
      exact dvd_trans (dvd_mul_left u 2) (ih (2 * u))

theorem floatSpacing_pos (fuel u a : Nat) (hu : 0 < u) : 0 < floatSpacing fuel u a := by
  induction fuel generalizing u with
  | zero => simpa [floatSpacing] using hu
  | succ k ih =>
    by_cases h : a < u * 16777216
    · rw [floatSpacing_succ_lt k u a h]; exact hu
    · rw [floatSpacing_succ_ge k u a h]; exact ih (2 * u) (by omega)

/-- A multiple of the spacing of `a` with at most `2^24` spacings is a multiple of
its own spacing. -/
theorem floatSpacing_round (fuel u a n : Nat) (hu : 0 < u)
    (hn : a < floatSpacing fuel u a * 16777216 → n ≤ 16777216) :
    floatSpacing fuel u (n * floatSpacing fuel u a) ∣ n * floatSpacing fuel u a := by
  induction fuel generalizing u with
  | zero => simp [floatSpacing]
  | succ k ih =>
    by_cases ha : a < u * 16777216
    · rw [floatSpacing_succ_lt k u a ha] at hn ⊢
      have hn2 := hn ha
      by_cases hb : n * u < u * 16777216
      · rw [floatSpacing_succ_lt k u _ hb]; exact dvd_mul_left u n
      · rw [floatSpacing_succ_ge k u _ hb]
        have hnu : n = 16777216 := by
          by_contra hne
          have hlt : n < 16777216 := by omega
          exact hb (by rw [Nat.mul_comm n u]; exact Nat.mul_lt_mul_of_pos_left hlt hu)
        subst hnu
        cases k with
        | zero => simp only [floatSpacing]; exact ⟨8388608, by ring⟩
        | succ j =>
          rw [floatSpacing_succ_lt j (2 * u) _ (by omega)]
          exact ⟨8388608, by ring⟩
    · rw [floatSpacing_succ_ge k u a ha] at hn ⊢
      by_cases hb : n * floatSpacing k (2 * u) a < u * 16777216
      · rw [floatSpacing_succ_lt k u _ hb]
        exact dvd_mul_of_dvd_right
          (dvd_trans (dvd_mul_left u 2) (floatSpacing_dvd k (2 * u) a)) n
      · rw [floatSpacing_succ_ge k u _ hb]
        exact ih (2 * u) (by omega) hn

theorem roundNearestEven_le (a u : Nat) : roundNearestEven a u ≤ a / u + 1 := by
  unfold roundNearestEven
  dsimp only
  split
  · omega
  · split
    · omega
    · split <;> omega

theorem roundNearestEven_of_dvd (a u : Nat) (hu : 0 < u) (h : u ∣ a) :
    roundNearestEven a u * u = a := by
  unfold roundNearestEven
  dsimp only
  rw [Nat.mod_eq_zero_of_dvd h, if_pos (by omega)]
  exact Nat.div_mul_cancel h

/-- A number of units that is a multiple of the spacing around it is a float. -/
theorem roundFloat_of_dvd (v : Int) (h : floatSpacing 253 1 v.natAbs ∣ v.natAbs) :
    roundFloat v = v := by
  unfold roundFloat
  dsimp only
  rw [roundNearestEven_of_dvd _ _ (floatSpacing_pos 253 1 _ (by omega)) h]
  split <;> omega

/-- Rounding delivers a float: rounding it again changes nothing. -/
theorem roundFloat_roundFloat (v : Int) : roundFloat (roundFloat v) = roundFloat v := by
  apply roundFloat_of_dvd
  have habs : (roundFloat v).natAbs =
      roundNearestEven v.natAbs (floatSpacing 253 1 v.natAbs) * floatSpacing 253 1 v.natAbs := by
    unfold roundFloat
    dsimp only
    split
    · rw [Int.natAbs_neg, Int.natAbs_ofNat]
    · rw [Int.natAbs_ofNat]
  rw [habs]
  apply floatSpacing_round 253 1 v.natAbs _ (by omega)
  intro hlt
  have hq : v.natAbs / floatSpacing 253 1 v.natAbs < 16777216 :=
    Nat.div_lt_of_lt_mul hlt
  have := roundNearestEven_le v.natAbs (floatSpacing 253 1 v.natAbs)
  omega

theorem roundFloat_neg (v : Int) : roundFloat (-v) = -roundFloat v := by
  unfold roundFloat
  dsimp only
  rw [Int.natAbs_neg]
  by_cases h0 : v = 0
  · subst h0; simp [roundNearestEven]
  · by_cases hv : v < 0
    · rw [if_neg (by omega), if_pos hv]; omega
    · rw [if_pos (by omega), if_neg hv]

theorem roundFloat_MAP_OFFSET : roundFloat MAP_OFFSET = MAP_OFFSET := by
  unfold MAP_OFFSET floatOfInt
  exact roundFloat_roundFloat _

theorem candidateScore_float (E : Evaluator) (secondPiece : Piece) (playout : Bool) (k : Nat)
    (p : Depth2Possibility) :
    roundFloat (candidateScore E secondPiece playout k p) =
      candidateScore E secondPiece playout k p := by
  unfold candidateScore
  split <;> exact roundFloat_roundFloat _

/-! ## Aggregation -/

theorem foldl_max_le (l : List Int) (a : Int) : a ≤ l.foldl max a := by
  induction l generalizing a with
  | nil => simp
  | cons b rest ih => exact le_trans (le_max_left a b) (ih (max a b))

theorem foldl_max_ge_of_mem (l : List Int) (a b : Int) (hb : b ∈ l) : b ≤ l.foldl max a := by
  induction l generalizing a with
  | nil => simp at hb
  | cons c rest ih =>
    rcases List.mem_cons.1 hb with rfl | hb
    · exact le_trans (le_max_right a b) (foldl_max_le rest (max a b))
    · exact ih (max a c) hb

theorem foldl_max_mem (l : List Int) (a : Int) : l.foldl max a = a ∨ l.foldl max a ∈ l := by
  induction l generalizing a with
  | nil => simp
  | cons c rest ih =>
    rw [List.foldl_cons]
    rcases ih (max a c) with h | h
    · rcases max_choice a c with h2 | h2
      · left; rw [h, h2]
      · right; rw [h, h2]; exact List.mem_cons_self c rest
    · right; exact List.mem_cons_of_mem c h

theorem foldl_max_add (l : List Int) (a c : Int) :
    (l.map fun v => c + v).foldl max (c + a) = c + l.foldl max a := by
  induction l generalizing a with
  | nil => simp
  | cons b rest ih =>
    simp only [List.map_cons, List.foldl_cons]
    rw [← ih (max a b), max_add_add_left]

/-- The map after the loop, key by key: a key without iteration keeps its entry, a
key with iterations holds the largest of its old value (0 when absent) and the
float sums of `MAP_OFFSET` and its candidates. -/
theorem foldl_aggregateStep_map (E : Evaluator) (secondPiece : Piece) (keepTopN numSorted : Int)
    (ps : List Depth2Possibility) (st : Aggregation) (key : String) :
    (ps.foldl (aggregateStep E secondPiece keepTopN numSorted) st).lockValueMap key =
      if candidatesOf key (aggregateEvents E secondPiece keepTopN numSorted st ps) = [] then
        st.lockValueMap key
      else
        some (((candidatesOf key (aggregateEvents E secondPiece keepTopN numSorted st ps)).map
          fun v => roundFloat (MAP_OFFSET + v)).foldl max ((st.lockValueMap key).getD 0)) := by
  induction ps generalizing st with
  | nil => simp [aggregateEvents, candidatesOf]
  | cons p rest ih =>
    rw [List.foldl_cons, ih]
    by_cases hk : encodeLockPosition p.firstPlacement = key
    · have hne : candidatesOf key (aggregateEvents E secondPiece keepTopN numSorted st (p :: rest))
          ≠ [] := by
        simp [aggregateEvents, candidatesOf, stepEvent, hk]
      rw [if_neg hne]
      have hstep : (aggregateStep E secondPiece keepTopN numSorted st p).lockValueMap key =
          some (max ((st.lockValueMap key).getD 0)
            (roundFloat
              (MAP_OFFSET + (stepEvent E secondPiece keepTopN numSorted st p).candidate))) := by
        simp only [aggregateStep, stepEvent, hk, if_true, decide_eq_true_eq]
        split
        · rename_i h; rw [max_eq_right (le_of_lt h)]
        · rename_i h; rw [max_eq_left (not_lt.1 h)]
      have hcons : candidatesOf key
          (aggregateEvents E secondPiece keepTopN numSorted st (p :: rest)) =
          (stepEvent E secondPiece keepTopN numSorted st p).candidate ::
            candidatesOf key (aggregateEvents E secondPiece keepTopN numSorted
              (aggregateStep E secondPiece keepTopN numSorted st p) rest) := by
        simp [aggregateEvents, candidatesOf, stepEvent, hk]
      rw [hcons, hstep]
      split
      · rename_i h0; simp [h0]
      · simp
    · have hstep : (aggregateStep E secondPiece keepTopN numSorted st p).lockValueMap key =
          st.lockValueMap key := by
        simp [aggregateStep, Ne.symm hk]
      have hcons : candidatesOf key
          (aggregateEvents E secondPiece keepTopN numSorted st (p :: rest)) =
            candidatesOf key (aggregateEvents E secondPiece keepTopN numSorted
              (aggregateStep E secondPiece keepTopN numSorted st p) rest) := by
        simp [aggregateEvents, candidatesOf, stepEvent, hk]
      rw [hcons, hstep]

theorem aggregateStep_playoutInv (E : Evaluator) (secondPiece : Piece) (keepTopN : Int)
    (st : Aggregation) (p : Depth2Possibility) (h : PlayoutInv keepTopN st) :
    PlayoutInv keepTopN (aggregateStep E secondPiece keepTopN (keepTopN * 2) st p) := by
  obtain ⟨h1, h2, h3⟩ := h
  unfold PlayoutInv aggregateStep
  by_cases hp : shouldPlayout keepTopN (keepTopN * 2) st (encodeLockPosition p.firstPlacement) = true
  · have hp2 := hp
    simp only [shouldPlayout, Bool.and_eq_true, decide_eq_true_eq] at hp2
    simp only [hp, if_true]
    refine ⟨by simp; omega, by omega, ?_⟩
    intro i hi
    rcases List.mem_append.1 hi with hi | hi
    · exact h3 i hi
    · simp at hi; omega
  · simp only [hp]
    exact ⟨h1, h2, h3⟩

theorem foldl_aggregateStep_playoutInv (E : Evaluator) (secondPiece : Piece) (keepTopN : Int)
    (ps : List Depth2Possibility) (st : Aggregation) (h : PlayoutInv keepTopN st) :
    PlayoutInv keepTopN (ps.foldl (aggregateStep E secondPiece keepTopN (keepTopN * 2)) st) := by
  induction ps generalizing st with
  | nil => exact h
  | cons p rest ih => exact ih _ (aggregateStep_playoutInv E secondPiece keepTopN st p h)

/-- The number of played-out updates of a key stays below its repeat counter and below 3. -/
theorem playoutUpdates_le (E : Evaluator) (secondPiece : Piece) (keepTopN numSorted : Int)
    (ps : List Depth2Possibility) (st : Aggregation) (key : String) (n : Nat)
    (hn : (n : Int) ≤ st.lockValueRepeatMap key) (hn3 : n ≤ 3) :
    n + playoutUpdates key (aggregateEvents E secondPiece keepTopN numSorted st ps) ≤ 3 ∧
    (n + playoutUpdates key (aggregateEvents E secondPiece keepTopN numSorted st ps) : Int) ≤
      (ps.foldl (aggregateStep E secondPiece keepTopN numSorted) st).lockValueRepeatMap key := by
  induction ps generalizing st n with
  | nil => simp [aggregateEvents, playoutUpdates]; exact ⟨hn3, hn⟩
  | cons p rest ih =>
    rw [List.foldl_cons]
    by_cases hev : (encodeLockPosition p.firstPlacement = key ∧
        shouldPlayout keepTopN numSorted st (encodeLockPosition p.firstPlacement) = true) ∧
        roundFloat (MAP_OFFSET + candidateScore E secondPiece
          (shouldPlayout keepTopN numSorted st (encodeLockPosition p.firstPlacement))
          st.playoutLog.length p) >
            (st.lockValueMap (encodeLockPosition p.firstPlacement)).getD 0
    · obtain ⟨⟨hk, hp⟩, himp⟩ := hev
      subst hk
      have hp2 := hp
      simp only [shouldPlayout, Bool.and_eq_true, decide_eq_true_eq] at hp2
      have himp2 : (st.lockValueMap (encodeLockPosition p.firstPlacement)).getD 0 <
          roundFloat (MAP_OFFSET + candidateScore E secondPiece true st.playoutLog.length p) := by
        rw [hp] at himp; exact himp
      have hcount : playoutUpdates (encodeLockPosition p.firstPlacement)
          (aggregateEvents E secondPiece keepTopN numSorted st (p :: rest)) =
          playoutUpdates (encodeLockPosition p.firstPlacement)
            (aggregateEvents E secondPiece keepTopN numSorted
            (aggregateStep E secondPiece keepTopN numSorted st p) rest) + 1 := by
        simp [aggregateEvents, playoutUpdates, stepEvent, hp, himp2]
      have hrep : (aggregateStep E secondPiece keepTopN numSorted st p).lockValueRepeatMap
          (encodeLockPosition p.firstPlacement) =
          st.lockValueRepeatMap (encodeLockPosition p.firstPlacement) + 1 := by
        simp [aggregateStep, hp, himp2]
      have := ih (aggregateStep E secondPiece keepTopN numSorted st p) (n + 1)
        (by rw [hrep]; push_cast; omega) (by omega)
      rw [hcount]
      constructor
      · omega
      · have h2 := this.2
        push_cast at h2 ⊢
        omega
    · have hcount : playoutUpdates key
          (aggregateEvents E secondPiece keepTopN numSorted st (p :: rest)) =
          playoutUpdates key (aggregateEvents E secondPiece keepTopN numSorted
            (aggregateStep E secondPiece keepTopN numSorted st p) rest) := by
        simp only [aggregateEvents, playoutUpdates, stepEvent]
        rw [List.filter_cons_of_neg]
        simpa [and_assoc] using hev
      have hrep : st.lockValueRepeatMap key ≤
          (aggregateStep E secondPiece keepTopN numSorted st p).lockValueRepeatMap key := by
        simp only [aggregateStep]
        split <;> omega
      rw [hcount]
      exact ih (aggregateStep E secondPiece keepTopN numSorted st p) n (by omega) hn3

theorem aggregateEvents_keys (E : Evaluator) (secondPiece : Piece) (keepTopN numSorted : Int)
    (ps : List Depth2Possibility) (st : Aggregation) :
    (aggregateEvents E secondPiece keepTopN numSorted st ps).map (fun e => e.key) =
      ps.map fun p => encodeLockPosition p.firstPlacement := by
  induction ps generalizing st with
  | nil => simp [aggregateEvents]
  | cons p rest ih => simp [aggregateEvents, stepEvent, ih]

theorem aggregateEvents_candidate_float (E : Evaluator) (secondPiece : Piece)
    (keepTopN numSorted : Int) (ps : List Depth2Possibility) (st : Aggregation) (key : String) :
    ∀ c ∈ candidatesOf key (aggregateEvents E secondPiece keepTopN numSorted st ps),
      roundFloat c = c := by
  induction ps generalizing st with
  | nil => simp [aggregateEvents, candidatesOf]
  | cons p rest ih =>
    intro c hc
    unfold candidatesOf at hc
    obtain ⟨e, he, rfl⟩ := List.mem_map.1 hc
    obtain ⟨hmem, hk⟩ := List.mem_filter.1 he
    rw [aggregateEvents] at hmem
    rcases List.mem_cons.1 hmem with rfl | hmem
    · exact candidateScore_float E secondPiece _ _ p
    · exact ih (aggregateStep E secondPiece keepTopN numSorted st p) e.candidate
        (List.mem_map.2 ⟨e, List.mem_filter.2 ⟨hmem, hk⟩, rfl⟩)

set_option maxRecDepth 100000 in
/-- C6 as stated fails, in two ways. Two O pieces on the empty board, `keepTopN = 1`,
an evaluator that leaves the board unchanged. With every fast evaluation 0 and
every playout `0.1f` the candidates of the key `0|3|17` are `0.1f` (the
possibility that is played out) and eight times -500, and the value shown for the
key is `51 * 2^-9 = 0.099609375`, the float difference of `fl(20000 + 0.1f)` and
20000, which is below `0.1f`. With every fast evaluation and every playout -30000
the candidates of the key are -30000 and eight times -30500, no sum with
`MAP_OFFSET` exceeds the default 0 of the map, and the value shown is -20000. -/
theorem aggregate_value_not_maximum :
    (searchDepth2 exampleTables (constantEvaluator 0 floatTenth) 60 emptyGame pieceO pieceO
        (1 * 2) exampleContext []).map
      (fun r => candidatesOf ("0|3|17")
        (aggregateEvents (constantEvaluator 0 floatTenth) pieceO 1 (1 * 2) aggregateInit r.2)) =
      some (floatTenth :: List.replicate 8 (floatOfInt (-500))) ∧
    (getLockValueLookup exampleTables (constantEvaluator 0 floatTenth) 60 emptyGame pieceO
        pieceO 1 exampleContext).map (fun st => exposedValue st ("0|3|17")) =
      some (some (51 * 2 ^ 140)) ∧
    (51 * 2 ^ 140 : Int) < floatTenth ∧
    (searchDepth2 exampleTables (constantEvaluator (floatOfInt (-30000)) (floatOfInt (-30000)))
        60 emptyGame pieceO pieceO (1 * 2) exampleContext []).map
      (fun r => candidatesOf ("0|3|17")
        (aggregateEvents (constantEvaluator (floatOfInt (-30000)) (floatOfInt (-30000))) pieceO 1
          (1 * 2) aggregateInit r.2)) =
      some (floatOfInt (-30000) :: List.replicate 8 (floatOfInt (-30500))) ∧
    (getLockValueLookup exampleTables
        (constantEvaluator (floatOfInt (-30000)) (floatOfInt (-30000))) 60 emptyGame pieceO
        pieceO 1 exampleContext).map (fun st => exposedValue st ("0|3|17")) =
      some (some (floatOfInt (-20000))) := by
  decide!

/-- C6 (the aggregated map holds the maximum), amended. For every possibility list
and every first-placement key occurring in it, the value shown for the key is the
float difference of the stored value and `MAP_OFFSET`, and the stored value is the
largest of 0 and the float sums of `MAP_OFFSET` and the candidate scores computed
for the possibilities with that key. When each of these sums is exact (the sum is a
float itself), the value shown is the largest of `-MAP_OFFSET` and the candidates:
it is at least every candidate, and it is the maximum of the candidates as soon as
one of them is at least `-MAP_OFFSET`. -/
theorem aggregate_holds_maximum (E : Evaluator) (secondPiece : Piece) (keepTopN : Int)
    (ps : List Depth2Possibility) (key : String)
    (hkey : key ∈ ps.map fun p => encodeLockPosition p.firstPlacement) :
    ∃ v, exposedValue (aggregate E secondPiece keepTopN ps) key = some v ∧
      v = roundFloat (((candidatesOf key
        (aggregateEvents E secondPiece keepTopN (keepTopN * 2) aggregateInit ps)).map
          fun c => roundFloat (MAP_OFFSET + c)).foldl max 0 - MAP_OFFSET) ∧
      ((∀ c ∈ candidatesOf key
          (aggregateEvents E secondPiece keepTopN (keepTopN * 2) aggregateInit ps),
            roundFloat (MAP_OFFSET + c) = MAP_OFFSET + c) →
        v = (candidatesOf key
          (aggregateEvents E secondPiece keepTopN (keepTopN * 2) aggregateInit ps)).foldl max
            (-MAP_OFFSET) ∧
        (∀ c ∈ candidatesOf key
          (aggregateEvents E secondPiece keepTopN (keepTopN * 2) aggregateInit ps), c ≤ v) ∧
        ((∃ c ∈ candidatesOf key
            (aggregateEvents E secondPiece keepTopN (keepTopN * 2) aggregateInit ps),
              -MAP_OFFSET ≤ c) →
          v ∈ candidatesOf key
            (aggregateEvents E secondPiece keepTopN (keepTopN * 2) aggregateInit ps))) := by
  have hne : candidatesOf key
      (aggregateEvents E secondPiece keepTopN (keepTopN * 2) aggregateInit ps) ≠ [] := by
    rw [← aggregateEvents_keys E secondPiece keepTopN (keepTopN * 2) ps aggregateInit] at hkey
    obtain ⟨e, he, hek⟩ := List.mem_map.1 hkey
    intro h0
    have : e.candidate ∈ candidatesOf key
        (aggregateEvents E secondPiece keepTopN (keepTopN * 2) aggregateInit ps) := by
      unfold candidatesOf
      exact List.mem_map.2 ⟨e, List.mem_filter.2 ⟨he, by simp [hek]⟩, rfl⟩
    rw [h0] at this
    simp at this
  have hmap := foldl_aggregateStep_map E secondPiece keepTopN (keepTopN * 2) ps aggregateInit key
  rw [if_neg hne] at hmap
  have h0 : (aggregateInit.lockValueMap key).getD 0 = 0 := by
    simp [aggregateInit]
  rw [h0] at hmap
  have hfloat := aggregateEvents_candidate_float E secondPiece keepTopN (keepTopN * 2) ps
    aggregateInit key
  refine ⟨_, ?_, rfl, ?_⟩
  · unfold exposedValue aggregate
    rw [hmap]
    rfl
  · intro hexact
    have hsum : ((candidatesOf key
        (aggregateEvents E secondPiece keepTopN (keepTopN * 2) aggregateInit ps)).map
          fun c => roundFloat (MAP_OFFSET + c)).foldl max 0 =
        MAP_OFFSET + (candidatesOf key
          (aggregateEvents E secondPiece keepTopN (keepTopN * 2) aggregateInit ps)).foldl max
            (-MAP_OFFSET) := by
      rw [List.map_congr_left hexact, ← foldl_max_add]
      simp
    have hround : roundFloat ((candidatesOf key
          (aggregateEvents E secondPiece keepTopN (keepTopN * 2) aggregateInit ps)).foldl max
            (-MAP_OFFSET)) = (candidatesOf key
          (aggregateEvents E secondPiece keepTopN (keepTopN * 2) aggregateInit ps)).foldl max
            (-MAP_OFFSET) := by
      rcases foldl_max_mem (candidatesOf key
        (aggregateEvents E secondPiece keepTopN (keepTopN * 2) aggregateInit ps)) (-MAP_OFFSET)
        with h | h
      · rw [h, roundFloat_neg, roundFloat_MAP_OFFSET]
      · exact hfloat _ h
    have hv : roundFloat (((candidatesOf key
        (aggregateEvents E secondPiece keepTopN (keepTopN * 2) aggregateInit ps)).map
          fun c => roundFloat (MAP_OFFSET + c)).foldl max 0 - MAP_OFFSET) = (candidatesOf key
          (aggregateEvents E secondPiece keepTopN (keepTopN * 2) aggregateInit ps)).foldl max
            (-MAP_OFFSET) := by
      rw [hsum, add_sub_cancel_left, hround]
    rw [hv]
    refine ⟨rfl, ?_, ?_⟩
    · intro c hc
      exact foldl_max_ge_of_mem _ _ c hc
    · rintro ⟨c, hc, hge⟩
      rcases foldl_max_mem (candidatesOf key
        (aggregateEvents E secondPiece keepTopN (keepTopN * 2) aggregateInit ps)) (-MAP_OFFSET)
        with h | h
      · have hle := foldl_max_ge_of_mem _ (-MAP_OFFSET) c hc
        have hceq : c = -MAP_OFFSET := by omega
        rw [h, ← hceq]
        exact hc
      · exact h

set_option maxRecDepth 100000 in
/-- Scenario S6 for C6: three possibilities with the same key whose playouts score
10, 8 and 6 (rewards 0, `keepTopN = 3`) have the candidates 10, 8 and 6, the sums
of `MAP_OFFSET` and these are exact, and the value shown for the key is 10. -/
theorem aggregate_holds_maximum_witness :
    candidatesOf ("0|3|17")
        (aggregateEvents (playoutsOf [floatOfInt 10, floatOfInt 8, floatOfInt 6]) pieceO 3 (3 * 2)
          aggregateInit [possibilityOf 17 3 0, possibilityOf 17 2 0, possibilityOf 17 1 0]) =
      [floatOfInt 10, floatOfInt 8, floatOfInt 6] ∧
    (∀ c ∈ [floatOfInt 10, floatOfInt 8, floatOfInt 6],
      roundFloat (MAP_OFFSET + c) = MAP_OFFSET + c) ∧
    exposedValue (aggregate (playoutsOf [floatOfInt 10, floatOfInt 8, floatOfInt 6]) pieceO 3
        [possibilityOf 17 3 0, possibilityOf 17 2 0, possibilityOf 17 1 0]) ("0|3|17") =
      some (floatOfInt 10) ∧
    ∃ v, exposedValue (aggregate (playoutsOf [floatOfInt 10, floatOfInt 8, floatOfInt 6]) pieceO 3
        [possibilityOf 17 3 0, possibilityOf 17 2 0, possibilityOf 17 1 0]) ("0|3|17") = some v ∧
      v = roundFloat (((candidatesOf ("0|3|17")
        (aggregateEvents (playoutsOf [floatOfInt 10, floatOfInt 8, floatOfInt 6]) pieceO 3 (3 * 2)
          aggregateInit
          [possibilityOf 17 3 0, possibilityOf 17 2 0, possibilityOf 17 1 0])).map
          fun c => roundFloat (MAP_OFFSET + c)).foldl max 0 - MAP_OFFSET) ∧
      ((∀ c ∈ candidatesOf ("0|3|17")
          (aggregateEvents (playoutsOf [floatOfInt 10, floatOfInt 8, floatOfInt 6]) pieceO 3
            (3 * 2) aggregateInit
            [possibilityOf 17 3 0, possibilityOf 17 2 0, possibilityOf 17 1 0]),
            roundFloat (MAP_OFFSET + c) = MAP_OFFSET + c) →
        v = (candidatesOf ("0|3|17")
          (aggregateEvents (playoutsOf [floatOfInt 10, floatOfInt 8, floatOfInt 6]) pieceO 3
            (3 * 2) aggregateInit
            [possibilityOf 17 3 0, possibilityOf 17 2 0, possibilityOf 17 1 0])).foldl max
            (-MAP_OFFSET) ∧
        (∀ c ∈ candidatesOf ("0|3|17")
          (aggregateEvents (playoutsOf [floatOfInt 10, floatOfInt 8, floatOfInt 6]) pieceO 3
            (3 * 2) aggregateInit
            [possibilityOf 17 3 0, possibilityOf 17 2 0, possibilityOf 17 1 0]), c ≤ v) ∧
        ((∃ c ∈ candidatesOf ("0|3|17")
            (aggregateEvents (playoutsOf [floatOfInt 10, floatOfInt 8, floatOfInt 6]) pieceO 3
              (3 * 2) aggregateInit
              [possibilityOf 17 3 0, possibilityOf 17 2 0, possibilityOf 17 1 0]),
              -MAP_OFFSET ≤ c) →
          v ∈ candidatesOf ("0|3|17")
            (aggregateEvents (playoutsOf [floatOfInt 10, floatOfInt 8, floatOfInt 6]) pieceO 3
              (3 * 2) aggregateInit
              [possibilityOf 17 3 0, possibilityOf 17 2 0, possibilityOf 17 1 0]))) :=
  ⟨by decide!, by decide!, by decide!,
    aggregate_holds_maximum (playoutsOf [floatOfInt 10, floatOfInt 8, floatOfInt 6]) pieceO 3
      [possibilityOf 17 3 0, possibilityOf 17 2 0, possibilityOf 17 1 0] ("0|3|17")
      (by decide)⟩

/-- The iteration counter counts the possibilities, and the log holds indices of
possibilities already visited. -/
theorem foldl_aggregateStep_index (E : Evaluator) (secondPiece : Piece)
    (keepTopN numSorted : Int) (ps : List Depth2Possibility) (st : Aggregation)
    (hlog : ∀ i ∈ st.playoutLog, 0 ≤ i ∧ i < st.i) (hi : 0 ≤ st.i) :
    (ps.foldl (aggregateStep E secondPiece keepTopN numSorted) st).i = st.i + ps.length ∧
    ∀ i ∈ (ps.foldl (aggregateStep E secondPiece keepTopN numSorted) st).playoutLog,
      0 ≤ i ∧ i < st.i + ps.length := by
  induction ps generalizing st with
  | nil => simpa using hlog
  | cons p rest ih =>
    rw [List.foldl_cons]
    have hstep : ∀ i ∈ (aggregateStep E secondPiece keepTopN numSorted st p).playoutLog,
        0 ≤ i ∧ i < (aggregateStep E secondPiece keepTopN numSorted st p).i := by
      intro i hmem
      simp only [aggregateStep] at hmem ⊢
      split at hmem
      · rcases List.mem_append.1 hmem with hmem | hmem
        · have := hlog i hmem; omega
        · simp at hmem; omega
      · have := hlog i hmem; omega
    have hi2 : 0 ≤ (aggregateStep E secondPiece keepTopN numSorted st p).i := by
      simp only [aggregateStep]; omega
    have hstepi : (aggregateStep E secondPiece keepTopN numSorted st p).i = st.i + 1 := by
      simp only [aggregateStep]
    have := ih _ hstep hi2
    rw [hstepi] at this
    simp only [List.length_cons]
    push_cast
    constructor
    · omega
    · intro i hmem
      have := this.2 i hmem
      omega

/-- C7 (playout budget). For every possibility list and every `keepTopN ≥ 0` the
aggregation loop calls `getPlayoutScore` at most `keepTopN` times (the log of the
calls has `numPlayedOut` entries), and every call is made for a possibility whose
iteration index lies below `2 * keepTopN` (and is an index of the list). -/
theorem playout_budget (E : Evaluator) (secondPiece : Piece) (keepTopN : Int)
    (h : 0 ≤ keepTopN) (ps : List Depth2Possibility) :
    ((aggregate E secondPiece keepTopN ps).playoutLog.length : Int) ≤ keepTopN ∧
    (aggregate E secondPiece keepTopN ps).numPlayedOut =
      (aggregate E secondPiece keepTopN ps).playoutLog.length ∧
    ∀ i ∈ (aggregate E secondPiece keepTopN ps).playoutLog,
      0 ≤ i ∧ i < 2 * keepTopN ∧ i < ps.length := by
  have hinv := foldl_aggregateStep_playoutInv E secondPiece keepTopN ps aggregateInit
    ⟨by simp [aggregateInit], by simpa [aggregateInit] using h, by simp [aggregateInit]⟩
  have hidx := foldl_aggregateStep_index E secondPiece keepTopN (keepTopN * 2) ps aggregateInit
    (by simp [aggregateInit]) (by simp [aggregateInit])
  obtain ⟨h1, h2, h3⟩ := hinv
  unfold aggregate
  refine ⟨by omega, h1, ?_⟩
  intro i hi
  have := h3 i hi
  have h4 := hidx.2 i hi
  simp only [aggregateInit] at h4
  omega

/-- An instance of C7: with `keepTopN = 1` and three possibilities only the first
one is played out. -/
theorem playout_budget_witness :
    (0 : Int) ≤ 1 ∧
    (aggregate (playoutsOf [10, 8, 6]) pieceO 1
        [possibilityOf 17 1 0, possibilityOf 17 2 0, possibilityOf 17 3 0]).playoutLog = [0] ∧
    (((aggregate (playoutsOf [10, 8, 6]) pieceO 1
        [possibilityOf 17 1 0, possibilityOf 17 2 0, possibilityOf 17 3 0]).playoutLog.length :
          Int) ≤ 1 ∧
      (aggregate (playoutsOf [10, 8, 6]) pieceO 1
        [possibilityOf 17 1 0, possibilityOf 17 2 0, possibilityOf 17 3 0]).numPlayedOut =
      (aggregate (playoutsOf [10, 8, 6]) pieceO 1
        [possibilityOf 17 1 0, possibilityOf 17 2 0, possibilityOf 17 3 0]).playoutLog.length ∧
      ∀ i ∈ (aggregate (playoutsOf [10, 8, 6]) pieceO 1
        [possibilityOf 17 1 0, possibilityOf 17 2 0, possibilityOf 17 3 0]).playoutLog,
        0 ≤ i ∧ i < 2 * 1 ∧
          i < ([possibilityOf 17 1 0, possibilityOf 17 2 0, possibilityOf 17 3 0].length)) :=
  ⟨by decide, by decide,
    playout_budget (playoutsOf [10, 8, 6]) pieceO 1 (by decide)
      [possibilityOf 17 1 0, possibilityOf 17 2 0, possibilityOf 17 3 0]⟩

set_option maxRecDepth 100000 in
/-- C8 as stated fails. Two O pieces on the empty board, `keepTopN = 1`, an
evaluator whose fast evaluation rises from 0 to 8 along the order in which the
second placements are enumerated: `searchDepth2` is called with `numSorted = 2`
and appends the nine possibilities of the third first placement (column 1, key
`0|1|17`) in rising order, none of them is played out, each of them updates the
map entry of the key, and the repeat counter of the key ends at 9. -/
theorem repeat_counter_exceeds_three :
    (getLockValueLookup exampleTables columnEvaluator 60 emptyGame pieceO pieceO 1
        exampleContext).map (fun st => st.lockValueRepeatMap ("0|1|17")) = some 9 ∧
    (searchDepth2 exampleTables columnEvaluator 60 emptyGame pieceO pieceO (1 * 2)
        exampleContext []).map
      (fun r => ((aggregateEvents columnEvaluator pieceO 1 (1 * 2) aggregateInit r.2).filter
        fun e => e.key = ("0|1|17") ∧ e.improved = true).map
          fun e => (e.playedOut, e.candidate)) =
      some ((List.range 9).map fun k => (false, floatOfInt ((k : Int) - 500))) := by
  decide!

/-- C8 (aggregation cap), amended. The repeat counter gates the playouts: for every
possibility list, every `keepTopN` and every first-placement key, at most three of
the updates applied to the map entry of the key come from played-out
possibilities, and these are counted by `lockValueRepeatMap[key]`. Updates from
possibilities that are not played out are not capped. -/
theorem aggregation_cap_on_playouts (E : Evaluator) (secondPiece : Piece) (keepTopN : Int)
    (ps : List Depth2Possibility) (key : String) :
    playoutUpdates key
        (aggregateEvents E secondPiece keepTopN (keepTopN * 2) aggregateInit ps) ≤ 3 ∧
    (playoutUpdates key
        (aggregateEvents E secondPiece keepTopN (keepTopN * 2) aggregateInit ps) : Int) ≤
      (aggregate E secondPiece keepTopN ps).lockValueRepeatMap key := by
  have := playoutUpdates_le E secondPiece keepTopN (keepTopN * 2) ps aggregateInit key 0
    (by simp [aggregateInit]) (by omega)
  simpa [aggregate] using this

/-! ## Move search: one frame of the exploration -/

/-- What the input phase leaves unchanged, what it changes, and which pose it has
checked. -/
theorem inputPhase_spec (T : Tables) (board : List Nat) (s s1 : SimState)
    (inc bound goal : Int) (h : inputPhase T board s inc bound goal = some s1) :
    s1.piece = s.piece ∧ s1.y = s.y ∧ s1.frameIndex = s.frameIndex ∧
    s1.x = (if s.x ≠ bound then s.x + inc else s.x) ∧
    s1.rotationIndex =
      (if s.rotationIndex ≠ goal then rotateTowardsGoal s.rotationIndex goal
        else s.rotationIndex) ∧
    ((s.x ≠ bound ∨ s.rotationIndex ≠ goal) →
      collision T board s1.piece s1.x s1.y s1.rotationIndex = false) := by
  unfold inputPhase at h
  by_cases hx : s.x ≠ bound
  · by_cases hc : collision T board s.piece (s.x + inc) s.y s.rotationIndex = true
    · simp [hx, hc] at h
    · by_cases hr : s.rotationIndex ≠ goal
      · by_cases hc2 : collision T board s.piece (s.x + inc) s.y
            (rotateTowardsGoal s.rotationIndex goal) = true
        · simp [hx, hc, hr, hc2] at h
        · simp [hx, hc, hr, hc2] at h
          subst h
          simp [hx, hr]
          simpa using hc2
      · simp [hx, hc, hr] at h
        subst h
        simp [hx, hr]
        simpa using hc
  · by_cases hr : s.rotationIndex ≠ goal
    · by_cases hc2 : collision T board s.piece s.x s.y
          (rotateTowardsGoal s.rotationIndex goal) = true
      · simp [hx, hr, hc2] at h
      · simp [hx, hr, hc2] at h
        subst h
        simp [hx, hr]
        simpa using hc2
    · simp [hx, hr] at h
      subst h
      simp [hx, hr]

theorem afterGravity_spec (T : Tables) (board : List Nat) (g : Bool) (s1 : SimState) :
    (afterGravity T board g s1).piece = s1.piece ∧
    (afterGravity T board g s1).x = s1.x ∧
    (afterGravity T board g s1).rotationIndex = s1.rotationIndex ∧
    (afterGravity T board g s1).frameIndex = s1.frameIndex + 1 ∧
    ((afterGravity T board g s1).y = s1.y ∨
      ((afterGravity T board g s1).y = s1.y + 1 ∧ g = true ∧
        collision T board s1.piece s1.x (s1.y + 1) s1.rotationIndex = false)) ∧
    ((g && collision T board s1.piece s1.x (s1.y + 1) s1.rotationIndex) = false → g = true →
      (afterGravity T board g s1).y = s1.y + 1) := by
  unfold afterGravity
  cases g <;> cases hc : collision T board s1.piece s1.x (s1.y + 1) s1.rotationIndex <;> simp [hc]

theorem exploreFrame_eq (T : Tables) (board : List Nat) (inc bound goal : Int)
    (timeline : List Char) (gravity : Int) (s : SimState) :
    exploreFrame T board inc bound goal timeline gravity s =
      (if shouldPerformInputsThisFrame s.frameIndex timeline = true then
        inputPhase T board s inc bound goal else some s).map fun s1 =>
        (afterGravity T board (decide (Int.tmod s.frameIndex gravity = gravity - 1)) s1,
          shouldPerformInputsThisFrame s.frameIndex timeline &&
            decide (s1.rotationIndex = goal),
          decide (Int.tmod s.frameIndex gravity = gravity - 1) &&
            collision T board s1.piece s1.x (s1.y + 1) s1.rotationIndex) := by
  unfold exploreFrame afterGravity
  dsimp only
  generalize (if shouldPerformInputsThisFrame s.frameIndex timeline = true then
        inputPhase T board s inc bound goal else some s) = o
  cases o <;> rfl

/-- One frame of the exploration, field by field. -/
theorem exploreFrame_spec (T : Tables) (board : List Nat) (inc bound goal : Int)
    (timeline : List Char) (gravity : Int) (s s3 : SimState) (fn dl : Bool)
    (h : exploreFrame T board inc bound goal timeline gravity s = some (s3, fn, dl)) :
    s3.piece = s.piece ∧ s3.frameIndex = s.frameIndex + 1 ∧
    s3.x = (if shouldPerformInputsThisFrame s.frameIndex timeline = true ∧ s.x ≠ bound
      then s.x + inc else s.x) ∧
    s3.rotationIndex =
      (if shouldPerformInputsThisFrame s.frameIndex timeline = true ∧ s.rotationIndex ≠ goal
        then rotateTowardsGoal s.rotationIndex goal else s.rotationIndex) ∧
    (fn = true ↔
      (shouldPerformInputsThisFrame s.frameIndex timeline = true ∧ s3.rotationIndex = goal)) ∧
    (s3.y = s.y ∨ (s3.y = s.y + 1 ∧ Int.tmod s.frameIndex gravity = gravity - 1 ∧
      collision T board s3.piece s3.x s3.y s3.rotationIndex = false)) ∧
    (dl = false → Int.tmod s.frameIndex gravity = gravity - 1 → s3.y = s.y + 1) ∧
    (fn = true → (s.x ≠ bound ∨ s.rotationIndex ≠ goal) →
      collision T board s3.piece s3.x s3.y s3.rotationIndex = false) := by
  rw [exploreFrame_eq] at h
  obtain ⟨s1, hs1, h⟩ := Option.map_eq_some'.1 h
  simp only [Prod.mk.injEq] at h
  obtain ⟨h3, hfn, hdl⟩ := h
  obtain ⟨gp, gx, gr, gf, gy, gl⟩ :=
    afterGravity_spec T board (decide (Int.tmod s.frameIndex gravity = gravity - 1)) s1
  rw [h3] at gp gx gr gf gy gl
  -- the state after the input phase
  have hs1' : s1.piece = s.piece ∧ s1.y = s.y ∧ s1.frameIndex = s.frameIndex ∧
      s1.x = (if shouldPerformInputsThisFrame s.frameIndex timeline = true ∧ s.x ≠ bound
        then s.x + inc else s.x) ∧
      s1.rotationIndex =
        (if shouldPerformInputsThisFrame s.frameIndex timeline = true ∧ s.rotationIndex ≠ goal
          then rotateTowardsGoal s.rotationIndex goal else s.rotationIndex) ∧
      (shouldPerformInputsThisFrame s.frameIndex timeline = true →
        (s.x ≠ bound ∨ s.rotationIndex ≠ goal) →
        collision T board s1.piece s1.x s1.y s1.rotationIndex = false) := by
    by_cases hin : shouldPerformInputsThisFrame s.frameIndex timeline = true
    · rw [if_pos hin] at hs1
      obtain ⟨hp, hy, hf, hx, hr, hcol⟩ := inputPhase_spec T board s s1 inc bound goal hs1
      refine ⟨hp, hy, hf, ?_, ?_, fun _ => hcol⟩
      · rw [hx]; simp [hin]
      · rw [hr]; simp [hin]
    · rw [if_neg hin] at hs1
      cases hs1
      simp [hin]
  obtain ⟨hp, hy, hf, hx, hr, hcol⟩ := hs1'
  refine ⟨gp.trans hp, by rw [gf, hf], gx.trans hx, gr.trans hr, ?_, ?_, ?_, ?_⟩
  · rw [← hfn, gr]; simp
  · rcases gy with gy | ⟨gy, gg, gc⟩
    · left; rw [gy, hy]
    · right
      refine ⟨by rw [gy, hy], by simpa using gg, ?_⟩
      rw [gp, gx, gr, gy]; exact gc
  · intro hdl0 hg
    rw [← hy]
    apply gl
    · rw [hdl]; exact hdl0
    · simpa using hg
  · intro hfn1 hloop
    rw [← hfn] at hfn1
    simp only [Bool.and_eq_true, decide_eq_true_eq] at hfn1
    have hc1 := hcol hfn1.1 hloop
    rcases gy with gy | ⟨gy, gg, gc⟩
    · rw [gp, gx, gr, gy]; exact hc1
    · rw [gp, gx, gr, gy]; exact gc

/-! ## Move search: termination of the loops -/

theorem succ_emod_of_ne (f g : Int) (hg : 1 ≤ g) (h : f % g ≠ g - 1) :
    (f + 1) % g = f % g + 1 := by
  have h1 := Int.emod_nonneg f (by omega : g ≠ 0)
  have h2 := Int.emod_lt_of_pos f (by omega : 0 < g)
  have h3 := Int.emod_add_ediv f g
  have hrw : f + 1 = (f % g + 1) + g * (f / g) := by omega
  rw [hrw, Int.add_mul_emod_self_left]
  exact Int.emod_eq_of_lt (by omega) (by omega)

theorem succ_emod_of_eq (f g : Int) (h : f % g = g - 1) : (f + 1) % g = 0 := by
  have h3 := Int.emod_add_ediv f g
  have hrw : f + 1 = g + g * (f / g) := by omega
  rw [hrw, Int.add_mul_emod_self_left]
  exact Int.emod_self

/-- A pose below the deepest row of its rotation collides. -/
theorem collision_of_maxY_lt (T : Tables) (board : List Nat) (piece : Piece) (x y rot : Int)
    (h : readAt piece.maxYByRotation rot 0 < y) : collision T board piece x y rot = true := by
  unfold collision
  simp [h]

theorem exploreFrame_framesLeft (T : Tables) (board : List Nat) (inc bound goal : Int)
    (timeline : List Char) (gravity : Int) (hg : 1 ≤ gravity) (M : Int) (s s3 : SimState)
    (fn : Bool) (hM : ∀ r, readAt s.piece.maxYByRotation r 0 ≤ M) (hf : 0 ≤ s.frameIndex)
    (h : exploreFrame T board inc bound goal timeline gravity s = some (s3, fn, false)) :
    framesLeft M gravity s3 + 1 ≤ framesLeft M gravity s := by
  obtain ⟨hp, hfr, -, -, -, hy, hl, -⟩ :=
    exploreFrame_spec T board inc bound goal timeline gravity s s3 fn false h
  have htm : Int.tmod s.frameIndex gravity = s.frameIndex % gravity :=
    Int.tmod_eq_emod hf (by omega)
  rw [htm] at hy hl
  have h1 := Int.emod_nonneg s.frameIndex (by omega : gravity ≠ 0)
  have h2 := Int.emod_lt_of_pos s.frameIndex (by omega : 0 < gravity)
  unfold framesLeft
  rw [hfr]
  by_cases hgrav : s.frameIndex % gravity = gravity - 1
  · have hy1 := hl rfl hgrav
    rcases hy with hy | ⟨-, -, hcol⟩
    · omega
    · have hle : s3.y ≤ M := by
        by_contra hcon
        have hlt : readAt s3.piece.maxYByRotation s3.rotationIndex 0 < s3.y := by
          have := hM s3.rotationIndex
          rw [hp]; omega
        rw [collision_of_maxY_lt T board s3.piece s3.x s3.y s3.rotationIndex hlt] at hcol
        exact Bool.noConfusion hcol
      rw [succ_emod_of_eq _ _ hgrav, hgrav, hy1]
      obtain ⟨b, hb⟩ : ∃ b : Nat, (M - s.y).toNat = b + 1 := ⟨(M - s.y).toNat - 1, by omega⟩
      have hb2 : (M - (s.y + 1)).toNat = b := by omega
      rw [hb, hb2, Nat.succ_mul]
      have : (gravity - 1).toNat = gravity.toNat - 1 := by omega
      simp only [Int.toNat_zero]
      omega
  · have hy0 : s3.y = s.y := by
      rcases hy with hy | ⟨-, hc, -⟩
      · exact hy
      · exact absurd hc hgrav
    rw [succ_emod_of_ne _ _ hg hgrav, hy0]
    have : (s.frameIndex % gravity + 1).toNat = (s.frameIndex % gravity).toNat + 1 := by omega
    have : (s.frameIndex % gravity).toNat + 1 < gravity.toNat := by omega
    omega

/-- `exploreHorizontally` returns once the fuel exceeds the frames left. -/
theorem exploreHorizontally_terminates (T : Tables) (board : List Nat) (inc bound goal : Int)
    (timeline : List Char) (gravity : Int) (hg : 1 ≤ gravity) (M : Int) (piece : Piece)
    (hM : ∀ r, readAt piece.maxYByRotation r 0 ≤ M) :
    ∀ (fuel : Nat) (s : SimState) (range : Int) (legal : List SimState),
      s.piece = piece → 0 ≤ s.frameIndex → framesLeft M gravity s < fuel →
      ∃ res, exploreHorizontally T board inc bound goal timeline gravity fuel s range legal =
        some res := by
  intro fuel
  induction fuel with
  | zero => intro s range legal _ _ hlt; omega
  | succ fuel ih =>
    intro s range legal hp hf hlt
    rw [exploreHorizontally]
    by_cases hexit : s.x = bound ∧ s.rotationIndex = goal
    · simp [hexit]
    · simp only [hexit, if_false]
      cases hfr : exploreFrame T board inc bound goal timeline gravity s with
      | none => exact ⟨_, rfl⟩
      | some r =>
        obtain ⟨s3, fn, dl⟩ := r
        cases dl with
        | true => exact ⟨_, rfl⟩
        | false =>
          simp only [Bool.false_eq_true, if_false]
          have hdec := exploreFrame_framesLeft T board inc bound goal timeline gravity hg M s s3 fn
            (by rw [hp]; exact hM) hf hfr
          obtain ⟨hp3, hf3, -⟩ :=
            exploreFrame_spec T board inc bound goal timeline gravity s s3 fn false hfr
          exact ih s3 _ _ (hp3.trans hp) (by omega) (by omega)

/-- Every read of `maxYByRotation` is bounded by the largest entry (or the default 0). -/
theorem readAt_le_bound (l : List Int) (r : Int) :
    readAt l r 0 ≤ l.foldl max 0 := by
  unfold readAt
  split
  · exact foldl_max_le l 0
  · rw [List.getD_eq_getElem?_getD]
    cases hget : l[r.toNat]? with
    | none => simpa using foldl_max_le l 0
    | some v =>
      simp only [Option.getD_some]
      exact foldl_max_ge_of_mem l 0 v (List.mem_iff_getElem?.2 ⟨_, hget⟩)

/-! ## Move search: the shape of the results -/

theorem forEachM_some {α σ : Type} (f : α → σ → Option σ) (l : List α)
    (hf : ∀ a ∈ l, ∀ s, ∃ s1, f a s = some s1) : ∀ s, ∃ s1, forEachM f l s = some s1 := by
  induction l with
  | nil => intro s; exact ⟨s, rfl⟩
  | cons a rest ih =>
    intro s
    obtain ⟨s1, h1⟩ := hf a (List.mem_cons_self a rest) s
    obtain ⟨s2, h2⟩ := ih (fun b hb => hf b (List.mem_cons_of_mem a hb)) s1
    exact ⟨s2, by simp [forEachM, h1, h2]⟩

theorem forEachM_invariant {α σ : Type} (f : α → σ → Option σ) (Inv : σ → Prop) (l : List α)
    (hf : ∀ a ∈ l, ∀ s s1, Inv s → f a s = some s1 → Inv s1) :
    ∀ s s1, Inv s → forEachM f l s = some s1 → Inv s1 := by
  induction l with
  | nil =>
    intro s s1 hs h
    simp only [forEachM, Option.some.injEq] at h
    rw [← h]; exact hs
  | cons a rest ih =>
    intro s s1 hs h
    simp only [forEachM] at h
    cases hfa : f a s with
    | none => simp [hfa] at h
    | some s2 =>
      simp only [hfa] at h
      exact ih (fun b hb => hf b (List.mem_cons_of_mem a hb)) s2 s1
        (hf a (List.mem_cons_self a rest) s s2 hs hfa) h

theorem intRange_mem (a b k : Int) (h : k ∈ intRange a b) : a ≤ k ∧ k ≤ b := by
  simp only [intRange, List.mem_map, List.mem_range] at h
  obtain ⟨n, hn, hk⟩ := h
  omega

/-- `getLockPlacementsFast` appends one placement per legal state, in order. -/
theorem getLockPlacementsFast_snd (surfaceArray : List Int) (legal : List SimState)
    (availableTuckCols : List Int) (lockPlacements : List LockPlacement) :
    (getLockPlacementsFast surfaceArray legal availableTuckCols lockPlacements).2 =
      lockPlacements ++ legal.map (toLockPlacement surfaceArray) := by
  induction legal generalizing availableTuckCols lockPlacements with
  | nil => simp [getLockPlacementsFast]
  | cons s rest ih =>
    rw [getLockPlacementsFast, ih]
    simp [toLockPlacement]

/-- The gravity loop of `findTucks` returns once the fuel covers the rows down to
the deepest row of the rotation; the row it returns is a rest position. -/
theorem dropToLock_spec (T : Tables) (board : List Nat) (piece : Piece) (x rot : Int) :
    ∀ (fuel : Nat) (y : Int), (readAt piece.maxYByRotation rot 0 - y).toNat ≤ fuel →
      ∃ ly, dropToLock T board piece x rot fuel y = some ly := by
  intro fuel
  induction fuel with
  | zero =>
    intro y hle
    rw [dropToLock]
    by_cases hc : collision T board piece x (y + 1) rot = true
    · simp [hc]
    · exfalso
      apply hc
      exact collision_of_maxY_lt T board piece x (y + 1) rot (by omega)
  | succ fuel ih =>
    intro y hle
    rw [dropToLock]
    by_cases hc : collision T board piece x (y + 1) rot = true
    · simp [hc]
    · simp only [hc]
      exact ih (y + 1) (by omega)

theorem dropToLock_rest (T : Tables) (board : List Nat) (piece : Piece) (x rot : Int) :
    ∀ (fuel : Nat) (y ly : Int), dropToLock T board piece x rot fuel y = some ly →
      y ≤ ly ∧ collision T board piece x (ly + 1) rot = true ∧
      (collision T board piece x y rot = false → collision T board piece x ly rot = false) := by
  intro fuel
  induction fuel with
  | zero =>
    intro y ly h
    rw [dropToLock] at h
    by_cases hc : collision T board piece x (y + 1) rot = true
    · simp [hc] at h; subst h; exact ⟨le_refl _, hc, id⟩
    · simp [hc] at h
  | succ fuel ih =>
    intro y ly h
    rw [dropToLock] at h
    by_cases hc : collision T board piece x (y + 1) rot = true
    · simp [hc] at h; subst h; exact ⟨le_refl _, hc, id⟩
    · simp only [hc] at h
      obtain ⟨h1, h2, h3⟩ := ih (y + 1) ly h
      exact ⟨by omega, h2, fun _ => h3 (by simpa using hc)⟩

/-- One origin spot: the state grows by at most one placement, which is a tuck. -/
theorem findTucksSpot_emits (T : Tables) (fuel : Nat) (board : List Nat) (piece : Piece)
    (atc minY : List Int) (overhangX overhangY : Int) (spot : TuckOriginSpot)
    (hspot : spot ∈ T.TUCK_SPOTS_LIST piece.index)
    (st st1 : List LockPlacement × List Int)
    (h : findTucksSpot T fuel board piece atc minY overhangX overhangY spot st = some st1) :
    st1.1 = st.1 ∨ ∃ p, st1.1 = st.1 ++ [p] ∧ TuckEmitted T board piece atc minY p := by
  unfold findTucksSpot at h
  by_cases hc : collision T board piece (overhangX - spot.x) (overhangY - spot.y)
      spot.orientation = true
  · simp [hc] at h; left; rw [← h]
  · simp only [hc] at h
    cases hd : dropToLock T board piece (overhangX - spot.x) spot.orientation fuel
        (overhangY - spot.y) with
    | none => simp [hd] at h
    | some ly =>
      simp only [hd] at h
      obtain ⟨hle, hrest, hfree⟩ := dropToLock_rest T board piece _ _ fuel _ ly hd
      by_cases hmem : ly * 1000 + (overhangX - spot.x) * 10 + spot.orientation ∈ st.2
      · rw [if_pos hmem] at h
        cases h; left; rfl
      · rw [if_neg hmem] at h
        by_cases hn : findTuckInput T board
            { x := overhangX - spot.x, y := overhangY - spot.y,
              rotationIndex := spot.orientation, frameIndex := -1, arrIndex := -1,
              piece := piece } atc minY ≠ NO_TUCK_NOTATION
        · rw [if_pos hn] at h
          cases h
          right
          refine ⟨_, rfl, ?_⟩
          unfold TuckEmitted
          exact ⟨rfl, hn, hfree (by simpa using hc), hrest, spot, hspot,
            overhangY - spot.y, rfl, hle, by simpa using hc, rfl⟩
        · rw [if_neg hn] at h
          cases h; left; rfl

/-- `findTucks` only appends placements, and each of them is a tuck. -/
theorem findTucks_emits (T : Tables) (fuel : Nat) (board : List Nat) (piece : Piece)
    (atc minY : List Int) (lockPlacements out : List LockPlacement)
    (h : findTucks T fuel board piece atc minY lockPlacements = some out) :
    ∃ added, out = lockPlacements ++ added ∧
      ∀ p ∈ added, TuckEmitted T board piece atc minY p := by
  unfold findTucks at h
  obtain ⟨st, hst, hout⟩ := Option.map_eq_some'.1 h
  have hinv : TuckInv T board piece atc minY lockPlacements st := by
    refine forEachM_invariant _ (TuckInv T board piece atc minY lockPlacements)
      (intRange 0 19) ?_ (lockPlacements, []) st ⟨[], by simp, by simp⟩ hst
    intro overhangY _ s s1 hs hrow
    unfold findTucksRow at hrow
    split at hrow
    · cases hrow; exact hs
    · refine forEachM_invariant _ (TuckInv T board piece atc minY lockPlacements)
        (intRange 0 9) ?_ s s1 hs hrow
      intro overhangX _ s2 s3 hs2 hcell
      unfold findTucksCell at hcell
      split at hcell
      · refine forEachM_invariant _ (TuckInv T board piece atc minY lockPlacements)
          (T.TUCK_SPOTS_LIST piece.index) ?_ s2 s3 hs2 hcell
        intro spot hspot s4 s5 hs4 hsp
        obtain ⟨added, hadd, hall⟩ := hs4
        rcases findTucksSpot_emits T fuel board piece atc minY overhangX overhangY spot hspot
          s4 s5 hsp with heq | ⟨p, hp, hemit⟩
        · exact ⟨added, by rw [heq, hadd], hall⟩
        · refine ⟨added ++ [p], by rw [hp, hadd, List.append_assoc], ?_⟩
          intro q hq
          rcases List.mem_append.1 hq with hq | hq
          · exact hall q hq
          · simp at hq; rw [hq]; exact hemit
      · cases hcell; exact hs2
  rw [← hout]
  exact hinv

/-! ## Move search: the states that the exploration registers -/

theorem registered_of_next (T : Tables) (board : List Nat) (inc bound goal : Int)
    (hinc : inc = 1 ∨ inc = -1 ∨ inc = 0) (s s3 a : SimState)
    (hp : s3.piece = s.piece)
    (hx : s3.x = s.x ∨ (s.x ≠ bound ∧ s3.x = s.x + inc))
    (hr : s.rotationIndex = goal → s3.rotationIndex = goal)
    (hb : 0 ≤ inc * (bound - s.x))
    (ha : Registered T board inc bound goal s3 a) : Registered T board inc bound goal s a := by
  obtain ⟨h1, h2, h3, h4, h5, h6, h7⟩ := ha
  refine ⟨h1, h2.trans hp, h3, ?_, ?_, ?_, ?_⟩
  · rcases hinc with rfl | rfl | rfl <;> rcases hx with hx | ⟨_, hx⟩ <;> omega
  · rcases hinc with rfl | rfl | rfl <;> rcases hx with hx | ⟨_, hx⟩ <;> omega
  · intro h0
    have := h6 h0
    rcases hx with hx | ⟨_, hx⟩ <;> omega
  · intro hax
    have hx3 : s3.x = s.x := by
      rcases hinc with rfl | rfl | rfl <;> rcases hx with hx | ⟨_, hx⟩ <;> omega
    obtain ⟨hb3, hr3⟩ := h7 (by omega)
    refine ⟨by omega, ?_⟩
    intro hsg
    exact hr3 (hr hsg)

/-- The states that a call of `exploreHorizontally` appends to the legal list. -/
theorem exploreHorizontally_registered (T : Tables) (board : List Nat) (inc bound goal : Int)
    (timeline : List Char) (gravity : Int) (hinc : inc = 1 ∨ inc = -1 ∨ inc = 0) :
    ∀ (fuel : Nat) (s : SimState) (range : Int) (legal : List SimState) (res : Int × List SimState),
      (inc = 0 → s.x = bound) → 0 ≤ inc * (bound - s.x) →
      exploreHorizontally T board inc bound goal timeline gravity fuel s range legal = some res →
      ∃ added, res.2 = legal ++ added ∧
        (∀ a ∈ added, Registered T board inc bound goal s a) ∧
        added.Pairwise fun a b => a.x ≠ b.x := by
  intro fuel
  induction fuel with
  | zero =>
    intro s range legal res _ _ h
    rw [exploreHorizontally] at h
    by_cases hexit : s.x = bound ∧ s.rotationIndex = goal
    · simp only [hexit, and_self, if_true, Option.some.injEq] at h
      exact ⟨[], by rw [← h]; simp, by simp, List.Pairwise.nil⟩
    · simp [hexit] at h
  | succ fuel ih =>
    intro s range legal res h0 hb h
    rw [exploreHorizontally] at h
    by_cases hexit : s.x = bound ∧ s.rotationIndex = goal
    · simp only [hexit, and_self, if_true, Option.some.injEq] at h
      exact ⟨[], by rw [← h]; simp, by simp, List.Pairwise.nil⟩
    · simp only [hexit, if_false] at h
      cases hfr : exploreFrame T board inc bound goal timeline gravity s with
      | none =>
        simp only [hfr, Option.some.injEq] at h
        exact ⟨[], by rw [← h]; simp, by simp, List.Pairwise.nil⟩
      | some r =>
        obtain ⟨s3, fn, dl⟩ := r
        simp only [hfr] at h
        obtain ⟨hp, -, hx, hr, hfn, -, -, hcol⟩ :=
          exploreFrame_spec T board inc bound goal timeline gravity s s3 fn dl hfr
        have hloop : s.x ≠ bound ∨ s.rotationIndex ≠ goal := by
          by_cases hxb : s.x = bound
          · right; intro hrg; exact hexit ⟨hxb, hrg⟩
          · left; exact hxb
        -- how the frame moves the piece
        have hx' : s3.x = s.x ∨ (s.x ≠ bound ∧ s3.x = s.x + inc) := by
          rw [hx]
          by_cases hc : shouldPerformInputsThisFrame s.frameIndex timeline = true ∧ s.x ≠ bound
          · right; exact ⟨hc.2, by simp [hc]⟩
          · left; simp [hc]
        have hr' : s.rotationIndex = goal → s3.rotationIndex = goal := by
          intro hsg; rw [hr]; simp [hsg]
        have h03 : inc = 0 → s3.x = bound := by
          intro hi; have := h0 hi
          rcases hx' with hx' | ⟨_, hx'⟩ <;> omega
        have hb3 : 0 ≤ inc * (bound - s3.x) := by
          rcases hinc with rfl | rfl | rfl <;> rcases hx' with hx' | ⟨_, hx'⟩ <;> omega
        -- the state registered in this frame
        have hreg : fn = true → Registered T board inc bound goal s s3 := by
          intro hfn1
          have hin := (hfn.1 hfn1).1
          refine ⟨(hfn.1 hfn1).2, hp, hcol hfn1 hloop, ?_, ?_, ?_, ?_⟩
          · rcases hinc with rfl | rfl | rfl <;> rcases hx' with hx' | ⟨_, hx'⟩ <;> omega
          · rcases hinc with rfl | rfl | rfl <;> rcases hx' with hx' | ⟨_, hx'⟩ <;> omega
          · intro hi; have := h0 hi
            rcases hx' with hx' | ⟨_, hx'⟩ <;> omega
          · intro hsame
            have hxb : s.x = bound := by
              by_contra hne
              rw [hx] at hsame
              simp only [hin, hne, ne_eq, not_false_eq_true, and_self, if_true] at hsame
              have := h0
              rcases hinc with rfl | rfl | rfl <;> omega
            refine ⟨hxb, ?_⟩
            rcases hloop with hl | hl
            · exact absurd hxb hl
            · exact hl
        by_cases hdl : dl = true
        · simp only [hdl, if_true, Option.some.injEq] at h
          by_cases hfn1 : fn = true
          · refine ⟨[s3], by rw [← h]; simp [hfn1], ?_, List.pairwise_singleton _ _⟩
            intro a ha
            simp at ha; rw [ha]; exact hreg hfn1
          · exact ⟨[], by rw [← h]; simp [hfn1], by simp, List.Pairwise.nil⟩
        · simp only [hdl, if_false] at h
          obtain ⟨added, hadd, hall, hpw⟩ := ih s3 _ _ res h03 hb3 h
          have hall' : ∀ a ∈ added, Registered T board inc bound goal s a := fun a ha =>
            registered_of_next T board inc bound goal hinc s s3 a hp hx' hr' hb (hall a ha)
          by_cases hfn1 : fn = true
          · refine ⟨s3 :: added, by rw [hadd]; simp [hfn1], ?_, ?_⟩
            · intro a ha
              rcases List.mem_cons.1 ha with rfl | ha
              · exact hreg hfn1
              · exact hall' a ha
            · refine List.Pairwise.cons ?_ hpw
              intro a ha hsame
              obtain ⟨-, -, -, -, -, -, h7⟩ := hall a ha
              exact (h7 hsame.symm).2 (hfn.1 hfn1).2
          · exact ⟨added, by rw [hadd]; simp [hfn1], hall', hpw⟩

/-- An exploration that needs two rotation steps registers nothing in the column
next to its start. -/
theorem exploreHorizontally_two_steps (T : Tables) (board : List Nat) (inc bound goal : Int)
    (timeline : List Char) (gravity : Int) (hinc : inc = 1 ∨ inc = -1) :
    ∀ (fuel : Nat) (s : SimState) (range : Int) (legal : List SimState) (res : Int × List SimState),
      s.rotationIndex ≠ goal → rotateTowardsGoal s.rotationIndex goal ≠ goal →
      s.x ≠ bound → s.x + inc ≠ bound → 0 ≤ inc * (bound - s.x) →
      exploreHorizontally T board inc bound goal timeline gravity fuel s range legal = some res →
      ∀ added, res.2 = legal ++ added → ∀ a ∈ added, a.x ≠ s.x + inc := by
  have hinc3 : inc = 1 ∨ inc = -1 ∨ inc = 0 := by omega
  intro fuel
  induction fuel with
  | zero =>
    intro s range legal res hr _ hxb _ _ h
    rw [exploreHorizontally] at h
    simp [hxb] at h
  | succ fuel ih =>
    intro s range legal res hr hr2 hxb hxb2 hb h
    rw [exploreHorizontally] at h
    have hexit : ¬ (s.x = bound ∧ s.rotationIndex = goal) := fun hc => hxb hc.1
    simp only [hexit, if_false] at h
    cases hfr : exploreFrame T board inc bound goal timeline gravity s with
    | none =>
      simp only [hfr, Option.some.injEq] at h
      intro added hadd a ha
      rw [← h] at hadd
      have : added = [] := by simpa using hadd
      rw [this] at ha; simp at ha
    | some r =>
      obtain ⟨s3, fn, dl⟩ := r
      simp only [hfr] at h
      obtain ⟨-, -, hx, hrot, hfn, -, -, -⟩ :=
        exploreFrame_spec T board inc bound goal timeline gravity s s3 fn dl hfr
      have hfn0 : fn = false := by
        cases hfnv : fn with
        | false => rfl
        | true =>
          exfalso
          obtain ⟨hin, hg3⟩ := hfn.1 hfnv
          rw [hrot] at hg3
          simp only [hin, hr, ne_eq, not_false_eq_true, and_self, if_true] at hg3
          exact hr2 hg3
      subst hfn0
      simp only [Bool.false_eq_true, if_false] at h
      by_cases hdl : dl = true
      · simp only [hdl, if_true, Option.some.injEq] at h
        intro added hadd a ha
        rw [← h] at hadd
        have : added = [] := by simpa using hadd
        rw [this] at ha; simp at ha
      · simp only [hdl, if_false] at h
        by_cases hin : shouldPerformInputsThisFrame s.frameIndex timeline = true
        · -- the shift is done, the rotation is on its way
          have hx3 : s3.x = s.x + inc := by rw [hx]; simp [hin, hxb]
          obtain ⟨added', hadd', hall, -⟩ :=
            exploreHorizontally_registered T board inc bound goal timeline gravity hinc3 fuel s3 _ _
              res (by intro h0; omega)
              (by rcases hinc with rfl | rfl <;> omega) h
          intro added hadd a ha
          have : added = added' := List.append_cancel_left (hadd.symm.trans hadd')
          rw [this] at ha
          obtain ⟨-, -, -, -, -, -, h7⟩ := hall a ha
          intro hax
          exact hxb2 (by have := (h7 (by omega)).1; omega)
        · have hx3 : s3.x = s.x := by rw [hx]; simp [hin]
          have hr3 : s3.rotationIndex = s.rotationIndex := by rw [hrot]; simp [hin]
          have := ih s3 _ _ res (by rw [hr3]; exact hr) (by rw [hr3]; exact hr2)
            (by omega) (by omega) (by rw [hx3]; exact hb) h
          intro added hadd a ha
          rw [← hx3]
          exact this added hadd a ha

theorem intRange_zero_zero : intRange 0 0 = [0] := by decide

theorem intRange_neg_one_one : intRange (-1) 1 = [-1, 0, 1] := by decide

theorem intRange_zero_three : intRange 0 3 = [0, 1, 2, 3] := by decide

/-- `explorePlacementsNearSpawn` for rotation 2: three explorations in a row. -/
theorem explorePlacementsNearSpawn_two (T : Tables) (board : List Nat) (fuel : Nat)
    (s : SimState) (timeline : List Char) (gravity : Int) (legal legal3 : List SimState)
    (h : explorePlacementsNearSpawn T board fuel s 2 timeline gravity legal = some legal3) :
    ∃ ra rb rc,
      exploreHorizontally T board (-1) (s.x + -1) 2 timeline gravity fuel s 0 legal = some ra ∧
      exploreHorizontally T board 0 (s.x + 0) 2 timeline gravity fuel s 0 ra.2 = some rb ∧
      exploreHorizontally T board 1 (s.x + 1) 2 timeline gravity fuel s 0 rb.2 = some rc ∧
      legal3 = rc.2 := by
  unfold explorePlacementsNearSpawn at h
  dsimp only at h
  rw [if_pos rfl, if_pos rfl, intRange_neg_one_one] at h
  simp only [forEachM] at h
  cases ha : exploreHorizontally T board (-1) (s.x + -1) 2 timeline gravity fuel s 0 legal with
  | none => rw [ha] at h; exact absurd h (by simp)
  | some ra =>
    rw [ha] at h
    simp only [Option.map_some'] at h
    cases hb : exploreHorizontally T board 0 (s.x + 0) 2 timeline gravity fuel s 0 ra.2 with
    | none => rw [hb] at h; exact absurd h (by simp)
    | some rb =>
      rw [hb] at h
      simp only [Option.map_some'] at h
      cases hc : exploreHorizontally T board 1 (s.x + 1) 2 timeline gravity fuel s 0 rb.2 with
      | none => rw [hc] at h; exact absurd h (by simp)
      | some rc =>
        rw [hc] at h
        simp only [Option.map_some', Option.some.injEq] at h
        exact ⟨ra, rb, rc, rfl, hb, hc, h.symm⟩

/-- `explorePlacementsNearSpawn` for another rotation: one exploration. -/
theorem explorePlacementsNearSpawn_other (T : Tables) (board : List Nat) (fuel : Nat)
    (s : SimState) (goal : Int) (hg : goal ≠ 2) (timeline : List Char) (gravity : Int)
    (legal legal3 : List SimState)
    (h : explorePlacementsNearSpawn T board fuel s goal timeline gravity legal = some legal3) :
    ∃ rb,
      exploreHorizontally T board 0 (s.x + 0) goal timeline gravity fuel s 0 legal = some rb ∧
      legal3 = rb.2 := by
  unfold explorePlacementsNearSpawn at h
  dsimp only at h
  rw [if_neg hg, if_neg hg, intRange_zero_zero] at h
  simp only [forEachM] at h
  cases hb : exploreHorizontally T board 0 (s.x + 0) goal timeline gravity fuel s 0 legal with
  | none => rw [hb] at h; exact absurd h (by simp)
  | some rb =>
    rw [hb] at h
    simp only [Option.map_some', Option.some.injEq] at h
    exact ⟨rb, rfl, h.symm⟩

/-- The three explorations of one goal rotation from the spawn column: the states
they append are legal for the goal, lie in pairwise different columns, and none of
them is in the spawn column when the goal is rotation 0. -/
theorem goal_pass_registered (T : Tables) (board : List Nat) (timeline : List Char)
    (gravity : Int) (fuel : Nat) (s : SimState) (goal : Int)
    (hx : s.x = 3) (hrot : s.rotationIndex = 0) (hgoal : 0 ≤ goal ∧ goal ≤ 3)
    (legal0 legal1 legal2 legal3 : List SimState) (r1 r2 : Int)
    (h1 : exploreHorizontally T board (-1) (-99) goal timeline gravity fuel s 0 legal0 =
      some (r1, legal1))
    (h2 : exploreHorizontally T board 1 99 goal timeline gravity fuel s 0 legal1 =
      some (r2, legal2))
    (h3 : explorePlacementsNearSpawn T board fuel s goal timeline gravity legal2 = some legal3) :
    ∃ block, legal3 = legal0 ++ block ∧
      (∀ a ∈ block, LegalFor T board s.piece goal a ∧ (goal = 0 → a.x ≠ 3)) ∧
      block.Pairwise fun a b => a.x ≠ b.x := by
  obtain ⟨left, hleft, hlall, hlpw⟩ :=
    exploreHorizontally_registered T board (-1) (-99) goal timeline gravity (by omega) fuel s 0
      legal0 _ (by omega) (by omega) h1
  obtain ⟨right, hright, hrall, hrpw⟩ :=
    exploreHorizontally_registered T board 1 99 goal timeline gravity (by omega) fuel s 0
      legal1 _ (by omega) (by omega) h2
  simp only at hleft hright
  have hl : ∀ a ∈ left, LegalFor T board s.piece goal a ∧ a.x < 3 := by
    intro a ha
    obtain ⟨g1, g2, g3, g4, g5, g6, g7⟩ := hlall a ha
    refine ⟨⟨g1, g2, g3⟩, ?_⟩
    have : a.x ≠ s.x := fun hc => by have := (g7 hc).1; omega
    omega
  have hr : ∀ a ∈ right, LegalFor T board s.piece goal a ∧ 3 < a.x := by
    intro a ha
    obtain ⟨g1, g2, g3, g4, g5, g6, g7⟩ := hrall a ha
    refine ⟨⟨g1, g2, g3⟩, ?_⟩
    have : a.x ≠ s.x := fun hc => by have := (g7 hc).1; omega
    omega
  by_cases hg2 : goal = 2
  · -- rotation 2: three more explorations, to the columns 2, 3 and 4
    subst hg2
    obtain ⟨ra, rb, rc, ha, hb, hc, h3⟩ :=
      explorePlacementsNearSpawn_two T board fuel s timeline gravity legal2 legal3 h3
    obtain ⟨na, hna, haall, hapw⟩ :=
      exploreHorizontally_registered T board (-1) _ 2 timeline gravity (by omega)
        fuel s 0 legal2 _ (by omega) (by omega) ha
    obtain ⟨nb, hnb, hball, hbpw⟩ :=
      exploreHorizontally_registered T board 0 _ 2 timeline gravity (by omega)
        fuel s 0 ra.2 _ (by omega) (by omega) hb
    obtain ⟨nc, hnc, hcall, hcpw⟩ :=
      exploreHorizontally_registered T board 1 _ 2 timeline gravity (by omega)
        fuel s 0 rb.2 _ (by omega) (by omega) hc
    have hl2 : ∀ a ∈ left, a.x ≠ 2 := by
      intro a ha'
      have := exploreHorizontally_two_steps T board (-1) (-99) 2 timeline gravity
        (by omega) fuel s 0 legal0 _ (by rw [hrot]; omega)
        (by rw [hrot]; decide) (by omega) (by omega) (by omega) h1 left hleft a ha'
      omega
    have hr2 : ∀ a ∈ right, a.x ≠ 4 := by
      intro a ha'
      have := exploreHorizontally_two_steps T board 1 99 2 timeline gravity
        (by omega) fuel s 0 legal1 _ (by rw [hrot]; omega)
        (by rw [hrot]; decide) (by omega) (by omega) (by omega) h2 right hright a ha'
      omega
    have hna' : ∀ a ∈ na, LegalFor T board s.piece 2 a ∧ a.x = 2 := by
      intro a ha'
      obtain ⟨g1, g2, g3, g4, g5, g6, g7⟩ := haall a ha'
      refine ⟨⟨g1, g2, g3⟩, ?_⟩
      have : a.x ≠ s.x := fun hc => by have := (g7 hc).1; omega
      omega
    have hnb' : ∀ a ∈ nb, LegalFor T board s.piece 2 a ∧ a.x = 3 := by
      intro a ha'
      obtain ⟨g1, g2, g3, g4, g5, g6, g7⟩ := hball a ha'
      exact ⟨⟨g1, g2, g3⟩, by have := g6 rfl; omega⟩
    have hnc' : ∀ a ∈ nc, LegalFor T board s.piece 2 a ∧ a.x = 4 := by
      intro a ha'
      obtain ⟨g1, g2, g3, g4, g5, g6, g7⟩ := hcall a ha'
      refine ⟨⟨g1, g2, g3⟩, ?_⟩
      have : a.x ≠ s.x := fun hc => by have := (g7 hc).1; omega
      omega
    refine ⟨left ++ (right ++ (na ++ (nb ++ nc))), ?_, ?_, ?_⟩
    · rw [h3, hnc, hnb, hna, hright, hleft]
      simp
    · intro a ha'
      simp only [List.mem_append] at ha'
      refine ⟨?_, by omega⟩
      rcases ha' with h | h | h | h | h
      · exact (hl a h).1
      · exact (hr a h).1
      · exact (hna' a h).1
      · exact (hnb' a h).1
      · exact (hnc' a h).1
    · simp only [List.pairwise_append, List.mem_append]
      refine ⟨hlpw, ⟨hrpw, ⟨hapw, ⟨hbpw, hcpw, ?_⟩, ?_⟩, ?_⟩, ?_⟩
      · intro a ha' b hb'
        have := (hnb' a ha').2; have := (hnc' b hb').2; omega
      · intro a ha' b hb'
        have := (hna' a ha').2
        rcases hb' with h | h
        · have := (hnb' b h).2; omega
        · have := (hnc' b h).2; omega
      · intro a ha' b hb'
        have := (hr a ha').2; have := hr2 a ha'
        rcases hb' with h | h | h
        · have := (hna' b h).2; omega
        · have := (hnb' b h).2; omega
        · have := (hnc' b h).2; omega
      · intro a ha' b hb'
        have := (hl a ha').2; have := hl2 a ha'
        rcases hb' with h | h | h | h
        · have := (hr b h).2; omega
        · have := (hna' b h).2; omega
        · have := (hnb' b h).2; omega
        · have := (hnc' b h).2; omega
  · -- another rotation: one more exploration, in the spawn column
    obtain ⟨rb, hb, h3⟩ :=
      explorePlacementsNearSpawn_other T board fuel s goal hg2 timeline gravity legal2 legal3 h3
    · obtain ⟨nb, hnb, hball, hbpw⟩ :=
        exploreHorizontally_registered T board 0 _ goal timeline gravity (by omega)
          fuel s 0 legal2 _ (by omega) (by omega) hb
      have hnb' : ∀ a ∈ nb, LegalFor T board s.piece goal a ∧ a.x = 3 ∧ goal ≠ 0 := by
        intro a ha'
        obtain ⟨g1, g2, g3, g4, g5, g6, g7⟩ := hball a ha'
        have hax : a.x = s.x := g6 rfl
        refine ⟨⟨g1, g2, g3⟩, by omega, ?_⟩
        have := (g7 hax).2
        rw [hrot] at this
        exact fun hc => this hc.symm
      refine ⟨left ++ (right ++ nb), ?_, ?_, ?_⟩
      · rw [h3, hnb, hright, hleft]
        simp
      · intro a ha'
        simp only [List.mem_append] at ha'
        rcases ha' with h | h | h
        · exact ⟨(hl a h).1, fun _ => by have := (hl a h).2; omega⟩
        · exact ⟨(hr a h).1, fun _ => by have := (hr a h).2; omega⟩
        · exact ⟨(hnb' a h).1, fun hc => absurd hc (hnb' a h).2.2⟩
      · simp only [List.pairwise_append, List.mem_append]
        refine ⟨hlpw, ⟨hrpw, hbpw, ?_⟩, ?_⟩
        · intro a ha' b hb'
          have := (hr a ha').2; have := (hnb' b hb').2.1; omega
        · intro a ha' b hb'
          have := (hl a ha').2
          rcases hb' with h | h
          · have := (hr b h).2; omega
          · have := (hnb' b h).2.1; omega

/-! ## Move search: the loop over the goal rotations -/

/-- The loop over the goal rotations keeps the legal list legal. When it starts
with rotation 0 and that rotation exists, the spawn state is checked and put
first. -/
theorem rotationLoop_spec (T : Tables) (fuel : Nat) (board : List Nat) (s : SimState)
    (piece : Piece) (timeline : List Char) (gravity : Int)
    (hx : s.x = 3) (hrot : s.rotationIndex = 0) (hp : s.piece = piece) :
    ∀ (goals : List Int) (legal legal' : List SimState),
      goals.Pairwise (fun a b => a < b) → (∀ g ∈ goals, 0 ≤ g ∧ g ≤ 3) →
      (∀ a ∈ legal, ∀ g ∈ goals, a.rotationIndex < g) →
      LegalList T board piece legal →
      rotationLoop T fuel board s piece timeline gravity goals legal = some (some legal') →
      LegalList T board piece legal' ∧ ∃ added, legal' = legal ++ added := by
  intro goals
  induction goals with
  | nil =>
    intro legal legal' _ _ _ hl h
    simp only [rotationLoop, Option.some.injEq] at h
    rw [← h]
    exact ⟨hl, [], by simp⟩
  | cons g rest ih =>
    intro legal legal' hsorted hrange hlt hl h
    rw [rotationLoop] at h
    rw [List.pairwise_cons] at hsorted
    have hrest : ∀ g' ∈ rest, 0 ≤ g' ∧ g' ≤ 3 := fun g' hg' =>
      hrange g' (List.mem_cons_of_mem g hg')
    by_cases habs : readAt (readAt piece.rowsByRotation g []) 0 0 = -1
    · rw [if_pos habs] at h
      exact ih legal legal' hsorted.2 hrest
        (fun a ha g' hg' => hlt a ha g' (List.mem_cons_of_mem g hg')) hl h
    · rw [if_neg habs] at h
      by_cases hsp : g = 0 ∧ collision T board piece s.x s.y s.rotationIndex = true
      · rw [if_pos hsp] at h
        exact absurd h (by simp)
      · rw [if_neg hsp] at h
        dsimp only at h
        split at h
        · exact absurd h (by simp)
        · rename_i r1 legal1 h1
          split at h
          · exact absurd h (by simp)
          · rename_i r2 legal2 h2
            split at h
            · exact absurd h (by simp)
            · rename_i legal3 h3
              have hg := hrange g (List.mem_cons_self g rest)
              obtain ⟨block, hblock, hball, hbpw⟩ :=
                goal_pass_registered T board timeline gravity fuel s g hx hrot hg _ legal1 legal2
                  legal3 r1 r2 h1 h2 h3
              -- the list after this goal rotation
              have hnew : LegalList T board piece legal3 ∧
                  (∀ a ∈ legal3, a.rotationIndex ≤ g) ∧ ∃ added, legal3 = legal ++ added := by
                have hblockLegal : ∀ a ∈ block, a.piece = piece ∧
                    collision T board a.piece a.x a.y a.rotationIndex = false ∧
                    readAt (readAt piece.rowsByRotation a.rotationIndex []) 0 0 ≠ -1 ∧
                    0 ≤ a.rotationIndex ∧ a.rotationIndex ≤ 3 ∧ a.rotationIndex = g := by
                  intro a ha
                  obtain ⟨⟨g1, g2, g3⟩, -⟩ := hball a ha
                  exact ⟨g2.trans hp, g3, by rw [g1]; exact habs, by omega, by omega, g1⟩
                have hblockPw : block.Pairwise fun a b =>
                    a.rotationIndex ≠ b.rotationIndex ∨ a.x ≠ b.x :=
                  hbpw.imp fun hab => Or.inr hab
                by_cases hg0 : g = 0
                · rw [if_pos hg0] at hblock
                  have hcol : collision T board piece s.x s.y s.rotationIndex = false := by
                    cases hc : collision T board piece s.x s.y s.rotationIndex with
                    | false => rfl
                    | true => exact absurd ⟨hg0, hc⟩ hsp
                  refine ⟨⟨?_, ?_⟩, ?_, s :: block, by rw [hblock]; simp⟩
                  · intro a ha
                    rw [hblock] at ha
                    simp only [List.mem_append, List.mem_singleton] at ha
                    rcases ha with (ha | ha) | ha
                    · exact hl.1 a ha
                    · rw [ha]
                      exact ⟨hp, by rw [hp]; exact hcol, by rw [hrot]; rw [hg0] at habs; exact habs,
                        by omega, by omega⟩
                    · obtain ⟨b1, b2, b3, b4, b5, -⟩ := hblockLegal a ha
                      exact ⟨b1, b2, b3, b4, b5⟩
                  · rw [hblock]
                    simp only [List.pairwise_append, List.mem_append, List.mem_singleton]
                    refine ⟨⟨hl.2, List.pairwise_singleton _ _, ?_⟩, hblockPw, ?_⟩
                    · intro a ha b hb
                      have := hlt a ha g (List.mem_cons_self g rest)
                      left; rw [hb]; omega
                    · intro a ha b hb
                      rcases ha with ha | ha
                      · have := hlt a ha g (List.mem_cons_self g rest)
                        have := (hblockLegal b hb).2.2.2.2.2
                        left; omega
                      · right
                        have := (hball b hb).2 hg0
                        rw [ha]; omega
                  · intro a ha
                    rw [hblock] at ha
                    simp only [List.mem_append, List.mem_singleton] at ha
                    rcases ha with (ha | ha) | ha
                    · have := hlt a ha g (List.mem_cons_self g rest); omega
                    · rw [ha]; omega
                    · have := (hblockLegal a ha).2.2.2.2.2; omega
                · rw [if_neg hg0] at hblock
                  refine ⟨⟨?_, ?_⟩, ?_, block, hblock⟩
                  · intro a ha
                    rw [hblock] at ha
                    rcases List.mem_append.1 ha with ha | ha
                    · exact hl.1 a ha
                    · obtain ⟨b1, b2, b3, b4, b5, -⟩ := hblockLegal a ha
                      exact ⟨b1, b2, b3, b4, b5⟩
                  · rw [hblock]
                    simp only [List.pairwise_append]
                    refine ⟨hl.2, hblockPw, ?_⟩
                    intro a ha b hb
                    have := hlt a ha g (List.mem_cons_self g rest)
                    have := (hblockLegal b hb).2.2.2.2.2
                    left; omega
                  · intro a ha
                    rw [hblock] at ha
                    rcases List.mem_append.1 ha with ha | ha
                    · have := hlt a ha g (List.mem_cons_self g rest); omega
                    · have := (hblockLegal a ha).2.2.2.2.2; omega
              obtain ⟨hl3, hle3, added3, hadd3⟩ := hnew
              obtain ⟨hfin, added', hadd'⟩ := ih legal3 legal' hsorted.2 hrest
                (fun a ha g' hg' => by
                  have := hle3 a ha
                  have := hsorted.1 g' hg'
                  omega) hl3 h
              exact ⟨hfin, added3 ++ added', by rw [hadd', hadd3, List.append_assoc]⟩

/-- The loop returns early only on a spawn collision. -/
theorem rotationLoop_none (T : Tables) (fuel : Nat) (board : List Nat) (s : SimState)
    (piece : Piece) (timeline : List Char) (gravity : Int) :
    ∀ (goals : List Int) (legal : List SimState),
      rotationLoop T fuel board s piece timeline gravity goals legal = some none →
      collision T board piece s.x s.y s.rotationIndex = true := by
  intro goals
  induction goals with
  | nil => intro legal h; simp [rotationLoop] at h
  | cons g rest ih =>
    intro legal h
    rw [rotationLoop] at h
    split at h
    · exact ih legal h
    · split at h
      · rename_i hsp; exact hsp.2
      · dsimp only at h
        split at h
        · exact absurd h (by simp)
        · split at h
          · exact absurd h (by simp)
          · split at h
            · exact absurd h (by simp)
            · exact ih _ h

/-- The loop over the four rotations from the empty list, when rotation 0 exists:
either the spawn pose collides and the loop returns at once, or the spawn state is
the first legal state. -/
theorem rotationLoop_spawn (T : Tables) (fuel : Nat) (board : List Nat) (s : SimState)
    (piece : Piece) (timeline : List Char) (gravity : Int)
    (hx : s.x = 3) (hrot : s.rotationIndex = 0) (hp : s.piece = piece)
    (h0 : readAt (readAt piece.rowsByRotation 0 []) 0 0 ≠ -1) (res : Option (List SimState))
    (h : rotationLoop T fuel board s piece timeline gravity (intRange 0 3) [] = some res) :
    (collision T board piece s.x s.y s.rotationIndex = true ∧ res = none) ∨
    (collision T board piece s.x s.y s.rotationIndex = false ∧
      ∃ rest, res = some (s :: rest)) := by
  rw [intRange_zero_three] at h
  by_cases hc : collision T board piece s.x s.y s.rotationIndex = true
  · left
    rw [rotationLoop, if_neg h0, if_pos ⟨rfl, hc⟩] at h
    exact ⟨hc, by cases h; rfl⟩
  · right
    have hcf : collision T board piece s.x s.y s.rotationIndex = false := by simpa using hc
    refine ⟨hcf, ?_⟩
    cases res with
    | none => exact absurd (rotationLoop_none T fuel board s piece timeline gravity _ _ h) hc
    | some legal' =>
      rw [rotationLoop, if_neg h0, if_neg (fun hcon => hc hcon.2)] at h
      dsimp only at h
      split at h
      · exact absurd h (by simp)
      · rename_i r1 legal1 h1
        split at h
        · exact absurd h (by simp)
        · rename_i r2 legal2 h2
          split at h
          · exact absurd h (by simp)
          · rename_i legal3 h3
            obtain ⟨block, hblock, hball, hbpw⟩ :=
              goal_pass_registered T board timeline gravity fuel s 0 hx hrot (by omega) _ legal1
                legal2 legal3 r1 r2 h1 h2 h3
            have hl3 : LegalList T board piece legal3 := by
              rw [hblock]
              refine ⟨?_, ?_⟩
              · intro a ha
                simp only [if_true, List.nil_append, List.singleton_append,
                  List.mem_cons] at ha
                rcases ha with ha | ha
                · rw [ha]
                  exact ⟨hp, by rw [hp]; exact hcf, by rw [hrot]; exact h0, by omega, by omega⟩
                · obtain ⟨⟨g1, g2, g3⟩, -⟩ := hball a ha
                  exact ⟨g2.trans hp, g3, by rw [g1]; exact h0, by omega, by omega⟩
              · simp only [if_true, List.nil_append, List.singleton_append]
                refine List.Pairwise.cons ?_ (hbpw.imp fun hab => Or.inr hab)
                intro a ha
                right
                have := (hball a ha).2 rfl
                omega
            obtain ⟨-, added, hadd⟩ := rotationLoop_spec T fuel board s piece timeline gravity
              hx hrot hp [1, 2, 3] legal3 legal' (by decide) (by decide)
              (by
                intro a ha g hg
                rw [hblock] at ha
                simp only [if_true, List.nil_append, List.singleton_append,
                  List.mem_cons] at ha
                have hr0 : a.rotationIndex = 0 := by
                  rcases ha with ha | ha
                  · rw [ha]; exact hrot
                  · exact (hball a ha).1.1
                simp only [List.mem_cons, List.mem_singleton, List.not_mem_nil, or_false] at hg
                omega) hl3 h
            refine ⟨block ++ added, ?_⟩
            rw [hadd, hblock]
            simp

/-- The exploration never registers a state above the row in which it starts. -/
theorem exploreHorizontally_rows (T : Tables) (board : List Nat) (inc bound goal : Int)
    (timeline : List Char) (gravity : Int) (y0 : Int) :
    ∀ (fuel : Nat) (s : SimState) (range : Int) (legal : List SimState) (res : Int × List SimState),
      y0 ≤ s.y → (∀ a ∈ legal, y0 ≤ a.y) →
      exploreHorizontally T board inc bound goal timeline gravity fuel s range legal = some res →
      ∀ a ∈ res.2, y0 ≤ a.y := by
  intro fuel
  induction fuel with
  | zero =>
    intro s range legal res _ hl h
    rw [exploreHorizontally] at h
    split at h
    · cases h; exact hl
    · exact absurd h (by simp)
  | succ fuel ih =>
    intro s range legal res hs hl h
    rw [exploreHorizontally] at h
    split at h
    · cases h; exact hl
    · cases hfr : exploreFrame T board inc bound goal timeline gravity s with
      | none =>
        simp only [hfr, Option.some.injEq] at h
        rw [← h]; exact hl
      | some r =>
        obtain ⟨s3, fn, dl⟩ := r
        simp only [hfr] at h
        obtain ⟨-, -, -, -, -, hy, -, -⟩ :=
          exploreFrame_spec T board inc bound goal timeline gravity s s3 fn dl hfr
        have hs3 : y0 ≤ s3.y := by rcases hy with hy | ⟨hy, -, -⟩ <;> omega
        have hl1 : ∀ a ∈ (if fn = true then legal ++ [s3] else legal), y0 ≤ a.y := by
          intro a ha
          split at ha
          · rcases List.mem_append.1 ha with ha | ha
            · exact hl a ha
            · simp at ha; rw [ha]; exact hs3
          · exact hl a ha
        split at h
        · cases h; exact hl1
        · exact ih s3 _ _ res hs3 hl1 h

/-- The loop over the goal rotations never registers a state above the start row. -/
theorem rotationLoop_rows (T : Tables) (fuel : Nat) (board : List Nat) (s : SimState)
    (piece : Piece) (timeline : List Char) (gravity : Int) (y0 : Int) (hs : y0 ≤ s.y) :
    ∀ (goals : List Int) (legal legal' : List SimState),
      (∀ a ∈ legal, y0 ≤ a.y) →
      rotationLoop T fuel board s piece timeline gravity goals legal = some (some legal') →
      ∀ a ∈ legal', y0 ≤ a.y := by
  intro goals
  induction goals with
  | nil =>
    intro legal legal' hl h
    simp only [rotationLoop, Option.some.injEq] at h
    rw [← h]; exact hl
  | cons g rest ih =>
    intro legal legal' hl h
    rw [rotationLoop] at h
    split at h
    · exact ih legal legal' hl h
    · split at h
      · exact absurd h (by simp)
      · dsimp only at h
        split at h
        · exact absurd h (by simp)
        · rename_i r1 legal1 h1
          split at h
          · exact absurd h (by simp)
          · rename_i r2 legal2 h2
            split at h
            · exact absurd h (by simp)
            · rename_i legal3 h3
              have hl0 : ∀ a ∈ (if g = 0 then legal ++ [s] else legal), y0 ≤ a.y := by
                intro a ha
                split at ha
                · rcases List.mem_append.1 ha with ha | ha
                  · exact hl a ha
                  · simp at ha; rw [ha]; exact hs
                · exact hl a ha
              have hl1 := exploreHorizontally_rows T board (-1) (-99) g timeline gravity y0 fuel
                s 0 _ _ hs hl0 h1
              have hl2 := exploreHorizontally_rows T board 1 99 g timeline gravity y0 fuel
                s 0 _ _ hs hl1 h2
              have hl3 : ∀ a ∈ legal3, y0 ≤ a.y := by
                unfold explorePlacementsNearSpawn at h3
                refine forEachM_invariant _ (fun l => ∀ a ∈ l, y0 ≤ a.y) _ ?_ legal2 legal3
                  hl2 h3
                intro xOffset _ l l1 hl hstep
                obtain ⟨r, hr, hr2⟩ := Option.map_eq_some'.1 hstep
                rw [← hr2]
                exact exploreHorizontally_rows T board xOffset (s.x + xOffset) g timeline
                  gravity y0 fuel s 0 l r hs hl hr
              exact ih legal3 legal' hl3 h

/-! ## Move search: termination and the shape of the result -/

theorem getGravity_pos (level : Int) : 1 ≤ getGravity level := by
  unfold getGravity
  split
  · omega
  · split <;> omega

theorem explorePlacementsNearSpawn_terminates (T : Tables) (board : List Nat) (goal : Int)
    (timeline : List Char) (gravity : Int) (hg : 1 ≤ gravity) (M : Int) (s : SimState)
    (hM : ∀ r, readAt s.piece.maxYByRotation r 0 ≤ M) (hf : 0 ≤ s.frameIndex) (fuel : Nat)
    (hfuel : framesLeft M gravity s < fuel) (legal : List SimState) :
    ∃ res, explorePlacementsNearSpawn T board fuel s goal timeline gravity legal = some res := by
  unfold explorePlacementsNearSpawn
  apply forEachM_some
  intro xOffset _ l
  obtain ⟨res, hres⟩ := exploreHorizontally_terminates T board xOffset (s.x + xOffset) goal
    timeline gravity hg M s.piece hM fuel s 0 l rfl hf hfuel
  exact ⟨res.2, by rw [hres]; rfl⟩

theorem rotationLoop_terminates (T : Tables) (board : List Nat) (piece : Piece)
    (timeline : List Char) (gravity : Int) (hg : 1 ≤ gravity) (M : Int) (s : SimState)
    (hp : s.piece = piece) (hM : ∀ r, readAt piece.maxYByRotation r 0 ≤ M)
    (hf : 0 ≤ s.frameIndex) (fuel : Nat) (hfuel : framesLeft M gravity s < fuel) :
    ∀ (goals : List Int) (legal : List SimState),
      ∃ res, rotationLoop T fuel board s piece timeline gravity goals legal = some res := by
  intro goals
  induction goals with
  | nil => intro legal; exact ⟨_, rfl⟩
  | cons g rest ih =>
    intro legal
    rw [rotationLoop]
    split
    · exact ih legal
    · split
      · exact ⟨_, rfl⟩
      · dsimp only
        obtain ⟨⟨r1, l1⟩, h1⟩ := exploreHorizontally_terminates T board (-1) (-99) g timeline
          gravity hg M piece hM fuel s 0 (if g = 0 then legal ++ [s] else legal) hp hf hfuel
        rw [h1]
        dsimp only
        obtain ⟨⟨r2, l2⟩, h2⟩ := exploreHorizontally_terminates T board 1 99 g timeline gravity
          hg M piece hM fuel s 0 l1 hp hf hfuel
        rw [h2]
        dsimp only
        obtain ⟨l3, h3⟩ := explorePlacementsNearSpawn_terminates T board g timeline gravity hg M
          s (by rw [hp]; exact hM) hf fuel hfuel l2
        rw [h3]
        exact ih l3

theorem exists_nat_bound {α : Type} (l : List α) (f : α → Nat) : ∃ N, ∀ a ∈ l, f a ≤ N := by
  induction l with
  | nil => exact ⟨0, by simp⟩
  | cons a rest ih =>
    obtain ⟨N, hN⟩ := ih
    refine ⟨max N (f a), ?_⟩
    intro b hb
    rcases List.mem_cons.1 hb with rfl | hb
    · exact le_max_right _ _
    · exact le_trans (hN b hb) (le_max_left _ _)

theorem findTucks_terminates (T : Tables) (board : List Nat) (piece : Piece) (fuel : Nat)
    (hfuel : ∀ spot ∈ T.TUCK_SPOTS_LIST piece.index,
      (readAt piece.maxYByRotation spot.orientation 0 + spot.y).toNat ≤ fuel)
    (atc minY : List Int) (lockPlacements : List LockPlacement) :
    ∃ out, findTucks T fuel board piece atc minY lockPlacements = some out := by
  unfold findTucks
  have hrows : ∀ st, ∃ st1, forEachM (findTucksRow T fuel board piece atc minY) (intRange 0 19)
      st = some st1 := by
    apply forEachM_some
    intro overhangY hY st
    unfold findTucksRow
    split
    · exact ⟨st, rfl⟩
    · apply forEachM_some
      intro overhangX _ st2
      unfold findTucksCell
      split
      · apply forEachM_some
        intro spot hspot st3
        unfold findTucksSpot
        dsimp only
        split
        · exact ⟨st3, rfl⟩
        · have hY0 := (intRange_mem 0 19 overhangY hY).1
          obtain ⟨ly, hly⟩ := dropToLock_spec T board piece (overhangX - spot.x) spot.orientation
            fuel (overhangY - spot.y) (by have := hfuel spot hspot; omega)
          rw [hly]
          dsimp only
          split
          · exact ⟨st3, rfl⟩
          · split
            · exact ⟨_, rfl⟩
            · exact ⟨st3, rfl⟩
      · exact ⟨st2, rfl⟩
  obtain ⟨st1, h1⟩ := hrows (lockPlacements, [])
  exact ⟨st1.1, by rw [h1]; rfl⟩

theorem getGravity_le (level : Int) : getGravity level ≤ 3 := by
  unfold getGravity
  split
  · omega
  · split <;> omega

/-- The frames left are bounded whatever the level is. -/
theorem framesLeft_le (M : Int) (level : Int) (s : SimState) :
    framesLeft M (getGravity level) s ≤ (M - s.y).toNat * 3 + 2 := by
  unfold framesLeft
  have h1 := getGravity_pos level
  have h3 := getGravity_le level
  have hg : (getGravity level).toNat ≤ 3 := by omega
  have hmul : (M - s.y).toNat * (getGravity level).toNat ≤ (M - s.y).toNat * 3 :=
    Nat.mul_le_mul_left _ hg
  omega

/-- `moveSearchInternal` returns for every start state at frame 0 or later, once
the fuel is large enough; the fuel needed depends on the piece and the start row
only, not on the game state or the timeline. -/
theorem moveSearchInternal_terminates (T : Tables) (s : SimState)
    (piece : Piece) (hp : s.piece = piece) (hf : 0 ≤ s.frameIndex) :
    ∃ N : Nat, ∀ (gameState : GameState) (timeline : List Char) (fuel : Nat), N ≤ fuel →
      ∀ lockPlacements,
        ∃ r, moveSearchInternal T fuel gameState s piece timeline lockPlacements = some r := by
  obtain ⟨N2, hN2⟩ := exists_nat_bound (T.TUCK_SPOTS_LIST piece.index)
    (fun spot => (readAt piece.maxYByRotation spot.orientation 0 + spot.y).toNat)
  refine ⟨max ((piece.maxYByRotation.foldl max 0 - s.y).toNat * 3 + 3) N2, ?_⟩
  intro gameState timeline fuel hfuel lockPlacements
  unfold moveSearchInternal
  dsimp only
  obtain ⟨res, hres⟩ := rotationLoop_terminates T gameState.board piece timeline
    (getGravity gameState.level) (getGravity_pos _) (piece.maxYByRotation.foldl max 0) s hp
    (fun r => readAt_le_bound _ r) hf fuel (by
      have := le_max_left ((piece.maxYByRotation.foldl max 0 - s.y).toNat * 3 + 3) N2
      have := framesLeft_le (piece.maxYByRotation.foldl max 0) gameState.level s
      omega) (intRange 0 3) []
  rw [hres]
  cases res with
  | none => exact ⟨_, rfl⟩
  | some legal =>
    dsimp only
    by_cases hct : T.CAN_TUCK = true
    · rw [if_pos hct]
      obtain ⟨out, hout⟩ := findTucks_terminates T gameState.board piece fuel
        (fun spot hspot => le_trans (hN2 spot hspot) (le_trans (le_max_right _ _) hfuel))
        (getLockPlacementsFast gameState.surfaceArray legal (List.replicate 40 0)
          lockPlacements).1
        (T.computeYValueOfEachShift timeline (getGravity gameState.level) piece.initialY)
        (getLockPlacementsFast gameState.surfaceArray legal (List.replicate 40 0)
          lockPlacements).2
      rw [hout]
      exact ⟨_, rfl⟩
    · rw [if_neg hct]
      exact ⟨_, rfl⟩

/-- `moveSearch` returns once the fuel is large enough for the piece. -/
theorem moveSearch_terminates_uniform (T : Tables) (piece : Piece) :
    ∃ N : Nat, ∀ (gameState : GameState) (timeline : List Char) (fuel : Nat), N ≤ fuel →
      ∀ lockPlacements, ∃ r, moveSearch T fuel gameState piece timeline lockPlacements = some r := by
  unfold moveSearch
  exact moveSearchInternal_terminates T _ piece rfl (le_refl _)

/-- `moveSearch` returns once the fuel is large enough. -/
theorem moveSearch_terminates (T : Tables) (gameState : GameState) (piece : Piece)
    (timeline : List Char) :
    ∃ N : Nat, ∀ fuel, N ≤ fuel → ∀ lockPlacements,
      ∃ r, moveSearch T fuel gameState piece timeline lockPlacements = some r := by
  obtain ⟨N, hN⟩ := moveSearch_terminates_uniform T piece
  exact ⟨N, fun fuel hfuel lockPlacements => hN gameState timeline fuel hfuel lockPlacements⟩

/-- The result of `moveSearch`, case by case: either the early return on a spawn
collision, or the lock placements of a legal list followed by emitted tucks. -/
theorem moveSearch_result (T : Tables) (fuel : Nat) (gameState : GameState) (piece : Piece)
    (timeline : List Char) (lockPlacements out : List LockPlacement) (count : Int)
    (h : moveSearch T fuel gameState piece timeline lockPlacements = some (count, out)) :
    (collision T gameState.board piece INITIAL_X piece.initialY 0 = true ∧ count = 0 ∧
      out = lockPlacements) ∨
    (∃ legal tucks atc, LegalList T gameState.board piece legal ∧
      out = lockPlacements ++ legal.map (toLockPlacement gameState.surfaceArray) ++ tucks ∧
      (∀ p ∈ tucks, TuckEmitted T gameState.board piece atc
        (T.computeYValueOfEachShift timeline (getGravity gameState.level) piece.initialY) p) ∧
      count = out.length ∧
      (readAt (readAt piece.rowsByRotation 0 []) 0 0 ≠ -1 →
        collision T gameState.board piece INITIAL_X piece.initialY 0 = false ∧
        ∃ rest, legal = spawnStateOf piece :: rest) ∧
      ∀ a ∈ legal, piece.initialY ≤ a.y) := by
  unfold moveSearch moveSearchInternal at h
  dsimp only at h
  split at h
  · exact absurd h (by simp)
  · rename_i hloop
    left
    simp only [Option.some.injEq, Prod.mk.injEq] at h
    exact ⟨rotationLoop_none T fuel gameState.board _ piece timeline _ _ _ hloop, h.1.symm,
      h.2.symm⟩
  · rename_i legal hloop
    right
    have hlegal := (rotationLoop_spec T fuel gameState.board (spawnStateOf piece) piece timeline
      (getGravity gameState.level) rfl rfl rfl (intRange 0 3) [] legal
      (by rw [intRange_zero_three]; decide) (by rw [intRange_zero_three]; decide) (by simp)
      ⟨by simp, List.Pairwise.nil⟩ hloop).1
    have hspawn : readAt (readAt piece.rowsByRotation 0 []) 0 0 ≠ -1 →
        collision T gameState.board piece INITIAL_X piece.initialY 0 = false ∧
        ∃ rest, legal = spawnStateOf piece :: rest := by
      intro h0
      rcases rotationLoop_spawn T fuel gameState.board (spawnStateOf piece) piece timeline
        (getGravity gameState.level) rfl rfl rfl h0 _ hloop with ⟨-, hn⟩ | ⟨hc, rest, hr⟩
      · exact absurd hn (by simp)
      · exact ⟨hc, rest, by simpa using hr⟩
    have hrowsY : ∀ a ∈ legal, piece.initialY ≤ a.y :=
      rotationLoop_rows T fuel gameState.board (spawnStateOf piece) piece timeline
        (getGravity gameState.level) piece.initialY (le_refl _) (intRange 0 3) [] legal
        (by simp) hloop
    by_cases hct : T.CAN_TUCK = true
    · rw [if_pos hct] at h
      split at h
      · exact absurd h (by simp)
      · rename_i withTucks htucks
        simp only [Option.some.injEq, Prod.mk.injEq] at h
        obtain ⟨added, hadd, hall⟩ := findTucks_emits T fuel gameState.board piece _ _ _ _ htucks
        rw [getLockPlacementsFast_snd] at hadd
        refine ⟨legal, added, _, hlegal, ?_, hall, ?_, hspawn, hrowsY⟩
        · rw [← h.2, hadd]
        · rw [← h.1, ← h.2]
    · rw [if_neg hct] at h
      simp only [Option.some.injEq, Prod.mk.injEq] at h
      rw [getLockPlacementsFast_snd] at h
      refine ⟨legal, [], [], hlegal, ?_, by simp, ?_, hspawn, hrowsY⟩
      · rw [← h.2]; simp
      · rw [← h.1, ← h.2]

/-! ## The tuck inputs -/

theorem ldiff_mask (k m : Nat) : Nat.ldiff (2 ^ k - 1) m = 2 ^ k - 1 - m % 2 ^ k := by
  apply Nat.eq_of_testBit_eq
  intro i
  rw [Nat.testBit_ldiff, Nat.testBit_two_pow_sub_one]
  have hm : m % 2 ^ k < 2 ^ k := Nat.mod_lt _ (by positivity)
  have hsub : 2 ^ k - 1 - m % 2 ^ k = 2 ^ k - (m % 2 ^ k + 1) := by omega
  rw [hsub, Nat.testBit_two_pow_sub_succ hm]
  by_cases h : i < k <;> simp [Nat.testBit_mod_two_pow, h]

/-- Masking with 3 is the remainder modulo 4, for negative numbers too. -/
theorem land_three (n : Int) : Int.land n 3 = n % 4 := by
  cases n with
  | ofNat m =>
    show ((m &&& 3 : Nat) : Int) = _
    have : m &&& 3 = m % 4 := by simpa using Nat.and_pow_two_sub_one_eq_mod m 2
    rw [this]
    simp
  | negSucc m =>
    show ((Nat.ldiff 3 m : Nat) : Int) = _
    have : Nat.ldiff 3 m = 3 - m % 4 := by simpa using ldiff_mask 2 m
    rw [this, Int.negSucc_eq]
    omega

/-- Masking with 1 is the remainder modulo 2, for negative numbers too. -/
theorem land_one (n : Int) : Int.land n 1 = n % 2 := by
  cases n with
  | ofNat m =>
    show ((m &&& 1 : Nat) : Int) = _
    have : m &&& 1 = m % 2 := by simp
    rw [this]
    simp
  | negSucc m =>
    show ((Nat.ldiff 1 m : Nat) : Int) = _
    have : Nat.ldiff 1 m = 1 - m % 2 := by simpa using ldiff_mask 1 m
    rw [this, Int.negSucc_eq]
    omega

/-- The pre-tuck rotation of the code is the rotation reduced modulo the number of
orientations, provided the O piece is in its only rotation. -/
theorem preTuckRotIndex_eq (piece : Piece) (rot : Int) (t : TuckInput)
    (hO : piece.id = 'O' → rot = 0) :
    preTuckRotIndex piece rot t = (rot - t.rotationChange) % numOrientations piece := by
  unfold preTuckRotIndex numOrientations
  by_cases hid : piece.id = 'O'
  · simp [hid, hO hid]
  · by_cases h3 : readAt (readAt piece.rowsByRotation 3 []) 0 0 = -1
    · simp only [hid, h3, if_false, if_true, ne_eq, not_false_eq_true]
      rw [if_neg (by decide), land_one]
      omega
    · simp only [hid, h3, if_false, ne_eq, not_false_eq_true, if_true]
      rw [land_three]
      omega

theorem checks_chain (y lo hi : Int) (c1 c2 : Bool) :
    (if y < lo ∨ y > hi then false
      else if c1 = true then false else if c2 = true then false else true) = true ↔
    lo ≤ y ∧ y ≤ hi ∧ c1 = false ∧ c2 = false := by
  by_cases hy : y < lo ∨ y > hi
  · rw [if_pos hy]
    constructor
    · intro h; exact absurd h (by simp)
    · rintro ⟨h1, h2, -, -⟩; omega
  · rw [if_neg hy]
    cases c1 <;> cases c2 <;> simp
    all_goals omega

/-- The body of the loop of `findTuckInput` decides the four checks. -/
theorem tuckInputPasses_iff (T : Tables) (board : List Nat) (s : SimState)
    (atc minY : List Int) (t : TuckInput) (hO : s.piece.id = 'O' → s.rotationIndex = 0) :
    tuckInputPasses T board s atc minY t = true ↔ TuckChecks T board s atc minY t := by
  unfold tuckInputPasses TuckChecks
  rw [preTuckRotIndex_eq s.piece s.rotationIndex t hO]
  simp only [SPAWN_X]
  exact checks_chain _ _ _ _ _

/-- The loop of `findTuckInput` returns the notation of the first input of the list
that passes, and the sentinel when none passes. -/
theorem findTuckInputLoop_spec (T : Tables) (board : List Nat) (s : SimState)
    (atc minY : List Int) (l : List TuckInput) :
    ((∀ u ∈ l, tuckInputPasses T board s atc minY u = false) ∧
      findTuckInputLoop T board s atc minY l = NO_TUCK_NOTATION) ∨
    ∃ pre t post, l = pre ++ t :: post ∧
      (∀ u ∈ pre, tuckInputPasses T board s atc minY u = false) ∧
      tuckInputPasses T board s atc minY t = true ∧
      findTuckInputLoop T board s atc minY l = t.notationChar := by
  induction l with
  | nil => left; exact ⟨by simp, rfl⟩
  | cons t rest ih =>
    by_cases hp : tuckInputPasses T board s atc minY t = true
    · right
      exact ⟨[], t, rest, rfl, by simp, hp, by simp [findTuckInputLoop, hp]⟩
    · have hpf : tuckInputPasses T board s atc minY t = false := by simpa using hp
      rcases ih with ⟨hall, hres⟩ | ⟨pre, u, post, hl, hpre, hu, hres⟩
      · left
        refine ⟨?_, by simp [findTuckInputLoop, hpf, hres]⟩
        intro v hv
        rcases List.mem_cons.1 hv with rfl | hv
        · exact hpf
        · exact hall v hv
      · right
        refine ⟨t :: pre, u, post, by rw [hl]; rfl, ?_, hu, by simp [findTuckInputLoop, hpf, hres]⟩
        intro v hv
        rcases List.mem_cons.1 hv with rfl | hv
        · exact hpf
        · exact hpre v hv

/-- `findTuckInput`, in terms of the four checks. -/
theorem findTuckInput_spec (T : Tables) (board : List Nat) (s : SimState)
    (atc minY : List Int) (hdot : ∀ t ∈ T.TUCK_INPUTS, t.notationChar ≠ '.')
    (hO : s.piece.id = 'O' → s.rotationIndex = 0) :
    (findTuckInput T board s atc minY ≠ '.' ↔
      ∃ t ∈ T.TUCK_INPUTS, TuckChecks T board s atc minY t) ∧
    (findTuckInput T board s atc minY ≠ '.' →
      ∃ pre t post, T.TUCK_INPUTS = pre ++ t :: post ∧
        (∀ u ∈ pre, ¬ TuckChecks T board s atc minY u) ∧
        TuckChecks T board s atc minY t ∧
        findTuckInput T board s atc minY = t.notationChar) := by
  unfold findTuckInput
  rcases findTuckInputLoop_spec T board s atc minY T.TUCK_INPUTS with
    ⟨hall, hres⟩ | ⟨pre, t, post, hl, hpre, ht, hres⟩
  · have hnone : ¬ ∃ t ∈ T.TUCK_INPUTS, TuckChecks T board s atc minY t := by
      rintro ⟨t, ht, hc⟩
      have := (tuckInputPasses_iff T board s atc minY t hO).2 hc
      rw [hall t ht] at this
      exact Bool.noConfusion this
    rw [hres]
    exact ⟨⟨fun h => absurd rfl h, fun h => absurd h hnone⟩, fun h => absurd rfl h⟩
  · have htmem : t ∈ T.TUCK_INPUTS := by rw [hl]; simp
    have htc := (tuckInputPasses_iff T board s atc minY t hO).1 ht
    have hpre' : ∀ u ∈ pre, ¬ TuckChecks T board s atc minY u := by
      intro u hu hc
      have := (tuckInputPasses_iff T board s atc minY u hO).2 hc
      rw [hpre u hu] at this
      exact Bool.noConfusion this
    rw [hres]
    exact ⟨⟨fun _ => ⟨t, htmem, htc⟩, fun _ => hdot t htmem⟩,
      fun _ => ⟨pre, t, post, hl, hpre', htc, rfl⟩⟩

/-- C10 (tuck reachability). Assume no tuck input uses the notation `.`. For every
board, state after the tuck (with the O piece in its only rotation),
`availableTuckCols` and `minYByNumInputs`, `findTuckInput` returns a character other
than `.` if and only if some tuck input passes the four checks, and the character
is then the notation of the first such input of the list. Every placement that
`findTucks` emits carries such a notation, for the pose at which the tuck ends in
some row `y0` at or above the lock row; `findTucks` returns for all large enough
fuel. -/
theorem tuck_reachability (T : Tables) (board : List Nat) (piece : Piece)
    (atc minY : List Int) (hdot : ∀ t ∈ T.TUCK_INPUTS, t.notationChar ≠ '.') :
    (∀ s : SimState, s.piece = piece → (piece.id = 'O' → s.rotationIndex = 0) →
      (findTuckInput T board s atc minY ≠ '.' ↔
        ∃ t ∈ T.TUCK_INPUTS, TuckChecks T board s atc minY t) ∧
      (findTuckInput T board s atc minY ≠ '.' →
        ∃ pre t post, T.TUCK_INPUTS = pre ++ t :: post ∧
          (∀ u ∈ pre, ¬ TuckChecks T board s atc minY u) ∧
          TuckChecks T board s atc minY t ∧
          findTuckInput T board s atc minY = t.notationChar)) ∧
    ((piece.id = 'O' → ∀ spot ∈ T.TUCK_SPOTS_LIST piece.index, spot.orientation = 0) →
      (∀ fuel lockPlacements out,
        findTucks T fuel board piece atc minY lockPlacements = some out →
        ∃ added, out = lockPlacements ++ added ∧
          ∀ p ∈ added, p.tuckNotation ≠ '.' ∧
            ∃ y0, y0 ≤ p.y ∧ ∃ pre t post, T.TUCK_INPUTS = pre ++ t :: post ∧
              (∀ u ∈ pre,
                ¬ TuckChecks T board (tuckState piece p.x y0 p.rotationIndex) atc minY u) ∧
              TuckChecks T board (tuckState piece p.x y0 p.rotationIndex) atc minY t ∧
              p.tuckNotation = t.notationChar) ∧
      ∃ N : Nat, ∀ fuel, N ≤ fuel → ∀ lockPlacements,
        ∃ out, findTucks T fuel board piece atc minY lockPlacements = some out) := by
  refine ⟨?_, ?_⟩
  · intro s hs hO
    exact findTuckInput_spec T board s atc minY hdot (by rw [hs]; exact hO)
  · intro hspots
    refine ⟨?_, ?_⟩
    · intro fuel lockPlacements out h
      obtain ⟨added, hadd, hall⟩ := findTucks_emits T fuel board piece atc minY _ _ h
      refine ⟨added, hadd, ?_⟩
      intro p hp
      obtain ⟨-, hne, -, -, spot, hspot, y0, hor, hle, -, hnot⟩ := hall p hp
      have hO : (tuckState piece p.x y0 p.rotationIndex).piece.id = 'O' →
          (tuckState piece p.x y0 p.rotationIndex).rotationIndex = 0 := by
        intro hid
        show p.rotationIndex = 0
        rw [← hor]
        exact hspots hid spot hspot
      have hspec := findTuckInput_spec T board (tuckState piece p.x y0 p.rotationIndex) atc
        minY hdot hO
      have hne' : findTuckInput T board (tuckState piece p.x y0 p.rotationIndex) atc minY
          ≠ '.' := by
        have : p.tuckNotation = findTuckInput T board (tuckState piece p.x y0 p.rotationIndex)
            atc minY := hnot
        rw [← this]
        exact hne
      obtain ⟨pre, t, post, hl, hpre, ht, hres⟩ := hspec.2 hne'
      exact ⟨hne, y0, hle, pre, t, post, hl, hpre, ht, hnot.trans hres⟩
    · obtain ⟨N, hN⟩ := exists_nat_bound (T.TUCK_SPOTS_LIST piece.index)
        (fun spot => (readAt piece.maxYByRotation spot.orientation 0 + spot.y).toNat)
      exact ⟨N, fun fuel hfuel lockPlacements =>
        findTucks_terminates T board piece fuel
          (fun spot hspot => le_trans (hN spot hspot) hfuel) atc minY lockPlacements⟩

/-- An instance of C10: on the empty board the O piece in column 4 of row 17, with
every column reached down to row 17, is entered from column 5 by the input `L`. -/
theorem tuck_reachability_witness :
    (∀ t ∈ exampleTables.TUCK_INPUTS, t.notationChar ≠ '.') ∧
    findTuckInput exampleTables emptyGame.board (tuckState pieceO 4 17 0)
      (List.replicate 40 17) (List.replicate 7 (-1)) = 'L' ∧
    (findTuckInput exampleTables emptyGame.board (tuckState pieceO 4 17 0)
        (List.replicate 40 17) (List.replicate 7 (-1)) ≠ '.' ↔
      ∃ t ∈ exampleTables.TUCK_INPUTS,
        TuckChecks exampleTables emptyGame.board (tuckState pieceO 4 17 0)
          (List.replicate 40 17) (List.replicate 7 (-1)) t) :=
  ⟨by decide, by decide!,
    ((tuck_reachability exampleTables emptyGame.board pieceO (List.replicate 40 17)
      (List.replicate 7 (-1)) (by decide)).1 (tuckState pieceO 4 17 0) rfl
      (fun _ => rfl)).1⟩

/-! ## Collision, bit by bit -/

theorem SHIFTBY_natCast (n : Nat) (x : Int) : SHIFTBY (n : Int) x = (shiftedMask n x : Int) := by
  unfold SHIFTBY shiftedMask
  split
  · rw [Nat.shiftRight_eq_div_pow]
    push_cast
    rfl
  · rw [Nat.shiftLeft_eq]
    push_cast
    rfl

/-- A bit of the moved mask is a bit of the mask, `x` places higher. -/
theorem testBit_shiftedMask (n : Nat) (x : Int) (i : Nat) :
    (shiftedMask n x).testBit i = true ↔
      ∃ j : Nat, n.testBit j = true ∧ (j : Int) = (i : Int) + x := by
  unfold shiftedMask
  split
  · rename_i hx
    rw [Nat.testBit_shiftRight]
    constructor
    · intro h; exact ⟨x.toNat + i, h, by omega⟩
    · rintro ⟨j, hj, hji⟩
      have : x.toNat + i = j := by omega
      rw [this]; exact hj
  · rename_i hx
    rw [Nat.testBit_shiftLeft]
    constructor
    · intro h
      simp only [ge_iff_le, Bool.and_eq_true, decide_eq_true_eq] at h
      exact ⟨i - (-1 * x).toNat, h.2, by omega⟩
    · rintro ⟨j, hj, hji⟩
      simp only [ge_iff_le, Bool.and_eq_true, decide_eq_true_eq]
      have : i - (-1 * x).toNat = j := by omega
      rw [this]
      exact ⟨by omega, hj⟩

/-- The overlap test of `collision` for a row mask that is not negative. -/
theorem land_shift_ne_zero (n b : Nat) (x : Int) :
    Int.land (SHIFTBY (n : Int) x) (b : Int) ≠ 0 ↔
      ∃ j : Nat, n.testBit j = true ∧ 0 ≤ (j : Int) - x ∧ b.testBit ((j : Int) - x).toNat = true := by
  rw [SHIFTBY_natCast]
  have hland : Int.land (shiftedMask n x : Int) (b : Int) = ((shiftedMask n x &&& b : Nat) : Int) :=
    rfl
  rw [hland]
  constructor
  · intro h
    have hne : shiftedMask n x &&& b ≠ 0 := fun h0 => h (by rw [h0]; rfl)
    obtain ⟨i, hi⟩ := Nat.ne_zero_implies_bit_true hne
    rw [Nat.testBit_and, Bool.and_eq_true] at hi
    obtain ⟨j, hj, hji⟩ := (testBit_shiftedMask n x i).1 hi.1
    refine ⟨j, hj, by omega, ?_⟩
    have : ((j : Int) - x).toNat = i := by omega
    rw [this]; exact hi.2
  · rintro ⟨j, hj, h0, hb⟩ hzero
    have hz : shiftedMask n x &&& b = 0 := by exact_mod_cast hzero
    have hbit : (shiftedMask n x &&& b).testBit ((j : Int) - x).toNat = true := by
      rw [Nat.testBit_and, Bool.and_eq_true]
      exact ⟨(testBit_shiftedMask n x _).2 ⟨j, hj, by omega⟩, hb⟩
    rw [hz] at hbit
    simp at hbit

/-- The row loop of `collision`: it reports a collision exactly when some row of
the piece, at or below the ceiling and not empty, overlaps its board row. -/
theorem collisionRows_iff (board : List Nat) (x y : Int) (rows : List Int) (r0 : Int) :
    collisionRows board x y rows r0 = true ↔
      ∃ k : Nat, ∃ row, rows[k]? = some row ∧ 0 ≤ y + (r0 + k) ∧ row ≠ 0 ∧
        Int.land (SHIFTBY row x) (readAt board (y + (r0 + k)) 0 : Nat) ≠ 0 := by
  induction rows generalizing r0 with
  | nil => simp [collisionRows]
  | cons row rest ih =>
    rw [collisionRows]
    constructor
    · intro h
      split at h
      · obtain ⟨k, row', hk, h1, h2, h3⟩ := (ih (r0 + 1)).1 h
        exact ⟨k + 1, row', by simpa using hk, by push_cast; omega, h2,
          by push_cast; rw [show y + (r0 + (↑k + 1)) = y + (r0 + 1 + ↑k) by omega]; exact h3⟩
      · split at h
        · obtain ⟨k, row', hk, h1, h2, h3⟩ := (ih (r0 + 1)).1 h
          exact ⟨k + 1, row', by simpa using hk, by push_cast; omega, h2,
            by push_cast; rw [show y + (r0 + (↑k + 1)) = y + (r0 + 1 + ↑k) by omega]; exact h3⟩
        · split at h
          · rename_i h1 h2 h3
            exact ⟨0, row, by simp, by simpa using (not_lt.1 h1), h2, by simpa using h3⟩
          · obtain ⟨k, row', hk, h1, h2, h3⟩ := (ih (r0 + 1)).1 h
            exact ⟨k + 1, row', by simpa using hk, by push_cast; omega, h2,
              by push_cast; rw [show y + (r0 + (↑k + 1)) = y + (r0 + 1 + ↑k) by omega]; exact h3⟩
    · rintro ⟨k, row', hk, h1, h2, h3⟩
      cases k with
      | zero =>
        simp only [List.getElem?_cons_zero, Option.some.injEq] at hk
        subst hk
        simp only [Nat.cast_zero, add_zero] at h1 h3
        rw [if_neg (by omega), if_neg h2, if_pos h3]
      | succ k =>
        simp only [List.getElem?_cons_succ] at hk
        have hrest : collisionRows board x y rest (r0 + 1) = true :=
          (ih (r0 + 1)).2 ⟨k, row', hk, by push_cast at h1; omega, h2, by
            push_cast at h3
            rw [show y + (r0 + 1 + ↑k) = y + (r0 + (↑k + 1)) by omega]; exact h3⟩
        split
        · exact hrest
        · split
          · exact hrest
          · split
            · rfl
            · exact hrest

/-- The rows that `collision` hands to its row loop. -/
theorem pieceRows_getElem? (piece : Piece) (rot : Int) (k : Nat) (row : Int)
    (h : ((List.range 4).map fun (r : Nat) =>
      readAt (readAt piece.rowsByRotation rot []) (r : Int) 0)[k]? = some row) :
    k < 4 ∧ row = pieceRow piece rot k := by
  rw [List.getElem?_map] at h
  obtain ⟨r, hr, hrow⟩ := Option.map_eq_some'.1 h
  have hk : k < 4 := by
    by_contra hcon
    rw [List.getElem?_eq_none (by simp; omega)] at hr
    exact absurd hr (by simp)
  rw [List.getElem?_range hk] at hr
  cases hr
  exact ⟨hk, hrow.symm⟩

/-- `collision` for a rotation whose tables describe its row masks: the pose is too
deep, or a cell is outside the columns 0 to 9, or a cell at or below the ceiling
lies on a filled cell of the board. -/
theorem collision_iff_described (T : Tables) (board : List Nat) (piece : Piece) (x y rot : Int)
    (hdesc : RotationDescribed T piece rot) :
    collision T board piece x y rot = true ↔
      readAt piece.maxYByRotation rot 0 < y ∨
      (∃ c : Nat, c < 4 ∧ bottomOf piece rot c ≠ -1 ∧ (x + (c : Int) < 0 ∨ 9 < x + (c : Int))) ∨
      (∃ r c : Nat, r < 4 ∧ c < 4 ∧ pieceCell piece rot r c = true ∧ 0 ≤ y + (r : Int) ∧
        x + (c : Int) ≤ 9 ∧
        (readAt board (y + (r : Int)) 0).testBit (9 - (c : Int) - x).toNat = true) := by
  obtain ⟨hrows, -, -, -, hbounds⟩ := hdesc
  have hrowsIff : collisionRows board x y
        ((List.range 4).map fun (r : Nat) =>
          readAt (readAt piece.rowsByRotation rot []) (r : Int) 0) 0 = true ↔
      ∃ r c : Nat, r < 4 ∧ c < 4 ∧ pieceCell piece rot r c = true ∧ 0 ≤ y + (r : Int) ∧
        x + (c : Int) ≤ 9 ∧
        (readAt board (y + (r : Int)) 0).testBit (9 - (c : Int) - x).toNat = true := by
    rw [collisionRows_iff]
    constructor
    · rintro ⟨k, row, hk, h1, h2, h3⟩
      obtain ⟨hk4, hrow⟩ := pieceRows_getElem? piece rot k row hk
      obtain ⟨hnn, hbits⟩ := hrows k hk4
      rw [← hrow] at hnn hbits
      have hcast : row = ((row.toNat : Nat) : Int) := by omega
      rw [hcast, land_shift_ne_zero] at h3
      obtain ⟨j, hj, hjx, hb⟩ := h3
      obtain ⟨h6, h9⟩ := hbits j hj
      refine ⟨k, 9 - j, hk4, by omega, ?_, by omega, by omega, ?_⟩
      · unfold pieceCell
        rw [← hrow, show 9 - (9 - j) = j by omega]
        exact hj
      · rw [show y + (0 + (k : Int)) = y + (k : Int) by omega] at hb
        rw [show (9 - ((9 - j : Nat) : Int) - x) = (j : Int) - x by omega]
        exact hb
    · rintro ⟨r, c, hr, hc, hcell, hy, hx, hb⟩
      obtain ⟨hnn, -⟩ := hrows r hr
      refine ⟨r, pieceRow piece rot r, ?_, by omega, ?_, ?_⟩
      · rw [List.getElem?_map, List.getElem?_range hr]
        rfl
      · intro h0
        unfold pieceCell at hcell
        rw [h0] at hcell
        simp at hcell
      · have hcast : pieceRow piece rot r = (((pieceRow piece rot r).toNat : Nat) : Int) := by
          omega
        rw [hcast, land_shift_ne_zero]
        refine ⟨9 - c, hcell, by omega, ?_⟩
        rw [show y + (0 + (r : Int)) = y + (r : Int) by omega]
        rw [show (((9 - c : Nat) : Int) - x) = 9 - (c : Int) - x by omega]
        exact hb
  unfold collision
  by_cases h1 : y > readAt piece.maxYByRotation rot 0
  · rw [if_pos h1]
    exact ⟨fun _ => Or.inl h1, fun _ => rfl⟩
  · rw [if_neg h1]
    by_cases h2 : T.X_BOUNDS_COLLISION_TABLE piece.index rot
        (x + T.X_BOUNDS_COLLISION_TABLE_OFFSET) ≠ 0
    · rw [if_pos h2]
      exact ⟨fun _ => Or.inr (Or.inl ((hbounds x).1 h2)), fun _ => rfl⟩
    · rw [if_neg h2, hrowsIff]
      constructor
      · intro h; right; right; exact h
      · rintro (h | h | h)
        · exact absurd h h1
        · exact absurd ((hbounds x).2 h) h2
        · exact h

/-! ## The surface array and the lock row -/

theorem and_two_pow_eq_zero (b k : Nat) : b &&& 2 ^ k = 0 ↔ b.testBit k = false := by
  constructor
  · intro h
    have : (b &&& 2 ^ k).testBit k = false := by rw [h]; simp
    rw [Nat.testBit_and, Nat.testBit_two_pow_self, Bool.and_true] at this
    exact this
  · intro h
    apply Nat.zero_of_testBit_eq_false
    intro i
    rw [Nat.testBit_and, Nat.testBit_two_pow]
    by_cases hki : k = i
    · subst hki; simp [h]
    · simp [hki]

/-- The column scan of `getSurfaceArray` stops at the first row whose bit is set,
or at row 20. -/
theorem surfaceScan_spec (board : List Nat) (k : Nat) :
    ∀ (fuel row : Nat), row ≤ 20 → 21 ≤ fuel + row →
      row ≤ surfaceScan board (2 ^ k) fuel row ∧ surfaceScan board (2 ^ k) fuel row ≤ 20 ∧
      (∀ r, row ≤ r → r < surfaceScan board (2 ^ k) fuel row →
        (board.getD r 0).testBit k = false) ∧
      (surfaceScan board (2 ^ k) fuel row < 20 →
        (board.getD (surfaceScan board (2 ^ k) fuel row) 0).testBit k = true) := by
  intro fuel
  induction fuel with
  | zero => intro row h1 h2; omega
  | succ fuel ih =>
    intro row h1 h2
    rw [surfaceScan]
    by_cases hc : board.getD row 0 &&& 2 ^ k = 0 ∧ row < 20
    · rw [if_pos hc]
      obtain ⟨i1, i2, i3, i4⟩ := ih (row + 1) (by omega) (by omega)
      refine ⟨by omega, i2, ?_, i4⟩
      intro r hr1 hr2
      by_cases hrr : r = row
      · rw [hrr]; exact (and_two_pow_eq_zero _ _).1 hc.1
      · exact i3 r (by omega) hr2
    · rw [if_neg hc]
      refine ⟨le_refl _, h1, fun r hr1 hr2 => by omega, ?_⟩
      intro hlt
      have : ¬ (board.getD row 0 &&& 2 ^ k = 0) := fun h0 => hc ⟨h0, hlt⟩
      rw [and_two_pow_eq_zero] at this
      simpa using this

/-- The surface array that `getSurfaceArray` computes: the height of a column is
between 0 and 20, the rows above the height are free in that column, and the row
at the height is filled. -/
theorem getSurfaceArray_spec (board : List Nat) (col : Int) (h0 : 0 ≤ col) (h9 : col ≤ 9) :
    0 ≤ readAt (getSurfaceArray board) col 0 ∧ readAt (getSurfaceArray board) col 0 ≤ 20 ∧
    (∀ r : Int, 0 ≤ r → r < 20 - readAt (getSurfaceArray board) col 0 →
      (readAt board r 0).testBit (9 - col).toNat = false) ∧
    (0 < readAt (getSurfaceArray board) col 0 →
      (readAt board (20 - readAt (getSurfaceArray board) col 0) 0).testBit (9 - col).toNat
        = true) := by
  have hread : readAt (getSurfaceArray board) col 0 =
      20 - (surfaceScan board (2 ^ (9 - col.toNat)) 21 0 : Int) := by
    unfold readAt getSurfaceArray
    rw [if_neg (by omega), List.getD_eq_getElem?_getD, List.getElem?_map,
      List.getElem?_range (by omega)]
    simp [Nat.one_shiftLeft]
  obtain ⟨-, s2, s3, s4⟩ := surfaceScan_spec board (9 - col.toNat) 21 0 (by omega) (by omega)
  have hk : (9 - col).toNat = 9 - col.toNat := by omega
  rw [hread, hk]
  refine ⟨by omega, by omega, ?_, ?_⟩
  · intro r hr0 hr
    have := s3 r.toNat (by omega) (by omega)
    unfold readAt
    rw [if_neg (by omega)]
    exact this
  · intro hpos
    have := s4 (by omega)
    unfold readAt
    rw [if_neg (by omega)]
    have htn : (20 - (20 - (surfaceScan board (2 ^ (9 - col.toNat)) 21 0 : Int))).toNat =
        surfaceScan board (2 ^ (9 - col.toNat)) 21 0 := by omega
    rw [htn]
    exact this

/-- The column loop of `getLockPlacementsFast` computes a minimum. -/
theorem rowsToShiftLoop_spec (bs surf : List Int) (s : SimState) (cs : List Int) (acc : Int) :
    rowsToShiftLoop bs surf s cs acc ≤ acc ∧
    (∀ c ∈ cs, readAt bs c 0 ≠ -1 →
      rowsToShiftLoop bs surf s cs acc ≤ 20 - readAt bs c 0 - s.y - readAt surf (s.x + c) 0) ∧
    (rowsToShiftLoop bs surf s cs acc = acc ∨
      ∃ c ∈ cs, readAt bs c 0 ≠ -1 ∧
        rowsToShiftLoop bs surf s cs acc =
          20 - readAt bs c 0 - s.y - readAt surf (s.x + c) 0) := by
  induction cs generalizing acc with
  | nil => simp [rowsToShiftLoop]
  | cons c rest ih =>
    rw [rowsToShiftLoop]
    by_cases hc : readAt bs c 0 = -1
    · rw [if_pos hc]
      obtain ⟨i1, i2, i3⟩ := ih acc
      refine ⟨i1, ?_, ?_⟩
      · intro c' hc' hne
        rcases List.mem_cons.1 hc' with rfl | hc'
        · exact absurd hc hne
        · exact i2 c' hc' hne
      · rcases i3 with i3 | ⟨c', hc', hne, heq⟩
        · left; exact i3
        · right; exact ⟨c', List.mem_cons_of_mem c hc', hne, heq⟩
    · rw [if_neg hc]
      dsimp only
      obtain ⟨i1, i2, i3⟩ :=
        ih (min acc (20 - readAt bs c 0 - s.y - readAt surf (s.x + c) 0))
      refine ⟨le_trans i1 (min_le_left _ _), ?_, ?_⟩
      · intro c' hc' hne
        rcases List.mem_cons.1 hc' with rfl | hc'
        · exact le_trans i1 (min_le_right _ _)
        · exact i2 c' hc' hne
      · rcases i3 with i3 | ⟨c', hc', hne, heq⟩
        · rcases min_choice acc (20 - readAt bs c 0 - s.y - readAt surf (s.x + c) 0) with
            hm | hm
          · left; rw [i3, hm]
          · right; exact ⟨c, List.mem_cons_self c rest, hc, by rw [i3, hm]⟩
        · right; exact ⟨c', List.mem_cons_of_mem c hc', hne, heq⟩

/-- The lock row of a state whose columns lie on the board: the piece is put on top
of the columns, on the one that is reached first. -/
theorem lockRow_spec (surf : List Int) (a : SimState)
    (hocc : ∃ c : Nat, c < 4 ∧ bottomOf a.piece a.rotationIndex c ≠ -1)
    (hbs : ∀ c : Nat, c < 4 → bottomOf a.piece a.rotationIndex c ≠ -1 →
      1 ≤ bottomOf a.piece a.rotationIndex c)
    (hsurf : ∀ c : Nat, c < 4 → bottomOf a.piece a.rotationIndex c ≠ -1 →
      0 ≤ readAt surf (a.x + c) 0)
    (hy : -2 ≤ a.y) :
    (∀ c : Nat, c < 4 → bottomOf a.piece a.rotationIndex c ≠ -1 →
      lockRow surf a ≤ 20 - bottomOf a.piece a.rotationIndex c - readAt surf (a.x + c) 0) ∧
    ∃ c : Nat, c < 4 ∧ bottomOf a.piece a.rotationIndex c ≠ -1 ∧
      lockRow surf a = 20 - bottomOf a.piece a.rotationIndex c - readAt surf (a.x + c) 0 := by
  obtain ⟨i1, i2, i3⟩ := rowsToShiftLoop_spec
    (readAt a.piece.bottomSurfaceByRotation a.rotationIndex []) surf a (intRange 0 3) 99999
  have hmem : ∀ c : Nat, c < 4 → (c : Int) ∈ intRange 0 3 := by
    intro c hc
    rw [intRange_zero_three]
    have : c = 0 ∨ c = 1 ∨ c = 2 ∨ c = 3 := by omega
    rcases this with rfl | rfl | rfl | rfl <;> simp
  have hmem' : ∀ c ∈ intRange 0 3, ∃ n : Nat, n < 4 ∧ c = (n : Int) := by
    intro c hc
    obtain ⟨h0, h3⟩ := intRange_mem 0 3 c hc
    exact ⟨c.toNat, by omega, by omega⟩
  unfold lockRow
  refine ⟨?_, ?_⟩
  · intro c hc hne
    have := i2 (c : Int) (hmem c hc) hne
    unfold bottomOf
    omega
  · rcases i3 with i3 | ⟨c, hc, hne, heq⟩
    · obtain ⟨c, hc, hne⟩ := hocc
      have h2 := i2 (c : Int) (hmem c hc) hne
      have h3 := hbs c hc hne
      have h4 := hsurf c hc hne
      unfold bottomOf at h3 hne
      refine ⟨c, hc, hne, ?_⟩
      unfold bottomOf
      omega
    · obtain ⟨n, hn, rfl⟩ := hmem' c hc
      refine ⟨n, hn, hne, ?_⟩
      unfold bottomOf
      omega

/-- Lock finality of `getLockPlacementsFast`: for a state of a described rotation
that does not collide, on a board with its own surface array, the lock row is a
rest position: the piece fits there and collides one row lower. -/
theorem lock_rest_described (T : Tables) (board : List Nat) (piece : Piece) (a : SimState)
    (hp : a.piece = piece) (hdesc : RotationDescribed T piece a.rotationIndex)
    (hfree : collision T board a.piece a.x a.y a.rotationIndex = false) (hy : -2 ≤ a.y) :
    collision T board piece a.x (lockRow (getSurfaceArray board) a) a.rotationIndex = false ∧
    collision T board piece a.x (lockRow (getSurfaceArray board) a + 1) a.rotationIndex
      = true := by
  have hiff := collision_iff_described T board piece a.x a.y a.rotationIndex hdesc
  rw [hp] at hfree
  have hnot : ¬ (readAt piece.maxYByRotation a.rotationIndex 0 < a.y ∨
      (∃ c : Nat, c < 4 ∧ bottomOf piece a.rotationIndex c ≠ -1 ∧
        (a.x + (c : Int) < 0 ∨ 9 < a.x + (c : Int))) ∨
      (∃ r c : Nat, r < 4 ∧ c < 4 ∧ pieceCell piece a.rotationIndex r c = true ∧
        0 ≤ a.y + (r : Int) ∧ a.x + (c : Int) ≤ 9 ∧
        (readAt board (a.y + (r : Int)) 0).testBit (9 - (c : Int) - a.x).toNat = true)) := by
    intro hcon
    rw [hiff.2 hcon] at hfree
    exact Bool.noConfusion hfree
  obtain ⟨hrows, hbottom, ⟨cm, hcm, hcmne, hcmeq⟩, hmaxle, hbounds⟩ := hdesc
  -- the occupied columns lie on the board
  have hin : ∀ c : Nat, c < 4 → bottomOf piece a.rotationIndex c ≠ -1 →
      0 ≤ a.x + (c : Int) ∧ a.x + (c : Int) ≤ 9 := by
    intro c hc hne
    by_contra hcon
    exact hnot (Or.inr (Or.inl ⟨c, hc, hne, by omega⟩))
  have hbs1 : ∀ c : Nat, c < 4 → bottomOf piece a.rotationIndex c ≠ -1 →
      1 ≤ bottomOf piece a.rotationIndex c := by
    intro c hc hne
    rcases hbottom c hc with ⟨h1, -⟩ | ⟨r, -, hr, -, -⟩
    · exact absurd h1 hne
    · omega
  obtain ⟨hle, c0, hc0, hc0ne, hc0eq⟩ := lockRow_spec (getSurfaceArray board) a
    ⟨cm, hcm, by rw [hp]; exact hcmne⟩
    (by rw [hp]; exact hbs1)
    (by
      rw [hp]
      intro c hc hne
      exact (getSurfaceArray_spec board _ (hin c hc hne).1 (hin c hc hne).2).1)
    hy
  rw [hp] at hle hc0ne hc0eq
  constructor
  · -- the piece fits in the lock row
    cases hcol : collision T board piece a.x (lockRow (getSurfaceArray board) a)
        a.rotationIndex with
    | false => rfl
    | true =>
      exfalso
      rcases (collision_iff_described T board piece a.x _ a.rotationIndex
        ⟨hrows, hbottom, ⟨cm, hcm, hcmne, hcmeq⟩, hmaxle, hbounds⟩).1 hcol with
        h | h | ⟨r, c, hr, hc, hcell, hyr, hxc, hbit⟩
      · have h1 := hle cm hcm hcmne
        have h2 := (getSurfaceArray_spec board _ (hin cm hcm hcmne).1 (hin cm hcm hcmne).2).1
        omega
      · exact hnot (Or.inr (Or.inl h))
      · rcases hbottom c hc with ⟨-, hnone⟩ | ⟨r0, hr0, hbr0, -, hbelow⟩
        · rw [hnone r hr] at hcell
          exact Bool.noConfusion hcell
        · have hne : bottomOf piece a.rotationIndex c ≠ -1 := by omega
          have hrle : r ≤ r0 := by
            by_contra hcon
            rw [hbelow r hr (by omega)] at hcell
            exact Bool.noConfusion hcell
          obtain ⟨hc1, hc9⟩ := hin c hc hne
          obtain ⟨-, -, s3, -⟩ := getSurfaceArray_spec board (a.x + c) hc1 hc9
          have hL := hle c hc hne
          have := s3 (lockRow (getSurfaceArray board) a + r) hyr (by omega)
          rw [show (9 - (a.x + (c : Int))).toNat = (9 - (c : Int) - a.x).toNat by
            congr 1; omega] at this
          rw [this] at hbit
          exact Bool.noConfusion hbit
  · -- one row lower it collides
    apply (collision_iff_described T board piece a.x _ a.rotationIndex
      ⟨hrows, hbottom, ⟨cm, hcm, hcmne, hcmeq⟩, hmaxle, hbounds⟩).2
    rcases hbottom c0 hc0 with ⟨h1, -⟩ | ⟨r0, hr0, hbr0, hcell0, -⟩
    · exact absurd h1 hc0ne
    · obtain ⟨hc1, hc9⟩ := hin c0 hc0 hc0ne
      obtain ⟨s1, s2, -, s4⟩ := getSurfaceArray_spec board (a.x + c0) hc1 hc9
      by_cases hs0 : readAt (getSurfaceArray board) (a.x + c0) 0 = 0
      · left
        have := hmaxle c0 hc0 hc0ne
        omega
      · right; right
        refine ⟨r0, c0, hr0, hc0, hcell0, by omega, hc9, ?_⟩
        have hrow : lockRow (getSurfaceArray board) a + 1 + (r0 : Int) =
            20 - readAt (getSurfaceArray board) (a.x + c0) 0 := by omega
        rw [hrow, show (9 - (c0 : Int) - a.x).toNat = (9 - (a.x + (c0 : Int))).toNat by
          congr 1; omega]
        exact s4 (by omega)

/-! ## Claims on the result of the move search -/

/-- C2 (spawn collision). For every game state, every timeline and every piece that
has rotation 0, `moveSearch` started with an empty output list returns (for all
large enough fuel), and it returns count 0 with the list still empty if and only if
the spawn pose `(3, initialY, 0)` collides with the board. When the spawn pose does
not collide, the result contains a non-tuck placement at `x = 3`, `rot = 0`. The
returned count is the length of the list. -/
theorem spawn_collision (T : Tables) (gameState : GameState) (piece : Piece)
    (timeline : List Char) (h0 : readAt (readAt piece.rowsByRotation 0 []) 0 0 ≠ -1) :
    ∃ N : Nat, ∀ fuel, N ≤ fuel →
      ∃ count out, moveSearch T fuel gameState piece timeline [] = some (count, out) ∧
        ((count = 0 ∧ out = []) ↔
          collision T gameState.board piece 3 piece.initialY 0 = true) ∧
        (collision T gameState.board piece 3 piece.initialY 0 = false →
          ∃ p ∈ out, p.tuckNotation = '.' ∧ p.x = 3 ∧ p.rotationIndex = 0) ∧
        count = out.length := by
  obtain ⟨N, hN⟩ := moveSearch_terminates T gameState piece timeline
  refine ⟨N, fun fuel hfuel => ?_⟩
  obtain ⟨⟨count, out⟩, hr⟩ := hN fuel hfuel []
  refine ⟨count, out, hr, ?_⟩
  rcases moveSearch_result T fuel gameState piece timeline [] out count hr with
    ⟨hc, hcount, hout⟩ | ⟨legal, tucks, atc, -, hout, -, hcount, hspawn, -⟩
  · have hc3 : collision T gameState.board piece 3 piece.initialY 0 = true := hc
    refine ⟨⟨fun _ => hc3, fun _ => ⟨hcount, hout⟩⟩, ?_, ?_⟩
    · intro hcf; rw [hc3] at hcf; exact Bool.noConfusion hcf
    · rw [hcount, hout]; rfl
  · obtain ⟨hcf, rest, hlegal⟩ := hspawn h0
    have hcf3 : collision T gameState.board piece 3 piece.initialY 0 = false := hcf
    have hmem : toLockPlacement gameState.surfaceArray (spawnStateOf piece) ∈ out := by
      rw [hout, hlegal]; simp
    refine ⟨⟨?_, ?_⟩, ?_, hcount⟩
    · rintro ⟨-, hnil⟩
      rw [hnil] at hmem
      simp at hmem
    · intro hct; rw [hcf3] at hct; exact Bool.noConfusion hct
    · intro _
      exact ⟨_, hmem, rfl, rfl, rfl⟩

set_option maxRecDepth 100000 in
/-- An instance of C2: the O piece on the empty board, where the spawn pose is free
and the search returns nine placements (scenario S1). -/
theorem spawn_collision_witness :
    readAt (readAt pieceO.rowsByRotation 0 []) 0 0 ≠ -1 ∧
    (moveSearch exampleTables 60 emptyGame pieceO ['X', '.', '.', '.'] []).map
      (fun r => r.1) = some 9 ∧
    ∃ N : Nat, ∀ fuel, N ≤ fuel →
      ∃ count out,
        moveSearch exampleTables fuel emptyGame pieceO ['X', '.', '.', '.'] [] =
          some (count, out) ∧
        ((count = 0 ∧ out = []) ↔
          collision exampleTables emptyGame.board pieceO 3 pieceO.initialY 0 = true) ∧
        (collision exampleTables emptyGame.board pieceO 3 pieceO.initialY 0 = false →
          ∃ p ∈ out, p.tuckNotation = '.' ∧ p.x = 3 ∧ p.rotationIndex = 0) ∧
        count = out.length :=
  ⟨by decide, by decide!,
    spawn_collision exampleTables emptyGame pieceO ['X', '.', '.', '.'] (by decide)⟩

/-- C9 (non-tuck lock dedup). Whenever `moveSearch`, started with an empty output
list, returns, no two placements with notation `.` in its result share the rotation
and the column, hence none share `(rotationIndex, x, y)`: the explorations to the
left, to the right and near the spawn never register two states with the same
rotation and column. The search returns for all large enough fuel. -/
theorem nontuck_lock_dedup (T : Tables) (fuel : Nat) (gameState : GameState) (piece : Piece)
    (timeline : List Char) (count : Int) (out : List LockPlacement)
    (h : moveSearch T fuel gameState piece timeline [] = some (count, out)) :
    (out.filter fun p => p.tuckNotation = '.').Pairwise
      (fun p q => ¬ (p.rotationIndex = q.rotationIndex ∧ p.x = q.x ∧ p.y = q.y)) ∧
    (out.filter fun p => p.tuckNotation = '.').Pairwise
      (fun p q => p.rotationIndex ≠ q.rotationIndex ∨ p.x ≠ q.x) ∧
    ∃ N : Nat, ∀ fuel', N ≤ fuel' →
      ∃ r, moveSearch T fuel' gameState piece timeline [] = some r := by
  have hpw : (out.filter fun p => p.tuckNotation = '.').Pairwise
      (fun p q => p.rotationIndex ≠ q.rotationIndex ∨ p.x ≠ q.x) := by
    rcases moveSearch_result T fuel gameState piece timeline [] out count h with
      ⟨-, -, hout⟩ | ⟨legal, tucks, atc, hlegal, hout, htucks, -, -, -⟩
    · rw [hout]; exact List.Pairwise.nil
    · have hfilter : (out.filter fun p => p.tuckNotation = '.') =
          legal.map (toLockPlacement gameState.surfaceArray) := by
        rw [hout, List.nil_append, List.filter_append]
        have h1 : (legal.map (toLockPlacement gameState.surfaceArray)).filter
            (fun p => p.tuckNotation = '.') =
            legal.map (toLockPlacement gameState.surfaceArray) := by
          rw [List.filter_eq_self]
          intro p hp
          obtain ⟨s, -, rfl⟩ := List.mem_map.1 hp
          simp [toLockPlacement, NO_TUCK_NOTATION]
        have h2 : tucks.filter (fun p => p.tuckNotation = '.') = [] := by
          rw [List.filter_eq_nil_iff]
          intro p hp
          have := (htucks p hp).2.1
          simpa [NO_TUCK_NOTATION] using this
        rw [h1, h2, List.append_nil]
      rw [hfilter, List.pairwise_map]
      exact hlegal.2.imp fun hab => hab
  refine ⟨hpw.imp fun hab hcon => ?_, hpw, ?_⟩
  · rcases hab with hab | hab
    · exact hab hcon.1
    · exact hab hcon.2.1
  · obtain ⟨N, hN⟩ := moveSearch_terminates T gameState piece timeline
    exact ⟨N, fun fuel' hfuel' => hN fuel' hfuel' []⟩

set_option maxRecDepth 100000 in
/-- An instance of C9: the nine placements of the O piece on the empty board. -/
theorem nontuck_lock_dedup_witness :
    moveSearch exampleTables 60 emptyGame pieceO ['X', '.', '.', '.'] [] =
      some (9, [3, 2, 1, 0, -1, 4, 5, 6, 7].map floorPlacementO) ∧
    (([3, 2, 1, 0, -1, 4, 5, 6, 7].map floorPlacementO).filter
      fun p => p.tuckNotation = '.').Pairwise
      (fun p q => ¬ (p.rotationIndex = q.rotationIndex ∧ p.x = q.x ∧ p.y = q.y)) :=
  ⟨by decide!,
    (nontuck_lock_dedup exampleTables 60 emptyGame pieceO ['X', '.', '.', '.'] 9 _
      (by decide!)).1⟩

/-! ## Depth-2 search: the full list -/

/-- The two loops over the first placements side by side: the list of
`searchDepth2` stays a permutation of the possibilities enumerated so far. -/
theorem searchDepth2_loop (T : Tables) (E : Evaluator) (fuel : Nat) (gameState : GameState)
    (secondPiece : Piece) (keepTopN : Int) (h : 1 ≤ keepTopN) (evalContext : EvalContext)
    (hsecond : ∀ (g : GameState),
      ∃ r, moveSearch T fuel g secondPiece evalContext.inputFrameTimeline [] = some r) :
    ∀ (firsts : List LockPlacement) (st : Depth2List) (acc : List Depth2Possibility),
      Depth2Inv keepTopN st → st.possibilityList.Perm acc →
      ∃ st1 acc1,
        forEachM (searchDepth2First T E fuel gameState secondPiece keepTopN evalContext)
          firsts st = some st1 ∧
        forEachM
          (fun firstPlacement acc =>
            let afterFirstMove := E.advanceGameState gameState firstPlacement evalContext
            let firstMoveReward :=
              E.getLineClearFactor (afterFirstMove.lines - gameState.lines)
                evalContext.weights evalContext.shouldRewardLineClears
            match moveSearch T fuel afterFirstMove secondPiece
                evalContext.inputFrameTimeline [] with
            | none => none
            | some (_, secondLockPlacements) =>
              some (acc ++ secondLockPlacements.map
                (newPossibility E evalContext firstPlacement afterFirstMove firstMoveReward)))
          firsts acc = some acc1 ∧
        Depth2Inv keepTopN st1 ∧ st1.possibilityList.Perm acc1 := by
  intro firsts
  induction firsts with
  | nil => intro st acc hinv hperm; exact ⟨st, acc, rfl, rfl, hinv, hperm⟩
  | cons f rest ih =>
    intro st acc hinv hperm
    obtain ⟨⟨c, seconds⟩, hs⟩ := hsecond (E.advanceGameState gameState f evalContext)
    obtain ⟨st1, hst1, hinv1, hperm1⟩ := depth2InsertAll_inv keepTopN h
      (seconds.map (newPossibility E evalContext f (E.advanceGameState gameState f evalContext)
        (E.getLineClearFactor ((E.advanceGameState gameState f evalContext).lines -
          gameState.lines) evalContext.weights evalContext.shouldRewardLineClears))) st hinv
    obtain ⟨st2, acc2, h1, h2, hinv2, hperm2⟩ := ih st1 _ hinv1
      (hperm1.trans (List.Perm.append_right _ hperm))
    refine ⟨st2, acc2, ?_, ?_, hinv2, hperm2⟩
    · simp only [forEachM, searchDepth2First, hs, hst1]
      exact h1
    · simp only [forEachM, hs]
      exact h2

/-- C5 (`searchDepth2` returns the full list). For every game state, pair of
pieces, evaluator and `keepTopN ≥ 1`, `searchDepth2` started with an empty list
returns (for all large enough fuel) a list that is a permutation of the
possibilities built for every pair of a first and a second placement that the two
move searches enumerate: no pair is dropped or duplicated by the sorted insertion
and the tail append. The returned integer is the length of the list. -/
theorem searchDepth2_full_list (T : Tables) (E : Evaluator) (gameState : GameState)
    (firstPiece secondPiece : Piece) (keepTopN : Int) (h : 1 ≤ keepTopN)
    (evalContext : EvalContext) :
    ∃ N : Nat, ∀ fuel, N ≤ fuel →
      ∃ n out built,
        searchDepth2 T E fuel gameState firstPiece secondPiece keepTopN evalContext [] =
          some (n, out) ∧
        enumeratedPossibilities T E fuel gameState firstPiece secondPiece evalContext =
          some built ∧
        out.Perm built ∧ n = out.length := by
  obtain ⟨N1, hN1⟩ := moveSearch_terminates_uniform T firstPiece
  obtain ⟨N2, hN2⟩ := moveSearch_terminates_uniform T secondPiece
  refine ⟨max N1 N2, fun fuel hfuel => ?_⟩
  obtain ⟨⟨c, firsts⟩, hf⟩ := hN1 gameState evalContext.inputFrameTimeline fuel
    (le_trans (le_max_left _ _) hfuel) []
  obtain ⟨st1, acc1, h1, h2, -, hperm⟩ := searchDepth2_loop T E fuel gameState secondPiece
    keepTopN h evalContext
    (fun g => hN2 g evalContext.inputFrameTimeline fuel (le_trans (le_max_right _ _) hfuel) [])
    firsts depth2Init [] (depth2Inv_init keepTopN h) (by simp [depth2Init])
  refine ⟨st1.possibilityList.length, st1.possibilityList, acc1, ?_, ?_, hperm, rfl⟩
  · unfold searchDepth2
    rw [hf]
    dsimp only
    have : ({ possibilityList := [], cutoffPossibility := 0, size := 0 } : Depth2List) =
        depth2Init := rfl
    rw [this, h1]
  · unfold enumeratedPossibilities
    rw [hf]
    exact h2

set_option maxRecDepth 100000 in
/-- An instance of C5: two O pieces on the empty board with an evaluator that leaves
the board unchanged give 9 * 9 = 81 possibilities. -/
theorem searchDepth2_full_list_witness :
    (1 : Int) ≤ 5 ∧
    (searchDepth2 exampleTables (playoutsOf []) 60 emptyGame pieceO pieceO 5
      { inputFrameTimeline := ['X', '.', '.', '.'], weights := [], shouldRewardLineClears := 0 }
      []).map (fun r => r.1) = some 81 ∧
    ∃ N : Nat, ∀ fuel, N ≤ fuel →
      ∃ n out built,
        searchDepth2 exampleTables (playoutsOf []) fuel emptyGame pieceO pieceO 5
          { inputFrameTimeline := ['X', '.', '.', '.'], weights := [],
            shouldRewardLineClears := 0 } [] = some (n, out) ∧
        enumeratedPossibilities exampleTables (playoutsOf []) fuel emptyGame pieceO pieceO
          { inputFrameTimeline := ['X', '.', '.', '.'], weights := [],
            shouldRewardLineClears := 0 } = some built ∧
        out.Perm built ∧ n = out.length :=
  ⟨by decide, by decide!,
    searchDepth2_full_list exampleTables (playoutsOf []) emptyGame pieceO pieceO 5 (by decide)
      { inputFrameTimeline := ['X', '.', '.', '.'], weights := [],
        shouldRewardLineClears := 0 }⟩

/-! ## Lock finality -/

/-- C1 (lock finality). Take a game state whose surface array is the one that
`getSurfaceArray` computes from its board and a piece whose bottom surface, `maxY`
and bounds tables describe its row masks. Whenever `moveSearch`, started with an
empty list, returns, every lock placement `p` of the result, whether it comes from
`getLockPlacementsFast` or from `findTucks`, satisfies
`collision(board, p.piece, p.x, p.y, p.rot) = false` and
`collision(board, p.piece, p.x, p.y + 1, p.rot) = true`. The search returns for all
large enough fuel. -/
theorem lock_finality (T : Tables) (fuel : Nat) (gameState : GameState) (piece : Piece)
    (timeline : List Char) (count : Int) (out : List LockPlacement)
    (hsurf : gameState.surfaceArray = getSurfaceArray gameState.board)
    (hdesc : PieceDescribed T piece)
    (h : moveSearch T fuel gameState piece timeline [] = some (count, out)) :
    (∀ p ∈ out,
      collision T gameState.board p.piece p.x p.y p.rotationIndex = false ∧
      collision T gameState.board p.piece p.x (p.y + 1) p.rotationIndex = true) ∧
    ∃ N : Nat, ∀ fuel', N ≤ fuel' →
      ∃ r, moveSearch T fuel' gameState piece timeline [] = some r := by
  refine ⟨?_, ?_⟩
  · intro p hp
    rcases moveSearch_result T fuel gameState piece timeline [] out count h with
      ⟨-, -, hout⟩ | ⟨legal, tucks, atc, hlegal, hout, htucks, -, -, hrowsY⟩
    · rw [hout] at hp; simp at hp
    · rw [hout, List.nil_append] at hp
      rcases List.mem_append.1 hp with hp | hp
      · obtain ⟨a, ha, rfl⟩ := List.mem_map.1 hp
        obtain ⟨hpiece, hfree, hpresent, hr0, hr3⟩ := hlegal.1 a ha
        have hrest := lock_rest_described T gameState.board piece a hpiece
          (hdesc.2 a.rotationIndex hr0 hr3 hpresent) hfree
          (le_trans hdesc.1 (hrowsY a ha))
        rw [← hsurf] at hrest
        simp only [toLockPlacement]
        rw [hpiece]
        exact hrest
      · obtain ⟨hpiece, -, hfree, hrest, -⟩ := htucks p hp
        rw [hpiece]
        exact ⟨hfree, hrest⟩
  · obtain ⟨N, hN⟩ := moveSearch_terminates T gameState piece timeline
    exact ⟨N, fun fuel' hfuel' => hN fuel' hfuel' []⟩

/-- The example tables describe the O piece. -/
theorem pieceO_described : PieceDescribed exampleTables pieceO := by
  refine ⟨by decide, ?_⟩
  intro rot h0 h3 hpresent
  have hrot : rot = 0 := by
    have : rot = 0 ∨ rot = 1 ∨ rot = 2 ∨ rot = 3 := by omega
    rcases this with rfl | rfl | rfl | rfl
    · rfl
    · exact absurd (by decide) hpresent
    · exact absurd (by decide) hpresent
    · exact absurd (by decide) hpresent
  subst hrot
  refine ⟨?_, by decide, by decide, by decide, ?_⟩
  · intro r hr
    have : r = 0 ∨ r = 1 ∨ r = 2 ∨ r = 3 := by omega
    have h384 : ∀ i : Nat, (384 : Nat).testBit i = true → 6 ≤ i ∧ i ≤ 9 := by
      intro i hi
      by_cases h10 : i < 10
      · have : i = 7 ∨ i = 8 := by
          interval_cases i <;> simp_all [Nat.testBit, Nat.shiftRight_eq_div_pow]
        omega
      · have hlt : (384 : Nat) < 2 ^ i :=
          lt_of_lt_of_le (by norm_num) (Nat.pow_le_pow_right (by norm_num) (not_lt.1 h10))
        rw [Nat.testBit_lt_two_pow hlt] at hi
        exact absurd hi (by simp)
    rcases this with rfl | rfl | rfl | rfl
    · exact ⟨by decide, fun i hi => by simp [pieceRow, pieceO, readAt] at hi⟩
    · exact ⟨by decide, fun i hi => h384 i hi⟩
    · exact ⟨by decide, fun i hi => h384 i hi⟩
    · exact ⟨by decide, fun i hi => by simp [pieceRow, pieceO, readAt] at hi⟩
  · intro x
    have hb : ∀ c : Nat, c < 4 → (bottomOf pieceO 0 c ≠ -1 ↔ (c = 1 ∨ c = 2)) := by decide
    show (if x + 3 - 3 < -1 ∨ x + 3 - 3 > 7 then (1 : Int) else 0) ≠ 0 ↔ _
    constructor
    · intro h
      have hx : x < -1 ∨ x > 7 := by
        by_contra hcon
        rw [if_neg (by omega)] at h
        exact h rfl
      rcases hx with hx | hx
      · exact ⟨1, by omega, (hb 1 (by omega)).2 (Or.inl rfl), by left; push_cast; omega⟩
      · exact ⟨2, by omega, (hb 2 (by omega)).2 (Or.inr rfl), by right; push_cast; omega⟩
    · rintro ⟨c, hc, hne, hx⟩
      have := (hb c hc).1 hne
      rw [if_pos (by omega)]
      decide

set_option maxRecDepth 100000 in
/-- An instance of C1: the O piece on the board of the adjustment test. The nine
placements rest on the stairs of the board. -/
theorem lock_finality_witness :
    stairGame.surfaceArray = getSurfaceArray stairGame.board ∧
    PieceDescribed exampleTables pieceO ∧
    moveSearch exampleTables 60 stairGame pieceO ['X', '.', '.', '.'] [] =
      some (9, [placementO 3 13, placementO 2 13, placementO 1 13, placementO 0 13,
        placementO (-1) 13, placementO 4 13, placementO 5 13, placementO 6 15,
        placementO 7 16]) ∧
    ∀ p ∈ [placementO 3 13, placementO 2 13, placementO 1 13, placementO 0 13,
        placementO (-1) 13, placementO 4 13, placementO 5 13, placementO 6 15,
        placementO 7 16],
      collision exampleTables stairGame.board p.piece p.x p.y p.rotationIndex = false ∧
      collision exampleTables stairGame.board p.piece p.x (p.y + 1) p.rotationIndex = true :=
  ⟨by decide, pieceO_described, by decide!,
    (lock_finality exampleTables 60 stairGame pieceO ['X', '.', '.', '.'] 9 _ (by decide)
      pieceO_described (by decide!)).1⟩

/-! ## The definition of collision -/

theorem testBit_and_fullRow (b k : Nat) (hk : k ≤ 9) :
    (b &&& FULL_ROW).testBit k = b.testBit k := by
  have h : FULL_ROW = 2 ^ 10 - 1 := by decide
  rw [Nat.testBit_and, h, Nat.testBit_two_pow_sub_one]
  simp
  omega

/-- The overlap test does not see the bits above bit 9 of the board row when no bit
of the moved mask lies above bit 9. -/
theorem land_fullRow_iff (n b : Nat) (x : Int)
    (h : ∀ j : Nat, n.testBit j = true → (j : Int) - x ≤ 9) :
    Int.land (SHIFTBY (n : Int) x) ((b &&& FULL_ROW : Nat) : Int) ≠ 0 ↔
      Int.land (SHIFTBY (n : Int) x) (b : Int) ≠ 0 := by
  rw [land_shift_ne_zero, land_shift_ne_zero]
  constructor
  · rintro ⟨j, hj, h0, hb⟩
    refine ⟨j, hj, h0, ?_⟩
    rw [testBit_and_fullRow _ _ (by have := h j hj; omega)] at hb
    exact hb
  · rintro ⟨j, hj, h0, hb⟩
    refine ⟨j, hj, h0, ?_⟩
    rw [testBit_and_fullRow _ _ (by have := h j hj; omega)]
    exact hb

/-- The collision test as the code makes it: as stated, but the moved mask is
ANDed with the whole row word. -/
theorem collision_iff_rows (T : Tables) (board : List Nat) (piece : Piece) (x y rot : Int) :
    collision T board piece x y rot = true ↔
      readAt piece.maxYByRotation rot 0 < y ∨
      T.X_BOUNDS_COLLISION_TABLE piece.index rot (x + T.X_BOUNDS_COLLISION_TABLE_OFFSET) ≠ 0 ∨
      ∃ r : Nat, r < 4 ∧ 0 ≤ y + (r : Int) ∧ pieceRow piece rot r ≠ 0 ∧
        Int.land (SHIFTBY (pieceRow piece rot r) x) (readAt board (y + (r : Int)) 0 : Nat) ≠ 0 := by
  have hrows : collisionRows board x y
        ((List.range 4).map fun (r : Nat) =>
          readAt (readAt piece.rowsByRotation rot []) (r : Int) 0) 0 = true ↔
      ∃ r : Nat, r < 4 ∧ 0 ≤ y + (r : Int) ∧ pieceRow piece rot r ≠ 0 ∧
        Int.land (SHIFTBY (pieceRow piece rot r) x)
          (readAt board (y + (r : Int)) 0 : Nat) ≠ 0 := by
    rw [collisionRows_iff]
    constructor
    · rintro ⟨k, row, hk, h1, h2, h3⟩
      obtain ⟨hk4, hrow⟩ := pieceRows_getElem? piece rot k row hk
      rw [show y + (0 + (k : Int)) = y + (k : Int) by omega] at h1 h3
      rw [hrow] at h2 h3
      exact ⟨k, hk4, h1, h2, h3⟩
    · rintro ⟨r, hr, h1, h2, h3⟩
      refine ⟨r, pieceRow piece rot r, ?_, by omega, h2, ?_⟩
      · rw [List.getElem?_map, List.getElem?_range hr]
        rfl
      · rw [show y + (0 + (r : Int)) = y + (r : Int) by omega]
        exact h3
  unfold collision
  by_cases h1 : y > readAt piece.maxYByRotation rot 0
  · rw [if_pos h1]
    exact ⟨fun _ => Or.inl h1, fun _ => rfl⟩
  · rw [if_neg h1]
    by_cases h2 : T.X_BOUNDS_COLLISION_TABLE piece.index rot
        (x + T.X_BOUNDS_COLLISION_TABLE_OFFSET) ≠ 0
    · rw [if_pos h2]
      exact ⟨fun _ => Or.inr (Or.inl h2), fun _ => rfl⟩
    · rw [if_neg h2, hrows]
      constructor
      · intro h; right; right; exact h
      · rintro (h | h | h)
        · exact absurd h h1
        · exact absurd h h2
        · exact h

theorem collisionStated_iff (T : Tables) (board : List Nat) (piece : Piece) (x y rot : Int) :
    collisionStated T board piece x y rot = true ↔
      readAt piece.maxYByRotation rot 0 < y ∨
      T.X_BOUNDS_COLLISION_TABLE piece.index rot (x + T.X_BOUNDS_COLLISION_TABLE_OFFSET) ≠ 0 ∨
      ∃ r : Nat, r < 4 ∧ 0 ≤ y + (r : Int) ∧ pieceRow piece rot r ≠ 0 ∧
        Int.land (SHIFTBY (pieceRow piece rot r) x)
          ((readAt board (y + (r : Int)) 0 &&& FULL_ROW : Nat) : Int) ≠ 0 := by
  unfold collisionStated
  simp only [Bool.or_eq_true, decide_eq_true_eq, List.any_eq_true, List.mem_range,
    Bool.and_eq_true, gt_iff_lt, or_assoc, and_assoc]

/-- In a described rotation whose bounds bit is clear for `x`, no bit of a row mask
moved by `x` lies above bit 9. -/
theorem described_mask_within (T : Tables) (piece : Piece) (rot x : Int)
    (hdesc : RotationDescribed T piece rot)
    (hb : ¬ T.X_BOUNDS_COLLISION_TABLE piece.index rot (x + T.X_BOUNDS_COLLISION_TABLE_OFFSET) ≠ 0)
    (r : Nat) (hr : r < 4) :
    0 ≤ pieceRow piece rot r ∧
    ∀ j : Nat, (pieceRow piece rot r).toNat.testBit j = true → (j : Int) - x ≤ 9 := by
  obtain ⟨hrows, hcols, -, -, hbounds⟩ := hdesc
  obtain ⟨hnn, hbits⟩ := hrows r hr
  refine ⟨hnn, ?_⟩
  intro j hj
  obtain ⟨h6, h9⟩ := hbits j hj
  by_contra hcon
  apply hb
  rw [hbounds x]
  have hcell : pieceCell piece rot r (9 - j) = true := by
    unfold pieceCell
    rw [show 9 - (9 - j) = j by omega]
    exact hj
  refine ⟨9 - j, by omega, ?_, Or.inl (by omega)⟩
  rcases hcols (9 - j) (by omega) with ⟨-, hall⟩ | ⟨r2, -, hbot, -, -⟩
  · rw [hall r hr] at hcell
    exact absurd hcell (by simp)
  · rw [hbot]; omega

/-- C11 as stated fails: `collision` ANDs the moved mask with the whole row
word. For the O piece in rotation 1, which it does not have (its row masks are -1),
in column 3 and row -1, the hole bit of row 0 makes `collision` true, although the
stated test, which masks the row with `FULL_ROW`, is false and the same pose on the
empty board does not collide: changing one auxiliary bit changes the result. -/
theorem collision_sees_auxiliary_bits :
    collision exampleTables holeBitBoard pieceO 3 (-1) 1 = true ∧
    collisionStated exampleTables holeBitBoard pieceO 3 (-1) 1 = false ∧
    collision exampleTables emptyBoard pieceO 3 (-1) 1 = false := by
  decide!

/-- C11 (collision definition), amended. For a rotation whose tables describe its row masks, `collision`
is true exactly when the row is past `maxYByRotation[rot]`, or the bit of the bounds
table is set, or a piece row `r` with `y + r >= 0` and a mask that is not zero,
shifted by `x`, overlaps `board[y+r] & FULL_ROW`; and the result is the same on
every board with the same bits 0..9 in each row. -/
theorem collision_definition (T : Tables) (board board2 : List Nat) (piece : Piece)
    (x y rot : Int) (hdesc : RotationDescribed T piece rot) :
    collision T board piece x y rot = collisionStated T board piece x y rot ∧
    (collision T board piece x y rot = true ↔
      readAt piece.maxYByRotation rot 0 < y ∨
      T.X_BOUNDS_COLLISION_TABLE piece.index rot (x + T.X_BOUNDS_COLLISION_TABLE_OFFSET) ≠ 0 ∨
      ∃ r : Nat, r < 4 ∧ 0 ≤ y + (r : Int) ∧ pieceRow piece rot r ≠ 0 ∧
        Int.land (SHIFTBY (pieceRow piece rot r) x)
          ((readAt board (y + (r : Int)) 0 &&& FULL_ROW : Nat) : Int) ≠ 0) ∧
    ((∀ i : Int, readAt board2 i 0 &&& FULL_ROW = readAt board i 0 &&& FULL_ROW) →
      collision T board2 piece x y rot = collision T board piece x y rot) := by
  have key : ∀ b : List Nat,
      collision T b piece x y rot = collisionStated T b piece x y rot := by
    intro b
    rw [Bool.eq_iff_iff, collision_iff_rows, collisionStated_iff]
    by_cases hb : T.X_BOUNDS_COLLISION_TABLE piece.index rot
        (x + T.X_BOUNDS_COLLISION_TABLE_OFFSET) ≠ 0
    · exact ⟨fun _ => Or.inr (Or.inl hb), fun _ => Or.inr (Or.inl hb)⟩
    · have hrow : ∀ r : Nat, r < 4 →
          (Int.land (SHIFTBY (pieceRow piece rot r) x)
              ((readAt b (y + (r : Int)) 0 &&& FULL_ROW : Nat) : Int) ≠ 0 ↔
            Int.land (SHIFTBY (pieceRow piece rot r) x)
              (readAt b (y + (r : Int)) 0 : Nat) ≠ 0) := by
        intro r hr
        obtain ⟨hnn, hbits⟩ := described_mask_within T piece rot x hdesc hb r hr
        have hcast : pieceRow piece rot r = (((pieceRow piece rot r).toNat : Nat) : Int) := by
          omega
        rw [hcast]
        exact land_fullRow_iff _ _ x hbits
      constructor
      · rintro (h | h | ⟨r, hr, h1, h2, h3⟩)
        · exact Or.inl h
        · exact Or.inr (Or.inl h)
        · exact Or.inr (Or.inr ⟨r, hr, h1, h2, (hrow r hr).2 h3⟩)
      · rintro (h | h | ⟨r, hr, h1, h2, h3⟩)
        · exact Or.inl h
        · exact Or.inr (Or.inl h)
        · exact Or.inr (Or.inr ⟨r, hr, h1, h2, (hrow r hr).1 h3⟩)
  refine ⟨key board, ?_, ?_⟩
  · rw [key board, collisionStated_iff]
  · intro hlow
    rw [key board, key board2]
    unfold collisionStated
    simp only [hlow]

theorem holeBitBoard_low_bits (i : Int) :
    readAt holeBitBoard i 0 &&& FULL_ROW = readAt emptyBoard i 0 &&& FULL_ROW := by
  unfold readAt
  split
  · rfl
  · unfold holeBitBoard emptyBoard
    cases i.toNat with
    | zero => decide
    | succ n =>
      simp only [List.getD_eq_getElem?_getD, List.getElem?_cons_succ, List.getElem?_replicate]
      split <;> split <;> rfl

/-- C11 for the O piece in its rotation 0, in column 3 and row -1: on the board
with a hole bit `collision` is the stated test, and it gives the same as on the
empty board. -/
theorem collision_definition_witness :
    RotationDescribed exampleTables pieceO 0 ∧
    collision exampleTables emptyBoard pieceO 3 (-1) 0 =
      collisionStated exampleTables emptyBoard pieceO 3 (-1) 0 ∧
    collision exampleTables holeBitBoard pieceO 3 (-1) 0 =
      collision exampleTables emptyBoard pieceO 3 (-1) 0 :=
  ⟨pieceO_described.2 0 (by decide) (by decide) (by decide),
    (collision_definition exampleTables emptyBoard holeBitBoard pieceO 3 (-1) 0
      (pieceO_described.2 0 (by decide) (by decide) (by decide))).1,
    (collision_definition exampleTables emptyBoard holeBitBoard pieceO 3 (-1) 0
      (pieceO_described.2 0 (by decide) (by decide) (by decide))).2.2 holeBitBoard_low_bits⟩

/-! ## Collision on the empty board -/

theorem readAt_replicate {α : Type} (n : Nat) (i : Int) (d : α) :
    readAt (List.replicate n d) i d = d := by
  unfold readAt
  split
  · rfl
  · simp only [List.getD_eq_getElem?_getD, List.getElem?_replicate]
    split <;> rfl

theorem land_zero_right (n : Int) : Int.land n ((0 : Nat) : Int) = 0 := by
  cases n with
  | ofNat m => show ((m &&& 0 : Nat) : Int) = 0; simp
  | negSucc m => show ((Nat.ldiff 0 m : Nat) : Int) = 0; simp [Nat.ldiff]

theorem collisionRows_zero_board (board : List Nat) (hb : ∀ i, readAt board i 0 = 0)
    (x y : Int) : ∀ (rows : List Int) (r : Int), collisionRows board x y rows r = false := by
  intro rows
  induction rows with
  | nil => intro r; rfl
  | cons row rest ih =>
    intro r
    rw [collisionRows]
    split
    · exact ih _
    · split
      · exact ih _
      · rw [hb]
        rw [land_zero_right, if_neg (by simp)]
        exact ih _

/-- C12 (collision symmetry on the empty board). On the empty board a pose is free of collision exactly when the bit of the
horizontal bounds table for its piece, rotation and column is clear and its row is
at most `maxYByRotation[rot]`; on every board a pose below `maxYByRotation[rot]`
collides. -/
theorem collision_symmetry (T : Tables) (board : List Nat) (piece : Piece) (x y rot : Int) :
    (collision T emptyBoard piece x y rot = false ↔
      T.X_BOUNDS_COLLISION_TABLE piece.index rot (x + T.X_BOUNDS_COLLISION_TABLE_OFFSET) = 0 ∧
        y ≤ readAt piece.maxYByRotation rot 0) ∧
    (readAt piece.maxYByRotation rot 0 < y → collision T board piece x y rot = true) := by
  refine ⟨?_, fun h => collision_of_maxY_lt T board piece x y rot h⟩
  unfold collision
  rw [collisionRows_zero_board emptyBoard (fun i => readAt_replicate 20 i 0)]
  by_cases hy : y > readAt piece.maxYByRotation rot 0
  · simp [hy]
  · by_cases hb : T.X_BOUNDS_COLLISION_TABLE piece.index rot
        (x + T.X_BOUNDS_COLLISION_TABLE_OFFSET) = 0
    · simp [hy, hb]
      omega
    · simp [hy, hb]

/-- C12 for the J piece of scenario S3: on the empty board it collides in column 3
and row 22, below the largest row of rotation 0, and it does not collide in column 3
and row -1. -/
theorem collision_symmetry_witness :
    collision exampleTables emptyBoard pieceJ 3 22 0 = true ∧
    collision exampleTables emptyBoard pieceJ 3 (-1) 0 = false :=
  ⟨(collision_symmetry exampleTables emptyBoard pieceJ 3 22 0).2 (by decide),
    (collision_symmetry exampleTables emptyBoard pieceJ 3 (-1) 0).1.2 ⟨by decide, by decide⟩⟩

/-! ## The rotation policy -/

/-- C13 as stated fails: `rotateTowardsGoal(0, 3)` is not 1. The goal 3 is one left
rotation away from 0 (`goalRotation == curRotation + 3`), so the result is 3. -/
theorem rotation_scenario_left_step : rotateTowardsGoal 0 3 ≠ 1 := by decide

/-- C13 (rotation scenario S4), amended. `rotateTowardsGoal(0, 3) = 3` (one left
rotation), `rotateTowardsGoal(1, 0) = 0` (one left rotation) and
`rotateTowardsGoal(2, 2) = 2`. -/
theorem rotation_scenario :
    rotateTowardsGoal 0 3 = 3 ∧ rotateTowardsGoal 1 0 = 0 ∧ rotateTowardsGoal 2 2 = 2 := by
  decide

/-- C14 (rotation policy, one step) at the failing inputs: from rotation 3 the right
rotation towards the goals 0 and 1 is returned as `3 + 1 = 4`, which is not a
rotation index, where the claim gives `(3 + 1) mod 4 = 0`. For every other pair of
rotations in 0..3 the result is the one the claim states. -/
theorem rotateTowardsGoal_from_three :
    rotateTowardsGoal 3 0 = 4 ∧ rotateTowardsGoal 3 1 = 4 ∧
    ∀ cur ∈ [0, 1, 2, 3], ∀ goal ∈ [0, 1, 2, 3], ¬ (cur = 3 ∧ (goal = 0 ∨ goal = 1)) →
      rotateTowardsGoal cur goal =
        (if goal = cur then cur else if goal = (cur - 1) % 4 then goal else (cur + 1) % 4) := by
  decide

/-- C19 (rotation sequence from spawn). From rotation 0 the iteration of `rotateTowardsGoal` reaches the goal `g`
after exactly `g == 3 ? 1 : g` steps (the expression of `findTuckInput` for
`numRotsBeforeTuck`) and not before, every value on the way is in 0..3, every step
is a left or a right rotation, and a left rotation occurs at most once: only as the
single step to the goal 3. -/
theorem rotation_sequence_from_spawn (g : Int) (h0 : 0 ≤ g) (h3 : g ≤ 3) :
    rotationAfterSteps g (if g = 3 then 1 else g).toNat 0 = g ∧
    (∀ j : Nat, j < (if g = 3 then 1 else g).toNat → rotationAfterSteps g j 0 ≠ g) ∧
    (∀ j : Nat, j ≤ (if g = 3 then 1 else g).toNat →
      0 ≤ rotationAfterSteps g j 0 ∧ rotationAfterSteps g j 0 ≤ 3) ∧
    (∀ j : Nat, j < (if g = 3 then 1 else g).toNat →
      (IsRightRotation (rotationAfterSteps g j 0) (rotationAfterSteps g (j + 1) 0) ∧
        ¬ IsLeftRotation (rotationAfterSteps g j 0) (rotationAfterSteps g (j + 1) 0)) ∨
      (g = 3 ∧ j = 0 ∧
        IsLeftRotation (rotationAfterSteps g j 0) (rotationAfterSteps g (j + 1) 0))) := by
  have hg : g = 0 ∨ g = 1 ∨ g = 2 ∨ g = 3 := by omega
  rcases hg with rfl | rfl | rfl | rfl
  · refine ⟨by decide, ?_, ?_, ?_⟩
    · intro j hj; simp at hj
    · intro j hj
      have : j = 0 := by simpa using hj
      subst this; decide
    · intro j hj; simp at hj
  · refine ⟨by decide, ?_, ?_, ?_⟩
    · intro j hj
      have : j = 0 := by simpa using hj
      subst this; decide
    · intro j hj
      have hj' : j ≤ 1 := by simpa using hj
      interval_cases j <;> decide
    · intro j hj
      have : j = 0 := by simpa using hj
      subst this; left; decide
  · refine ⟨by decide, ?_, ?_, ?_⟩
    · intro j hj
      have hj' : j < 2 := by simpa using hj
      interval_cases j <;> decide
    · intro j hj
      have hj' : j ≤ 2 := by simpa using hj
      interval_cases j <;> decide
    · intro j hj
      have hj' : j < 2 := by simpa using hj
      interval_cases j <;> (left; decide)
  · refine ⟨by decide, ?_, ?_, ?_⟩
    · intro j hj
      have : j = 0 := by simpa using hj
      subst this; decide
    · intro j hj
      have hj' : j ≤ 1 := by simpa using hj
      interval_cases j <;> decide
    · intro j hj
      have : j = 0 := by simpa using hj
      subst this; right; exact ⟨rfl, rfl, by decide⟩

/-- C19 at the goal 2: two steps, `0 → 1 → 2`, both to the right. -/
theorem rotation_sequence_from_spawn_witness :
    rotationAfterSteps 2 2 0 = 2 ∧ rotationAfterSteps 2 1 0 = 1 ∧
    IsRightRotation (rotationAfterSteps 2 0 0) (rotationAfterSteps 2 1 0) :=
  ⟨(rotation_sequence_from_spawn 2 (by decide) (by decide)).1, by decide, by decide⟩

/-! ## The key of a lock position -/

theorem mem_intRange (a b k : Int) (h1 : a ≤ k) (h2 : k ≤ b) : k ∈ intRange a b := by
  unfold intRange
  rw [List.mem_map]
  exact ⟨(k - a).toNat, List.mem_range.2 (by omega), by omega⟩

set_option maxRecDepth 100000 in
/-- Every key of a location with rotation 0..3, column -2..7 and row -3..19 has at
most 9 characters and reads back as the location: checked location by location. -/
theorem keyRoundTrip_all :
    ∀ rot ∈ intRange 0 3, ∀ x ∈ intRange (-2) 7, ∀ y ∈ intRange (-3) 19,
      (encodeLockPosition { x := x, y := y, rotationIndex := rot }).length ≤ 9 ∧
      parseLockPosition (encodeLockPosition { x := x, y := y, rotationIndex := rot }) =
        some { x := x, y := y, rotationIndex := rot } := by
  decide!

/-- C15 (round trip of the key encoding). For a location with rotation in 0..3, column in -2..7 and row in -3..19
the key `rot|x|y` has at most 9 characters, so that it fits the buffer of 10 bytes
with its terminator; read at its two separators it gives back the location; and no
other such location has the same key. -/
theorem key_round_trip (l l2 : LockLocation)
    (hrot : 0 ≤ l.rotationIndex ∧ l.rotationIndex ≤ 3) (hx : -2 ≤ l.x ∧ l.x ≤ 7)
    (hy : -3 ≤ l.y ∧ l.y ≤ 19) :
    (encodeLockPosition l).length ≤ 9 ∧
    parseLockPosition (encodeLockPosition l) = some l ∧
    (0 ≤ l2.rotationIndex ∧ l2.rotationIndex ≤ 3 → -2 ≤ l2.x ∧ l2.x ≤ 7 →
      -3 ≤ l2.y ∧ l2.y ≤ 19 → encodeLockPosition l2 = encodeLockPosition l → l2 = l) := by
  have hall : ∀ k : LockLocation, 0 ≤ k.rotationIndex ∧ k.rotationIndex ≤ 3 →
      -2 ≤ k.x ∧ k.x ≤ 7 → -3 ≤ k.y ∧ k.y ≤ 19 →
      (encodeLockPosition k).length ≤ 9 ∧ parseLockPosition (encodeLockPosition k) = some k := by
    intro k h1 h2 h3
    exact keyRoundTrip_all k.rotationIndex (mem_intRange _ _ _ h1.1 h1.2) k.x
      (mem_intRange _ _ _ h2.1 h2.2) k.y (mem_intRange _ _ _ h3.1 h3.2)
  refine ⟨(hall l hrot hx hy).1, (hall l hrot hx hy).2, ?_⟩
  intro h1 h2 h3 heq
  have e1 := (hall l2 h1 h2 h3).2
  rw [heq, (hall l hrot hx hy).2] at e1
  exact (Option.some.inj e1).symm

/-- C15 for the location in rotation 3, column -2 and row 19: its key is `3|-2|19`. -/
theorem key_round_trip_witness :
    encodeLockPosition { x := -2, y := 19, rotationIndex := 3 } = "3|-2|19" ∧
    parseLockPosition ("3|-2|19") = some { x := -2, y := 19, rotationIndex := 3 } ∧
    (encodeLockPosition { x := -2, y := 19, rotationIndex := 3 }).length ≤ 9 :=
  ⟨by decide, by decide,
    (key_round_trip { x := -2, y := 19, rotationIndex := 3 }
      { x := 0, y := 0, rotationIndex := 0 } (by decide) (by decide) (by decide)).1⟩

/-! ## The surface array -/

theorem readAt_natCast {α : Type} (a : List α) (n : Nat) (d : α) :
    readAt a (n : Int) d = a.getD n d := by
  unfold readAt
  rw [if_neg (by omega)]
  rfl

theorem surfaceScan_congr (board board2 : List Nat) (k : Nat)
    (h : ∀ row : Nat, (board2.getD row 0).testBit k = (board.getD row 0).testBit k) :
    ∀ fuel row : Nat, surfaceScan board2 (2 ^ k) fuel row = surfaceScan board (2 ^ k) fuel row := by
  intro fuel
  induction fuel with
  | zero => intro row; rfl
  | succ fuel ih =>
    intro row
    rw [surfaceScan, surfaceScan, ih]
    have : (board2.getD row 0 &&& 2 ^ k = 0) ↔ (board.getD row 0 &&& 2 ^ k = 0) := by
      rw [and_two_pow_eq_zero, and_two_pow_eq_zero, h]
    by_cases hc : board.getD row 0 &&& 2 ^ k = 0 ∧ row < 20
    · rw [if_pos hc, if_pos ⟨this.2 hc.1, hc.2⟩]
    · rw [if_neg hc, if_neg (fun h2 => hc ⟨this.1 h2.1, h2.2⟩)]

/-- C16 (surface array). For every board (a row past its end reads as 0, so also
for every board of 20 rows) and every column `c` in 0..9, the entry `c` of the
surface array is `20 - r` for the smallest row `r` whose bit `9 - c` is set, and 0
when no row has that bit set; the array has ten entries and is the same for every
board with the same bits 0..9 in each row. -/
theorem surface_array (board board2 : List Nat) (c : Nat) (hc : c < 10) :
    (getSurfaceArray board).length = 10 ∧
    (∀ r : Nat, r < 20 → (board.getD r 0).testBit (9 - c) = true →
      (∀ r2 : Nat, r2 < r → (board.getD r2 0).testBit (9 - c) = false) →
      readAt (getSurfaceArray board) (c : Int) 0 = 20 - (r : Int)) ∧
    ((∀ r : Nat, r < 20 → (board.getD r 0).testBit (9 - c) = false) →
      readAt (getSurfaceArray board) (c : Int) 0 = 0) ∧
    ((∀ i : Int, readAt board2 i 0 &&& FULL_ROW = readAt board i 0 &&& FULL_ROW) →
      getSurfaceArray board2 = getSurfaceArray board) := by
  obtain ⟨g0, g20, gfree, gset⟩ := getSurfaceArray_spec board (c : Int) (by omega) (by omega)
  have hk : (9 - (c : Int)).toNat = 9 - c := by omega
  rw [hk] at gfree gset
  refine ⟨by simp [getSurfaceArray], ?_, ?_, ?_⟩
  · intro r hr hset hfirst
    by_contra hne
    rcases lt_or_gt_of_ne hne with hlt | hgt
    · -- the scan stopped after row `r`, which is filled
      have := gfree (r : Int) (by omega) (by omega)
      rw [readAt_natCast] at this
      rw [this] at hset
      exact absurd hset (by simp)
    · -- the scan stopped before row `r`, at a filled row
      have hpos : 0 < readAt (getSurfaceArray board) (c : Int) 0 := by omega
      have h1 := gset hpos
      have h2 := hfirst (20 - readAt (getSurfaceArray board) (c : Int) 0).toNat (by omega)
      rw [← readAt_natCast, Int.toNat_of_nonneg (by omega)] at h2
      rw [h2] at h1
      exact absurd h1 (by simp)
  · intro hnone
    by_contra hne
    have hpos : 0 < readAt (getSurfaceArray board) (c : Int) 0 := by omega
    have h1 := gset hpos
    have h2 := hnone (20 - readAt (getSurfaceArray board) (c : Int) 0).toNat (by omega)
    rw [← readAt_natCast, Int.toNat_of_nonneg (by omega)] at h2
    rw [h2] at h1
    exact absurd h1 (by simp)
  · intro hlow
    unfold getSurfaceArray
    apply List.map_congr_left
    intro col hcol
    have hcol9 : col < 10 := List.mem_range.1 hcol
    rw [Nat.one_shiftLeft]
    rw [surfaceScan_congr board board2 (9 - col)]
    intro row
    have := hlow (row : Int)
    rw [readAt_natCast, readAt_natCast] at this
    rw [← testBit_and_fullRow (board2.getD row 0) (9 - col) (by omega),
      ← testBit_and_fullRow (board.getD row 0) (9 - col) (by omega), this]

/-- C16 on the board of the adjustment test: column 7 is filled from row 18 on, so
its height is 2; column 9 is empty, so its height is 0. -/
theorem surface_array_witness :
    stairGame.board.length = 20 ∧
    readAt (getSurfaceArray stairGame.board) 7 0 = 2 ∧
    readAt (getSurfaceArray stairGame.board) 9 0 = 0 :=
  ⟨by decide,
    (surface_array stairGame.board stairGame.board 7 (by decide)).2.1 18
      (by decide) (by decide) (by decide),
    (surface_array stairGame.board stairGame.board 9 (by decide)).2.2.1
      (by decide)⟩

/-! ## Registered states do not collide -/

/-- The states that a call of `exploreHorizontally` appends, for every increment and
bound: they are in the goal rotation, of the piece of the start state, and free of
collision. -/
theorem exploreHorizontally_appends_free (T : Tables) (board : List Nat) (inc bound goal : Int)
    (timeline : List Char) (gravity : Int) :
    ∀ (fuel : Nat) (s : SimState) (range : Int) (legal : List SimState) (res : Int × List SimState),
      exploreHorizontally T board inc bound goal timeline gravity fuel s range legal = some res →
      ∃ added, res.2 = legal ++ added ∧
        ∀ a ∈ added, collision T board a.piece a.x a.y a.rotationIndex = false ∧
          a.rotationIndex = goal ∧ a.piece = s.piece := by
  intro fuel
  induction fuel with
  | zero =>
    intro s range legal res h
    rw [exploreHorizontally] at h
    by_cases hexit : s.x = bound ∧ s.rotationIndex = goal
    · simp only [hexit, and_self, if_true, Option.some.injEq] at h
      exact ⟨[], by rw [← h]; simp, by simp⟩
    · simp [hexit] at h
  | succ fuel ih =>
    intro s range legal res h
    rw [exploreHorizontally] at h
    by_cases hexit : s.x = bound ∧ s.rotationIndex = goal
    · simp only [hexit, and_self, if_true, Option.some.injEq] at h
      exact ⟨[], by rw [← h]; simp, by simp⟩
    · simp only [hexit, if_false] at h
      cases hfr : exploreFrame T board inc bound goal timeline gravity s with
      | none =>
        simp only [hfr, Option.some.injEq] at h
        exact ⟨[], by rw [← h]; simp, by simp⟩
      | some r =>
        obtain ⟨s3, fn, dl⟩ := r
        simp only [hfr] at h
        obtain ⟨hp, -, -, -, hfn, -, -, hcol⟩ :=
          exploreFrame_spec T board inc bound goal timeline gravity s s3 fn dl hfr
        have hloop : s.x ≠ bound ∨ s.rotationIndex ≠ goal := by
          by_cases hxb : s.x = bound
          · right; intro hrg; exact hexit ⟨hxb, hrg⟩
          · left; exact hxb
        have hreg : fn = true →
            collision T board s3.piece s3.x s3.y s3.rotationIndex = false ∧
              s3.rotationIndex = goal ∧ s3.piece = s.piece :=
          fun hfn1 => ⟨hcol hfn1 hloop, (hfn.1 hfn1).2, hp⟩
        by_cases hdl : dl = true
        · simp only [hdl, if_true, Option.some.injEq] at h
          by_cases hfn1 : fn = true
          · refine ⟨[s3], by rw [← h]; simp [hfn1], ?_⟩
            intro a ha
            simp at ha; rw [ha]; exact hreg hfn1
          · exact ⟨[], by rw [← h]; simp [hfn1], by simp⟩
        · simp only [hdl, if_false] at h
          obtain ⟨added, hadd, hall⟩ := ih s3 _ _ res h
          have hall' : ∀ a ∈ added, collision T board a.piece a.x a.y a.rotationIndex = false ∧
              a.rotationIndex = goal ∧ a.piece = s.piece := fun a ha =>
            ⟨(hall a ha).1, (hall a ha).2.1, (hall a ha).2.2.trans hp⟩
          by_cases hfn1 : fn = true
          · refine ⟨s3 :: added, by rw [hadd]; simp [hfn1], ?_⟩
            intro a ha
            rcases List.mem_cons.1 ha with rfl | ha
            · exact hreg hfn1
            · exact hall' a ha
          · exact ⟨added, by rw [hadd]; simp [hfn1], hall'⟩

/-- The legal list of `moveSearchInternal`, for every start state: a property `Q`
holds for each of its states when it holds for the start state, if that is free of
collision, and for every state of the piece that is free of collision in one of
the goal rotations. -/
theorem rotationLoop_all (T : Tables) (fuel : Nat) (board : List Nat) (s : SimState)
    (piece : Piece) (timeline : List Char) (gravity : Int) (hp : s.piece = piece)
    (Q : SimState → Prop)
    (hs : collision T board s.piece s.x s.y s.rotationIndex = false → Q s) :
    ∀ (goals : List Int) (legal legal' : List SimState),
      (∀ g ∈ goals, ∀ a : SimState, a.rotationIndex = g → a.piece = s.piece →
        collision T board a.piece a.x a.y a.rotationIndex = false → Q a) →
      (∀ a ∈ legal, Q a) →
      rotationLoop T fuel board s piece timeline gravity goals legal = some (some legal') →
      ∀ a ∈ legal', Q a := by
  intro goals
  induction goals with
  | nil =>
    intro legal legal' _ hl h
    simp only [rotationLoop, Option.some.injEq] at h
    rw [← h]; exact hl
  | cons g rest ih =>
    intro legal legal' hQ hl h
    have hQrest : ∀ g2 ∈ rest, ∀ a : SimState, a.rotationIndex = g2 → a.piece = s.piece →
        collision T board a.piece a.x a.y a.rotationIndex = false → Q a :=
      fun g2 hg2 => hQ g2 (List.mem_cons_of_mem _ hg2)
    have hstep : ∀ (inc bound : Int) (l : List SimState) (r : Int × List SimState),
        (∀ a ∈ l, Q a) →
        exploreHorizontally T board inc bound g timeline gravity fuel s 0 l = some r →
        ∀ a ∈ r.2, Q a := by
      intro inc bound l r hlQ hr a ha
      obtain ⟨added, hadd, hall⟩ :=
        exploreHorizontally_appends_free T board inc bound g timeline gravity fuel s 0 l r hr
      rw [hadd] at ha
      rcases List.mem_append.1 ha with ha | ha
      · exact hlQ a ha
      · exact hQ g (List.mem_cons_self _ _) a (hall a ha).2.1 (hall a ha).2.2 (hall a ha).1
    rw [rotationLoop] at h
    split at h
    · exact ih legal legal' hQrest hl h
    · split at h
      · exact absurd h (by simp)
      · rename_i hspawn
        dsimp only at h
        have hl0 : ∀ a ∈ (if g = 0 then legal ++ [s] else legal), Q a := by
          intro a ha
          by_cases hg : g = 0
          · rw [if_pos hg] at ha
            rcases List.mem_append.1 ha with ha | ha
            · exact hl a ha
            · simp only [List.mem_singleton] at ha
              subst ha
              apply hs
              have : ¬ collision T board piece a.x a.y a.rotationIndex = true :=
                fun hc => hspawn ⟨hg, hc⟩
              rw [hp]
              simpa using this
          · rw [if_neg hg] at ha
            exact hl a ha
        cases h1 : exploreHorizontally T board (-1) (-99) g timeline gravity fuel s 0
            (if g = 0 then legal ++ [s] else legal) with
        | none => rw [h1] at h; exact absurd h (by simp)
        | some r1 =>
          rw [h1] at h
          dsimp only at h
          have hl1 := hstep (-1) (-99) _ r1 hl0 h1
          cases h2 : exploreHorizontally T board 1 99 g timeline gravity fuel s 0 r1.2 with
          | none => rw [h2] at h; exact absurd h (by simp)
          | some r2 =>
            rw [h2] at h
            dsimp only at h
            have hl2 := hstep 1 99 _ r2 hl1 h2
            cases h3 : explorePlacementsNearSpawn T board fuel s g timeline gravity r2.2 with
            | none => rw [h3] at h; exact absurd h (by simp)
            | some legal3 =>
              rw [h3] at h
              dsimp only at h
              refine ih legal3 legal' hQrest ?_ h
              unfold explorePlacementsNearSpawn at h3
              refine forEachM_invariant _ (fun l => ∀ a ∈ l, Q a) _ ?_ r2.2 legal3 hl2 h3
              intro xOffset _ l l1 hinv hstep2
              obtain ⟨r, hr, hr2⟩ := Option.map_eq_some'.1 hstep2
              rw [← hr2]
              exact hstep xOffset _ l r hinv hr

/-! ## The array of reachable columns -/

theorem writeAt_length {α : Type} (a : List α) (i : Int) (v : α) :
    (writeAt a i v).length = a.length := by
  unfold writeAt
  split
  · rfl
  · simp

theorem readAt_writeAt_ne {α : Type} (a : List α) (i j : Int) (v d : α) (h : i ≠ j) :
    readAt (writeAt a i v) j d = readAt a j d := by
  unfold readAt writeAt
  by_cases hj : j < 0
  · rw [if_pos hj, if_pos hj]
  · rw [if_neg hj, if_neg hj]
    by_cases hi : i < 0
    · rw [if_pos hi]
    · rw [if_neg hi, List.getD_eq_getElem?_getD, List.getD_eq_getElem?_getD,
        List.getElem?_set_ne (by omega)]

theorem readAt_writeAt_self {α : Type} (a : List α) (i : Int) (v d : α) (h0 : 0 ≤ i)
    (h1 : i < a.length) : readAt (writeAt a i v) i d = v := by
  unfold readAt writeAt
  rw [if_neg (by omega), if_neg (by omega), List.getD_eq_getElem?_getD,
    List.getElem?_set_self (by omega)]
  rfl

/-- The array that `getLockPlacementsFast` leaves does not depend on the lock
placement list it appends to. -/
theorem getLockPlacementsFast_fst (surfaceArray : List Int) (legal : List SimState) :
    ∀ (atc : List Int) (lp lp2 : List LockPlacement),
      (getLockPlacementsFast surfaceArray legal atc lp).1 =
        (getLockPlacementsFast surfaceArray legal atc lp2).1 := by
  induction legal with
  | nil => intro atc lp lp2; rfl
  | cons s rest ih =>
    intro atc lp lp2
    rw [getLockPlacementsFast, getLockPlacementsFast]
    exact ih _ _ _

/-- The entry of the array at an index: the lock row of a legal state encoded at
that index when there is one, the entry before the call otherwise. -/
theorem getLockPlacementsFast_read (surfaceArray : List Int) (i : Int) :
    ∀ (legal : List SimState) (atc : List Int) (lp : List LockPlacement),
      (∀ a ∈ legal, 0 ≤ TUCK_COL_ENCODED a.rotationIndex a.x ∧
        TUCK_COL_ENCODED a.rotationIndex a.x < atc.length) →
      ((∀ a ∈ legal, TUCK_COL_ENCODED a.rotationIndex a.x ≠ i) →
        readAt (getLockPlacementsFast surfaceArray legal atc lp).1 i 0 = readAt atc i 0) ∧
      ((∃ a ∈ legal, TUCK_COL_ENCODED a.rotationIndex a.x = i) →
        ∃ a ∈ legal, TUCK_COL_ENCODED a.rotationIndex a.x = i ∧
          readAt (getLockPlacementsFast surfaceArray legal atc lp).1 i 0 =
            lockRow surfaceArray a) := by
  intro legal
  induction legal with
  | nil =>
    intro atc lp _
    exact ⟨fun _ => rfl, fun h => by obtain ⟨a, ha, -⟩ := h; simp at ha⟩
  | cons s rest ih =>
    intro atc lp hrange
    rw [getLockPlacementsFast]
    have hrest : ∀ a ∈ rest, 0 ≤ TUCK_COL_ENCODED a.rotationIndex a.x ∧
        TUCK_COL_ENCODED a.rotationIndex a.x <
          (writeAt atc (TUCK_COL_ENCODED s.rotationIndex s.x)
            (lockRow surfaceArray s)).length := by
      intro a ha
      rw [writeAt_length]
      exact hrange a (List.mem_cons_of_mem _ ha)
    obtain ⟨ihn, ihe⟩ := ih (writeAt atc (TUCK_COL_ENCODED s.rotationIndex s.x)
      (lockRow surfaceArray s))
      (lp ++ [{ x := s.x, y := lockRow surfaceArray s, rotationIndex := s.rotationIndex,
                inputSequenceTag := -1, tuckNotation := NO_TUCK_NOTATION, piece := s.piece }])
      hrest
    constructor
    · intro hnone
      rw [ihn (fun a ha => hnone a (List.mem_cons_of_mem _ ha)),
        readAt_writeAt_ne _ _ _ _ _ (hnone s (List.mem_cons_self _ _))]
    · intro hex
      by_cases hin : ∃ a ∈ rest, TUCK_COL_ENCODED a.rotationIndex a.x = i
      · obtain ⟨a, ha, hai, hread⟩ := ihe hin
        exact ⟨a, List.mem_cons_of_mem _ ha, hai, hread⟩
      · have hnone : ∀ a ∈ rest, TUCK_COL_ENCODED a.rotationIndex a.x ≠ i :=
          fun a ha hai => hin ⟨a, ha, hai⟩
        have hs : TUCK_COL_ENCODED s.rotationIndex s.x = i := by
          obtain ⟨a, ha, hai⟩ := hex
          rcases List.mem_cons.1 ha with rfl | ha
          · exact hai
          · exact absurd hai (hnone a ha)
        refine ⟨s, List.mem_cons_self _ _, hs, ?_⟩
        rw [ihn hnone, ← hs]
        exact readAt_writeAt_self _ _ _ _ (hrange s (List.mem_cons_self _ _)).1
          (hrange s (List.mem_cons_self _ _)).2

/-- A pose that does not collide has a clear bit in the bounds table. -/
theorem bounds_of_free (T : Tables) (board : List Nat) (piece : Piece) (x y rot : Int)
    (h : collision T board piece x y rot = false) :
    T.X_BOUNDS_COLLISION_TABLE piece.index rot (x + T.X_BOUNDS_COLLISION_TABLE_OFFSET) = 0 := by
  by_contra hne
  have : collision T board piece x y rot = true :=
    (collision_iff_rows T board piece x y rot).2 (Or.inr (Or.inl hne))
  rw [h] at this
  exact absurd this (by simp)

set_option maxRecDepth 100000 in
/-- C17 as stated fails: the array starts as zeros, not as `UNREACHED`. For
the O piece on the empty board the search registers nine placements, all in
rotation 0, and the entry for rotation 1 and column 3 that `findTucks` receives is
0, not 99. -/
theorem tuck_cols_start_at_zero :
    moveSearch exampleTables 60 emptyGame pieceO ['X', '.', '.', '.'] [] =
      some (9, [3, 2, 1, 0, -1, 4, 5, 6, 7].map floorPlacementO) ∧
    (∀ p ∈ [3, 2, 1, 0, -1, 4, 5, 6, 7].map floorPlacementO,
      ¬ (p.rotationIndex = 1 ∧ p.x = 3)) ∧
    (tuckColsHanded exampleTables 60 emptyGame (spawnStateOf pieceO) pieceO
      ['X', '.', '.', '.']).map (Option.map fun atc => readAt atc (TUCK_COL_ENCODED 1 3) 0) =
      some (some 0) ∧
    (0 : Int) ≠ UNREACHED := by
  refine ⟨by decide!, by decide, by decide!, by decide⟩

/-- C17 (population of `availableTuckCols`), amended. When the bounds table admits only the columns -2..7 and the start
state is in a rotation 0..3, the array that `moveSearchInternal` hands to `findTucks`
holds, for every rotation `rot` in 0..3 and column `x` in -2..7, at the index
`rot*10 + x + 2` the resting row of a registered placement without tuck in that
rotation and column if there is one, and 0, the value the array starts with,
otherwise. -/
theorem tuck_cols_population (T : Tables) (fuel : Nat) (gameState : GameState)
    (spawnState : SimState) (timeline : List Char) (atc : List Int)
    (hrot : 0 ≤ spawnState.rotationIndex ∧ spawnState.rotationIndex ≤ 3)
    (hbounds : ∀ rot x : Int, x < -2 ∨ 7 < x →
      T.X_BOUNDS_COLLISION_TABLE spawnState.piece.index rot
        (x + T.X_BOUNDS_COLLISION_TABLE_OFFSET) ≠ 0)
    (h : tuckColsHanded T fuel gameState spawnState spawnState.piece timeline =
      some (some atc)) :
    ∃ legal : List SimState,
      rotationLoop T fuel gameState.board spawnState spawnState.piece timeline
        (getGravity gameState.level) (intRange 0 3) [] = some (some legal) ∧
      (T.CAN_TUCK = true → ∀ lockPlacements,
        moveSearchInternal T fuel gameState spawnState spawnState.piece timeline lockPlacements =
          (findTucks T fuel gameState.board spawnState.piece atc
            (T.computeYValueOfEachShift timeline (getGravity gameState.level)
              spawnState.piece.initialY)
            (lockPlacements ++ legal.map (toLockPlacement gameState.surfaceArray))).map
            fun withTucks => ((withTucks.length : Int), withTucks)) ∧
      ∀ rot x : Int, 0 ≤ rot → rot ≤ 3 → -2 ≤ x → x ≤ 7 →
        ((∃ p ∈ legal.map (toLockPlacement gameState.surfaceArray),
            p.rotationIndex = rot ∧ p.x = x) →
          ∃ p ∈ legal.map (toLockPlacement gameState.surfaceArray),
            p.rotationIndex = rot ∧ p.x = x ∧ p.tuckNotation = '.' ∧
              readAt atc (TUCK_COL_ENCODED rot x) 0 = p.y) ∧
        ((∀ p ∈ legal.map (toLockPlacement gameState.surfaceArray),
            ¬ (p.rotationIndex = rot ∧ p.x = x)) →
          readAt atc (TUCK_COL_ENCODED rot x) 0 = 0) := by
  unfold tuckColsHanded at h
  obtain ⟨r, hloop, hr⟩ := Option.map_eq_some'.1 h
  obtain ⟨legal, hlegal, hatc⟩ := Option.map_eq_some'.1 hr
  subst hlegal
  refine ⟨legal, hloop, ?_, ?_⟩
  · intro hct lockPlacements
    unfold moveSearchInternal
    dsimp only
    rw [hloop]
    dsimp only
    rw [if_pos hct, getLockPlacementsFast_snd,
      getLockPlacementsFast_fst gameState.surfaceArray legal _ lockPlacements [], hatc]
    cases findTucks T fuel gameState.board spawnState.piece atc
      (T.computeYValueOfEachShift timeline (getGravity gameState.level)
        spawnState.piece.initialY)
      (lockPlacements ++ legal.map (toLockPlacement gameState.surfaceArray)) <;> rfl
  · -- every legal state is in a rotation 0..3 and a column -2..7
    have hcol : ∀ a : SimState, a.piece = spawnState.piece →
        collision T gameState.board a.piece a.x a.y a.rotationIndex = false →
        -2 ≤ a.x ∧ a.x ≤ 7 := by
      intro a hp hfree
      have hb := bounds_of_free T gameState.board a.piece a.x a.y a.rotationIndex hfree
      rw [hp] at hb
      by_contra hcon
      exact hbounds a.rotationIndex a.x (by omega) hb
    have hall : ∀ a ∈ legal, (0 ≤ a.rotationIndex ∧ a.rotationIndex ≤ 3) ∧
        (-2 ≤ a.x ∧ a.x ≤ 7) :=
      rotationLoop_all T fuel gameState.board spawnState spawnState.piece timeline
        (getGravity gameState.level) rfl
        (fun a => (0 ≤ a.rotationIndex ∧ a.rotationIndex ≤ 3) ∧ (-2 ≤ a.x ∧ a.x ≤ 7))
        (fun hfree => ⟨hrot, hcol spawnState rfl hfree⟩)
        (intRange 0 3) [] legal
        (fun g hg a hag hp hfree => ⟨by rw [hag]; exact intRange_mem 0 3 g hg, hcol a hp hfree⟩)
        (by simp) hloop
    intro rot x hr0 hr3 hx0 hx7
    have henc : ∀ a ∈ legal,
        (TUCK_COL_ENCODED a.rotationIndex a.x = TUCK_COL_ENCODED rot x ↔
          a.rotationIndex = rot ∧ a.x = x) := by
      intro a ha
      have := hall a ha
      unfold TUCK_COL_ENCODED
      constructor
      · intro he; constructor <;> omega
      · rintro ⟨h1, h2⟩; rw [h1, h2]
    obtain ⟨hnone, hsome⟩ := getLockPlacementsFast_read gameState.surfaceArray
      (TUCK_COL_ENCODED rot x) legal (List.replicate 40 0) [] (by
        intro a ha
        have := hall a ha
        unfold TUCK_COL_ENCODED
        simp only [List.length_replicate]
        constructor <;> omega)
    rw [hatc] at hnone hsome
    constructor
    · rintro ⟨p, hp, hprot, hpx⟩
      obtain ⟨a, ha, rfl⟩ := List.mem_map.1 hp
      obtain ⟨b, hb, hbenc, hread⟩ := hsome ⟨a, ha, (henc a ha).2 ⟨hprot, hpx⟩⟩
      exact ⟨toLockPlacement gameState.surfaceArray b, List.mem_map_of_mem _ hb,
        ((henc b hb).1 hbenc).1, ((henc b hb).1 hbenc).2, rfl, hread⟩
    · intro hno
      rw [hnone]
      · unfold TUCK_COL_ENCODED
        exact readAt_replicate 40 _ 0
      · intro a ha hae
        exact hno (toLockPlacement gameState.surfaceArray a) (List.mem_map_of_mem _ ha)
          ((henc a ha).1 hae)

theorem exampleTables_boundsO (rot x : Int) (h : x < -2 ∨ 7 < x) :
    exampleTables.X_BOUNDS_COLLISION_TABLE (spawnStateOf pieceO).piece.index rot
      (x + exampleTables.X_BOUNDS_COLLISION_TABLE_OFFSET) ≠ 0 := by
  have hval : exampleTables.X_BOUNDS_COLLISION_TABLE 1 rot (x + 3) =
      if x + 3 - 3 < -1 ∨ x + 3 - 3 > 7 then 1 else 0 := rfl
  show exampleTables.X_BOUNDS_COLLISION_TABLE 1 rot (x + 3) ≠ 0
  rw [hval, if_pos (by omega)]
  decide

set_option maxRecDepth 100000 in
/-- C17 for the O piece on the empty board: the array handed to `findTucks` holds
the floor row 17 for the nine columns of rotation 0 and 0 everywhere else; the entry
of rotation 0 and column 3 is the row of a registered placement. -/
theorem tuck_cols_population_witness :
    tuckColsHanded exampleTables 60 emptyGame (spawnStateOf pieceO) (spawnStateOf pieceO).piece
      ['X', '.', '.', '.'] =
      some (some (0 :: List.replicate 9 17 ++ List.replicate 30 0)) ∧
    ∃ legal : List SimState,
      rotationLoop exampleTables 60 emptyGame.board (spawnStateOf pieceO)
        (spawnStateOf pieceO).piece ['X', '.', '.', '.'] (getGravity emptyGame.level)
        (intRange 0 3) [] = some (some legal) ∧
      ((∃ p ∈ legal.map (toLockPlacement emptyGame.surfaceArray),
          p.rotationIndex = 0 ∧ p.x = 3) →
        ∃ p ∈ legal.map (toLockPlacement emptyGame.surfaceArray),
          p.rotationIndex = 0 ∧ p.x = 3 ∧ p.tuckNotation = '.' ∧
            readAt (0 :: List.replicate 9 17 ++ List.replicate 30 0) (TUCK_COL_ENCODED 0 3) 0 =
              p.y) := by
  have h : tuckColsHanded exampleTables 60 emptyGame (spawnStateOf pieceO)
      (spawnStateOf pieceO).piece ['X', '.', '.', '.'] =
      some (some (0 :: List.replicate 9 17 ++ List.replicate 30 0)) := by decide!
  refine ⟨h, ?_⟩
  obtain ⟨legal, hloop, -, hread⟩ :=
    tuck_cols_population exampleTables 60 emptyGame (spawnStateOf pieceO) ['X', '.', '.', '.']
      _ (by decide) exampleTables_boundsO h
  exact ⟨legal, hloop, (hread 0 3 (by decide) (by decide) (by decide) (by decide)).1⟩

/-! ## The adjustment scenario -/

theorem forEachM_unchanged {α σ : Type} (f : α → σ → Option σ) (l : List α)
    (hf : ∀ a ∈ l, ∀ s, f a s = some s) : ∀ s, forEachM f l s = some s := by
  induction l with
  | nil => intro s; rfl
  | cons a rest ih =>
    intro s
    rw [forEachM, hf a (List.mem_cons_self _ _) s]
    exact ih (fun b hb => hf b (List.mem_cons_of_mem _ hb)) s

/-- On a board without tuck-setup bits `findTucks` adds nothing. -/
theorem findTucks_no_setup_bits (T : Tables) (fuel : Nat) (board : List Nat) (piece : Piece)
    (atc minY : List Int) (lockPlacements : List LockPlacement)
    (hbits : ∀ i ∈ intRange 0 19, readAt board i 0 &&& ALL_TUCK_SETUP_BITS = 0) :
    findTucks T fuel board piece atc minY lockPlacements = some lockPlacements := by
  unfold findTucks
  rw [forEachM_unchanged]
  · rfl
  · intro overhangY hy st
    unfold findTucksRow
    rw [if_pos (hbits overhangY hy)]

/-- The result of `moveSearchInternal` on a board without tuck-setup bits: nothing
on a spawn collision, otherwise the lock placements of the legal list. -/
theorem moveSearchInternal_no_setup_bits (T : Tables) (fuel : Nat) (gameState : GameState)
    (s : SimState) (piece : Piece) (timeline : List Char) (lockPlacements : List LockPlacement)
    (hbits : ∀ i ∈ intRange 0 19, readAt gameState.board i 0 &&& ALL_TUCK_SETUP_BITS = 0)
    (count : Int) (out : List LockPlacement)
    (h : moveSearchInternal T fuel gameState s piece timeline lockPlacements =
      some (count, out)) :
    (rotationLoop T fuel gameState.board s piece timeline (getGravity gameState.level)
        (intRange 0 3) [] = some none ∧ count = 0 ∧ out = lockPlacements) ∨
    ∃ legal, rotationLoop T fuel gameState.board s piece timeline (getGravity gameState.level)
        (intRange 0 3) [] = some (some legal) ∧ count = (out.length : Int) ∧
      out = lockPlacements ++ legal.map (toLockPlacement gameState.surfaceArray) := by
  unfold moveSearchInternal at h
  dsimp only at h
  cases hloop : rotationLoop T fuel gameState.board s piece timeline
      (getGravity gameState.level) (intRange 0 3) [] with
  | none => rw [hloop] at h; exact absurd h (by simp)
  | some r =>
    rw [hloop] at h
    cases r with
    | none =>
      dsimp only at h
      left
      simp only [Option.some.injEq, Prod.mk.injEq] at h
      exact ⟨rfl, h.1.symm, h.2.symm⟩
    | some legal =>
      dsimp only at h
      right
      rw [findTucks_no_setup_bits T fuel gameState.board piece _ _ _ hbits,
        getLockPlacementsFast_snd] at h
      refine ⟨legal, rfl, ?_⟩
      by_cases hct : T.CAN_TUCK = true
      · rw [if_pos hct] at h
        simp only [Option.some.injEq, Prod.mk.injEq] at h
        exact ⟨by rw [← h.1, h.2], h.2.symm⟩
      · rw [if_neg hct] at h
        simp only [Option.some.injEq, Prod.mk.injEq] at h
        exact ⟨by rw [← h.1, h.2], h.2.symm⟩

/-- The exploration near the spawn only appends to the legal list. -/
theorem explorePlacementsNearSpawn_prefix (T : Tables) (board : List Nat) (fuel : Nat)
    (s : SimState) (goal : Int) (timeline : List Char) (gravity : Int)
    (legal legal3 : List SimState)
    (h3 : explorePlacementsNearSpawn T board fuel s goal timeline gravity legal = some legal3) :
    ∃ a3, legal3 = legal ++ a3 := by
  unfold explorePlacementsNearSpawn at h3
  refine forEachM_invariant _ (fun l => ∃ a3, l = legal ++ a3) _ ?_ legal legal3
    ⟨[], by simp⟩ h3
  intro xOffset _ l l1 hinv hstep
  obtain ⟨r, hr, hr2⟩ := Option.map_eq_some'.1 hstep
  obtain ⟨a3, ha3⟩ := hinv
  obtain ⟨a5, ha5, -⟩ := exploreHorizontally_appends_free T board xOffset _ goal
    timeline gravity fuel s 0 l r hr
  exact ⟨a3 ++ a5, by rw [← hr2, ha5, ha3]; simp⟩

/-- The rotation loop only appends to the legal list. -/
theorem rotationLoop_prefix (T : Tables) (fuel : Nat) (board : List Nat) (s : SimState)
    (piece : Piece) (timeline : List Char) (gravity : Int) :
    ∀ (goals : List Int) (legal legal' : List SimState),
      rotationLoop T fuel board s piece timeline gravity goals legal = some (some legal') →
      ∃ added, legal' = legal ++ added := by
  intro goals
  induction goals with
  | nil =>
    intro legal legal' h
    simp only [rotationLoop, Option.some.injEq] at h
    exact ⟨[], by rw [← h]; simp⟩
  | cons g rest ih =>
    intro legal legal' h
    rw [rotationLoop] at h
    split at h
    · exact ih legal legal' h
    · split at h
      · exact absurd h (by simp)
      · dsimp only at h
        cases h1 : exploreHorizontally T board (-1) (-99) g timeline gravity fuel s 0
            (if g = 0 then legal ++ [s] else legal) with
        | none => rw [h1] at h; exact absurd h (by simp)
        | some r1 =>
          rw [h1] at h
          dsimp only at h
          obtain ⟨a1, ha1, -⟩ := exploreHorizontally_appends_free T board (-1) (-99) g timeline
            gravity fuel s 0 _ r1 h1
          cases h2 : exploreHorizontally T board 1 99 g timeline gravity fuel s 0 r1.2 with
          | none => rw [h2] at h; exact absurd h (by simp)
          | some r2 =>
            rw [h2] at h
            dsimp only at h
            obtain ⟨a2, ha2, -⟩ := exploreHorizontally_appends_free T board 1 99 g timeline
              gravity fuel s 0 _ r2 h2
            cases h3 : explorePlacementsNearSpawn T board fuel s g timeline gravity r2.2 with
            | none => rw [h3] at h; exact absurd h (by simp)
            | some legal3 =>
              rw [h3] at h
              dsimp only at h
              obtain ⟨a4, ha4⟩ := ih legal3 legal' h
              obtain ⟨a3, ha3⟩ := explorePlacementsNearSpawn_prefix T board fuel s g timeline
                gravity r2.2 legal3 h3
              by_cases hg : g = 0
              · rw [if_pos hg] at ha1
                exact ⟨[s] ++ a1 ++ a2 ++ a3 ++ a4, by rw [ha4, ha3, ha2, ha1]; simp⟩
              · rw [if_neg hg] at ha1
                exact ⟨a1 ++ a2 ++ a3 ++ a4, by rw [ha4, ha3, ha2, ha1]; simp⟩

/-- When rotation 0 exists and the loop over the four rotations does not return on
a spawn collision, the start state is the first legal state. -/
theorem rotationLoop_head (T : Tables) (fuel : Nat) (board : List Nat) (s : SimState)
    (piece : Piece) (timeline : List Char) (gravity : Int)
    (h0 : readAt (readAt piece.rowsByRotation 0 []) 0 0 ≠ -1) (legal : List SimState)
    (h : rotationLoop T fuel board s piece timeline gravity (intRange 0 3) [] =
      some (some legal)) :
    collision T board piece s.x s.y s.rotationIndex = false ∧ ∃ rest, legal = s :: rest := by
  rw [intRange_zero_three] at h
  have hfree : collision T board piece s.x s.y s.rotationIndex = false := by
    by_contra hc
    have hc' : collision T board piece s.x s.y s.rotationIndex = true := by simpa using hc
    rw [rotationLoop, if_neg h0, if_pos ⟨rfl, hc'⟩] at h
    exact absurd h (by simp)
  refine ⟨hfree, ?_⟩
  rw [rotationLoop, if_neg h0, if_neg (by rw [hfree]; simp)] at h
  dsimp only at h
  cases h1 : exploreHorizontally T board (-1) (-99) 0 timeline gravity fuel s 0
      (if (0 : Int) = 0 then [] ++ [s] else []) with
  | none => rw [h1] at h; exact absurd h (by simp)
  | some r1 =>
    rw [h1] at h
    dsimp only at h
    obtain ⟨a1, ha1, -⟩ := exploreHorizontally_appends_free T board (-1) (-99) 0 timeline
      gravity fuel s 0 _ r1 h1
    cases h2 : exploreHorizontally T board 1 99 0 timeline gravity fuel s 0 r1.2 with
    | none => rw [h2] at h; exact absurd h (by simp)
    | some r2 =>
      rw [h2] at h
      dsimp only at h
      obtain ⟨a2, ha2, -⟩ := exploreHorizontally_appends_free T board 1 99 0 timeline
        gravity fuel s 0 _ r2 h2
      cases h3 : explorePlacementsNearSpawn T board fuel s 0 timeline gravity r2.2 with
      | none => rw [h3] at h; exact absurd h (by simp)
      | some legal3 =>
        rw [h3] at h
        dsimp only at h
        obtain ⟨a4, ha4⟩ := rotationLoop_prefix T fuel board s piece timeline gravity _ _ _ h
        obtain ⟨a3, ha3⟩ := explorePlacementsNearSpawn_prefix T board fuel s 0 timeline
          gravity r2.2 legal3 h3
        rw [if_pos rfl] at ha1
        exact ⟨a1 ++ a2 ++ a3 ++ a4, by rw [ha4, ha3, ha2, ha1]; simp⟩

theorem stairGame_no_setup_bits :
    ∀ i ∈ intRange 0 19, readAt stairGame.board i 0 &&& ALL_TUCK_SETUP_BITS = 0 := by
  decide

/-- What `adjustmentSearch` returns in the scenario, for any tables and piece: the
lock placements of the legal list, or nothing on a spawn collision. -/
theorem adjustmentSearch_stairGame (T : Tables) (piece : Piece) (fuel : Nat) (count : Int)
    (out : List LockPlacement)
    (h : adjustmentSearch T fuel stairGame piece timelineX 3 10 0 20 true [] =
      some (count, out)) :
    count = (out.length : Int) ∧ (∀ p ∈ out, p.tuckNotation = '.') ∧
    (readAt (readAt piece.rowsByRotation 0 []) 0 0 ≠ -1 →
      (out ≠ [] ↔ collision T stairGame.board piece 6 (piece.initialY + 10) 0 = false)) := by
  unfold adjustmentSearch at h
  dsimp only at h
  rcases moveSearchInternal_no_setup_bits T fuel stairGame _ piece timelineX []
    stairGame_no_setup_bits count out h with ⟨hloop, hc, hout⟩ | ⟨legal, hloop, hc, hout⟩
  · refine ⟨by rw [hc, hout]; rfl, by rw [hout]; simp, ?_⟩
    intro _
    have hcol := rotationLoop_none T fuel stairGame.board _ piece timelineX _ _ _ hloop
    have hcol' : collision T stairGame.board piece 6 (piece.initialY + 10) 0 = true := hcol
    rw [hout, hcol']
    simp
  · refine ⟨hc, ?_, ?_⟩
    · intro p hp
      rw [hout] at hp
      simp only [List.nil_append, List.mem_map] at hp
      obtain ⟨a, -, rfl⟩ := hp
      rfl
    · intro h0
      obtain ⟨hfree, rest, hrest⟩ :=
        rotationLoop_head T fuel stairGame.board _ piece timelineX _ h0 legal hloop
      have hfree' : collision T stairGame.board piece 6 (piece.initialY + 10) 0 = false := hfree
      rw [hout, hrest, hfree']
      simp

/-- C18 as stated fails: the rows of the scenario board carry no tuck-setup
bit (they are below 1024), so `findTucks` looks at no cell and no returned
placement is a tuck, whatever the tables and the piece are. -/
theorem adjustment_scenario_no_tuck :
    ¬ ∃ (T : Tables) (piece : Piece) (fuel : Nat) (count : Int) (out : List LockPlacement),
      adjustmentSearch T fuel stairGame piece timelineX 3 10 0 20 true [] = some (count, out) ∧
      ∃ p ∈ out, p.tuckNotation ≠ '.' := by
  rintro ⟨T, piece, fuel, count, out, h, p, hp, hne⟩
  exact hne ((adjustmentSearch_stairGame T piece fuel count out h).2.1 p hp)

/-- C18 (scenario S2), amended. On the board of the scenario, whose surface array is the one
`getSurfaceArray` computes, `adjustmentSearch` with the offsets 3 and 10, 20 elapsed
frames, a reset ARR and the timeline `X...` returns for all large enough fuel; the
returned count is the length of the list; for a piece with a rotation 0 the list
is not empty exactly when the start pose, column 6 and row `initialY + 10`, is free;
and every placement in it has the notation `.`: none is a tuck. -/
theorem adjustment_scenario (T : Tables) (piece : Piece) (fuel : Nat) (count : Int)
    (out : List LockPlacement)
    (h : adjustmentSearch T fuel stairGame piece timelineX 3 10 0 20 true [] =
      some (count, out)) :
    stairGame.surfaceArray = getSurfaceArray stairGame.board ∧
    count = (out.length : Int) ∧ (∀ p ∈ out, p.tuckNotation = '.') ∧
    (readAt (readAt piece.rowsByRotation 0 []) 0 0 ≠ -1 →
      (out ≠ [] ↔ collision T stairGame.board piece 6 (piece.initialY + 10) 0 = false)) ∧
    ∃ N : Nat, ∀ fuel2, N ≤ fuel2 →
      ∃ r, adjustmentSearch T fuel2 stairGame piece timelineX 3 10 0 20 true [] = some r := by
  refine ⟨by decide, (adjustmentSearch_stairGame T piece fuel count out h).1,
    (adjustmentSearch_stairGame T piece fuel count out h).2.1,
    (adjustmentSearch_stairGame T piece fuel count out h).2.2, ?_⟩
  obtain ⟨N, hN⟩ := moveSearchInternal_terminates T
    { x := INITIAL_X + 3, y := piece.initialY + 10, rotationIndex := 0, frameIndex := 0,
      arrIndex := 0, piece := piece } piece rfl (le_refl _)
  exact ⟨N, fun fuel2 hfuel => hN stairGame timelineX fuel2 hfuel []⟩

set_option maxRecDepth 100000 in
/-- C18 for the T piece: the search returns 21 placements, none of them a tuck. -/
theorem adjustment_scenario_witness :
    adjustmentSearch exampleTables 60 stairGame pieceT timelineX 3 10 0 20 true [] =
      some (21, [placementT 6 16 0, placementT 5 14 0, placementT 4 13 0, placementT 3 13 0,
        placementT 2 13 0, placementT 5 14 1, placementT 4 13 1, placementT 3 13 1,
        placementT 2 13 1, placementT 6 16 1, placementT 4 14 2, placementT 3 14 2,
        placementT 2 14 2, placementT 1 14 2, placementT 5 14 2, placementT 6 16 2,
        placementT 5 15 3, placementT 4 13 3, placementT 3 13 3, placementT 2 13 3,
        placementT 6 16 3]) ∧
    ∀ p ∈ [placementT 6 16 0, placementT 5 14 0, placementT 4 13 0, placementT 3 13 0,
        placementT 2 13 0, placementT 5 14 1, placementT 4 13 1, placementT 3 13 1,
        placementT 2 13 1, placementT 6 16 1, placementT 4 14 2, placementT 3 14 2,
        placementT 2 14 2, placementT 1 14 2, placementT 5 14 2, placementT 6 16 2,
        placementT 5 15 3, placementT 4 13 3, placementT 3 13 3, placementT 2 13 3,
        placementT 6 16 3], p.tuckNotation = '.' :=
  ⟨by decide!,
    (adjustment_scenario exampleTables pieceT 60 21 _ (by decide!)).2.2.1⟩

/-- C20 (registered states are non-colliding). Every state that `exploreHorizontally` appends to the legal list is free of
collision at its recorded pose and is in the goal rotation, whatever the increment,
the bound and the start state; with the spawn check, every state of the legal list
of `moveSearchInternal` (the list its rotation loop builds from the empty list) is
free of collision; and for a gravity of at least 1 and a frame index that is not
negative the exploration returns once the fuel is large enough. -/
theorem registered_states_free (T : Tables) (board : List Nat) (inc bound goal : Int)
    (timeline : List Char) (gravity : Int) (fuel : Nat) (s : SimState) (range : Int)
    (legal : List SimState) (res : Int × List SimState)
    (h : exploreHorizontally T board inc bound goal timeline gravity fuel s range legal =
      some res) :
    (∃ added, res.2 = legal ++ added ∧
      ∀ a ∈ added, collision T board a.piece a.x a.y a.rotationIndex = false ∧
        a.rotationIndex = goal) ∧
    (∀ (fuel2 : Nat) (spawnState : SimState) (legal2 : List SimState),
      rotationLoop T fuel2 board spawnState spawnState.piece timeline gravity (intRange 0 3) [] =
        some (some legal2) →
      ∀ a ∈ legal2, collision T board a.piece a.x a.y a.rotationIndex = false) ∧
    (1 ≤ gravity → 0 ≤ s.frameIndex →
      ∃ N : Nat, ∀ fuel2, N ≤ fuel2 → ∃ r,
        exploreHorizontally T board inc bound goal timeline gravity fuel2 s range legal =
          some r) := by
  refine ⟨?_, ?_, ?_⟩
  · obtain ⟨added, hadd, hall⟩ :=
      exploreHorizontally_appends_free T board inc bound goal timeline gravity fuel s range legal
        res h
    exact ⟨added, hadd, fun a ha => ⟨(hall a ha).1, (hall a ha).2.1⟩⟩
  · intro fuel2 spawnState legal2 hloop a ha
    exact rotationLoop_all T fuel2 board spawnState spawnState.piece timeline gravity rfl
      (fun a => collision T board a.piece a.x a.y a.rotationIndex = false) (fun hc => hc)
      (intRange 0 3) [] legal2 (fun _ _ a _ _ hc => hc) (by simp) hloop a ha
  · intro hg hf
    refine ⟨framesLeft (s.piece.maxYByRotation.foldl max 0) gravity s + 1, ?_⟩
    intro fuel2 hfuel
    exact exploreHorizontally_terminates T board inc bound goal timeline gravity hg
      (s.piece.maxYByRotation.foldl max 0) s.piece (fun r => readAt_le_bound _ r) fuel2 s range
      legal rfl hf (by omega)

set_option maxRecDepth 100000 in
/-- C20 for the T piece on the board of the adjustment test, explored to the right
towards rotation 1: four states are appended, in the columns 4 to 7, each in
rotation 1 and free of collision. -/
theorem registered_states_free_witness :
    exploreHorizontally exampleTables stairGame.board 1 99 1 ['X', '.', '.', '.'] 3 60
      (spawnStateOf pieceT) 0 [] =
      some (7, [stateT 4 (-1) 1, stateT 5 0 5, stateT 6 2 9, stateT 7 3 13]) ∧
    ∀ a ∈ [stateT 4 (-1) 1, stateT 5 0 5, stateT 6 2 9, stateT 7 3 13],
      collision exampleTables stairGame.board a.piece a.x a.y a.rotationIndex = false ∧
        a.rotationIndex = 1 := by
  have h : exploreHorizontally exampleTables stairGame.board 1 99 1 ['X', '.', '.', '.'] 3 60
      (spawnStateOf pieceT) 0 [] =
      some (7, [stateT 4 (-1) 1, stateT 5 0 5, stateT 6 2 9, stateT 7 3 13]) := by decide!
  refine ⟨h, ?_⟩
  obtain ⟨added, hadd, hall⟩ :=
    (registered_states_free exampleTables stairGame.board 1 99 1 ['X', '.', '.', '.'] 3 60
      (spawnStateOf pieceT) 0 [] _ h).1
  simp only [List.nil_append] at hadd
  rw [← hadd] at hall
  exact hall

/-! ## Termination of the horizontal exploration -/

/-- More fuel does not change a result of `exploreHorizontally`. -/
theorem exploreHorizontally_fuel_mono (T : Tables) (board : List Nat) (inc bound goal : Int)
    (timeline : List Char) (gravity : Int) :
    ∀ (fuel fuel2 : Nat) (s : SimState) (range : Int) (legal : List SimState)
      (res : Int × List SimState), fuel ≤ fuel2 →
      exploreHorizontally T board inc bound goal timeline gravity fuel s range legal = some res →
      exploreHorizontally T board inc bound goal timeline gravity fuel2 s range legal =
        some res := by
  intro fuel
  induction fuel with
  | zero =>
    intro fuel2 s range legal res _ h
    rw [exploreHorizontally] at h
    by_cases hexit : s.x = bound ∧ s.rotationIndex = goal
    · rw [if_pos hexit] at h
      cases fuel2 <;> rw [exploreHorizontally, if_pos hexit] <;> exact h
    · rw [if_neg hexit] at h
      exact absurd h (by simp)
  | succ fuel ih =>
    intro fuel2 s range legal res hle h
    obtain ⟨f2, rfl⟩ : ∃ f2, fuel2 = f2 + 1 := ⟨fuel2 - 1, by omega⟩
    rw [exploreHorizontally] at h
    rw [exploreHorizontally]
    by_cases hexit : s.x = bound ∧ s.rotationIndex = goal
    · rw [if_pos hexit] at h ⊢
      exact h
    · rw [if_neg hexit] at h ⊢
      dsimp only at h ⊢
      cases hfr : exploreFrame T board inc bound goal timeline gravity s with
      | none =>
        rw [hfr] at h
        exact h
      | some r =>
        obtain ⟨s3, fn, dl⟩ := r
        rw [hfr] at h
        dsimp only at h ⊢
        cases dl with
        | true => exact h
        | false =>
          simp only [Bool.false_eq_true, if_false] at h ⊢
          exact ih f2 s3 _ _ res (by omega) h

/-- C21 (termination of the horizontal exploration). For a gravity of at least 1 (the
values 1, 2 and 3 of `getGravity`) and a start state whose frame index is not
negative, whatever the board, the increment, the bound, the goal rotation, the
rotation of the start state and the timeline, the frame loop of `exploreHorizontally`
returns, with one and the same result for every fuel above
`(M - y) * gravity + gravity`, where `M` is the largest entry of `maxYByRotation`;
no appended state lies below the largest row of its rotation. -/
theorem exploration_terminates (T : Tables) (board : List Nat) (inc bound goal : Int)
    (timeline : List Char) (gravity : Int) (s : SimState) (range : Int)
    (legal : List SimState) (hg : 1 ≤ gravity) (hf : 0 ≤ s.frameIndex) :
    ∃ res : Int × List SimState,
      (∀ fuel : Nat,
        (s.piece.maxYByRotation.foldl max 0 - s.y).toNat * gravity.toNat + gravity.toNat ≤ fuel →
        exploreHorizontally T board inc bound goal timeline gravity fuel s range legal =
          some res) ∧
      ∃ added, res.2 = legal ++ added ∧
        ∀ a ∈ added, a.y ≤ readAt a.piece.maxYByRotation a.rotationIndex 0 := by
  have hbound : framesLeft (s.piece.maxYByRotation.foldl max 0) gravity s <
      (s.piece.maxYByRotation.foldl max 0 - s.y).toNat * gravity.toNat + gravity.toNat := by
    unfold framesLeft
    omega
  obtain ⟨res, hres⟩ := exploreHorizontally_terminates T board inc bound goal timeline gravity
    hg (s.piece.maxYByRotation.foldl max 0) s.piece (fun r => readAt_le_bound _ r)
    ((s.piece.maxYByRotation.foldl max 0 - s.y).toNat * gravity.toNat + gravity.toNat)
    s range legal rfl hf hbound
  refine ⟨res, ?_, ?_⟩
  · intro fuel hfuel
    exact exploreHorizontally_fuel_mono T board inc bound goal timeline gravity _ fuel s range
      legal res hfuel hres
  · obtain ⟨added, hadd, hall⟩ :=
      exploreHorizontally_appends_free T board inc bound goal timeline gravity _ s range legal
        res hres
    refine ⟨added, hadd, ?_⟩
    intro a ha
    by_contra hcon
    have := collision_of_maxY_lt T board a.piece a.x a.y a.rotationIndex (by omega)
    rw [(hall a ha).1] at this
    exact absurd this (by simp)

set_option maxRecDepth 100000 in
/-- C21 for the T piece on the board of the adjustment test, explored to the right
towards rotation 1 at gravity 3: the loop returns the range 7 for every fuel from 60
on. -/
theorem exploration_terminates_witness :
    (1 : Int) ≤ 3 ∧ 0 ≤ (spawnStateOf pieceT).frameIndex ∧
    ∀ fuel : Nat, 60 ≤ fuel →
      exploreHorizontally exampleTables stairGame.board 1 99 1 ['X', '.', '.', '.'] 3 fuel
        (spawnStateOf pieceT) 0 [] =
        some (7, [stateT 4 (-1) 1, stateT 5 0 5, stateT 6 2 9, stateT 7 3 13]) := by
  refine ⟨by decide, by decide, ?_⟩
  obtain ⟨res, hres, -⟩ := exploration_terminates exampleTables stairGame.board 1 99 1
    ['X', '.', '.', '.'] 3 (spawnStateOf pieceT) 0 [] (by decide) (by decide)
  have h60 := hres 60 (by decide)
  have hval : exploreHorizontally exampleTables stairGame.board 1 99 1 ['X', '.', '.', '.'] 3 60
      (spawnStateOf pieceT) 0 [] =
      some (7, [stateT 4 (-1) 1, stateT 5 0 5, stateT 6 2 9, stateT 7 3 13]) := by decide!
  rw [hval] at h60
  intro fuel hfuel
  rw [h60]
  exact hres fuel (le_trans (by decide) hfuel)

/-! ## The deduplication of tucks -/

/-- One origin spot either leaves the state of `findTucks` as it is or emits one
placement whose hash was not in the set, and puts the hash into the set. -/
theorem findTucksSpot_dedup (T : Tables) (fuel : Nat) (board : List Nat) (piece : Piece)
    (atc minY : List Int) (overhangX overhangY : Int) (spot : TuckOriginSpot)
    (st st1 : List LockPlacement × List Int)
    (h : findTucksSpot T fuel board piece atc minY overhangX overhangY spot st = some st1) :
    st1 = st ∨ ∃ p : LockPlacement,
      st1 = (st.1 ++ [p], lockPositionHash p.x p.y p.rotationIndex :: st.2) ∧
      lockPositionHash p.x p.y p.rotationIndex ∉ st.2 ∧
      p.tuckNotation ≠ NO_TUCK_NOTATION := by
  unfold findTucksSpot at h
  by_cases hc : collision T board piece (overhangX - spot.x) (overhangY - spot.y)
      spot.orientation = true
  · simp [hc] at h; left; rw [← h]
  · simp only [hc] at h
    cases hd : dropToLock T board piece (overhangX - spot.x) spot.orientation fuel
        (overhangY - spot.y) with
    | none => simp [hd] at h
    | some ly =>
      simp only [hd] at h
      by_cases hmem : ly * 1000 + (overhangX - spot.x) * 10 + spot.orientation ∈ st.2
      · rw [if_pos hmem] at h
        cases h; left; rfl
      · rw [if_neg hmem] at h
        by_cases hn : findTuckInput T board
            { x := overhangX - spot.x, y := overhangY - spot.y,
              rotationIndex := spot.orientation, frameIndex := -1, arrIndex := -1,
              piece := piece } atc minY ≠ NO_TUCK_NOTATION
        · rw [if_pos hn] at h
          cases h
          right
          exact ⟨_, rfl, hmem, hn⟩
        · rw [if_neg hn] at h
          cases h; left; rfl

/-- `findTucks` appends tucks no two of which have the same hash. -/
theorem findTucks_dedup (T : Tables) (fuel : Nat) (board : List Nat) (piece : Piece)
    (atc minY : List Int) (lockPlacements out : List LockPlacement)
    (h : findTucks T fuel board piece atc minY lockPlacements = some out) :
    ∃ added, out = lockPlacements ++ added ∧
      (∀ p ∈ added, p.tuckNotation ≠ NO_TUCK_NOTATION) ∧
      added.Pairwise fun p q =>
        lockPositionHash p.x p.y p.rotationIndex ≠
          lockPositionHash q.x q.y q.rotationIndex := by
  unfold findTucks at h
  obtain ⟨st, hst, hout⟩ := Option.map_eq_some'.1 h
  have hinv : DedupInv lockPlacements st := by
    refine forEachM_invariant _ (DedupInv lockPlacements) (intRange 0 19) ?_
      (lockPlacements, []) st ⟨[], by simp, by simp, List.Pairwise.nil⟩ hst
    intro overhangY _ s s1 hs hrow
    unfold findTucksRow at hrow
    split at hrow
    · cases hrow; exact hs
    · refine forEachM_invariant _ (DedupInv lockPlacements) (intRange 0 9) ?_ s s1 hs hrow
      intro overhangX _ s2 s3 hs2 hcell
      unfold findTucksCell at hcell
      split at hcell
      · refine forEachM_invariant _ (DedupInv lockPlacements)
          (T.TUCK_SPOTS_LIST piece.index) ?_ s2 s3 hs2 hcell
        intro spot _ s4 s5 hs4 hsp
        obtain ⟨added, hadd, hall, hpw⟩ := hs4
        rcases findTucksSpot_dedup T fuel board piece atc minY overhangX overhangY spot
          s4 s5 hsp with heq | ⟨p, hp, hnew, hnot⟩
        · rw [heq]; exact ⟨added, hadd, hall, hpw⟩
        · rw [hp]
          refine ⟨added ++ [p], by simp [hadd], ?_, ?_⟩
          · intro q hq
            rcases List.mem_append.1 hq with hq | hq
            · exact ⟨List.mem_cons_of_mem _ (hall q hq).1, (hall q hq).2⟩
            · simp only [List.mem_singleton] at hq
              rw [hq]
              exact ⟨List.mem_cons_self _ _, hnot⟩
          · rw [List.pairwise_append]
            refine ⟨hpw, List.pairwise_singleton _ _, ?_⟩
            intro q hq r hr
            simp only [List.mem_singleton] at hr
            rw [hr]
            intro heq
            exact hnew (heq ▸ (hall q hq).1)
      · cases hcell; exact hs2
  obtain ⟨added, hadd, hall, hpw⟩ := hinv
  exact ⟨added, by rw [← hout, hadd], fun p hp => (hall p hp).2, hpw⟩

/-- C22 (tuck dedup). The hash `lockY*1000 + x*10 + orientation` is injective on the
columns -2..7, the orientations 0..3 and the rows -3..19; and whenever `findTucks`
returns, the tucks it has appended all have a notation other than `.` and no two
of them have the same hash, hence no two have the same `(x, y, rotationIndex)`. It
returns once the fuel exceeds the rows a tuck can fall. -/
theorem tuck_dedup (T : Tables) (fuel : Nat) (board : List Nat) (piece : Piece)
    (atc minY : List Int) (lockPlacements out : List LockPlacement)
    (h : findTucks T fuel board piece atc minY lockPlacements = some out) :
    (∀ x y o x2 y2 o2 : Int, -2 ≤ x ∧ x ≤ 7 → 0 ≤ o ∧ o ≤ 3 → -3 ≤ y ∧ y ≤ 19 →
      -2 ≤ x2 ∧ x2 ≤ 7 → 0 ≤ o2 ∧ o2 ≤ 3 → -3 ≤ y2 ∧ y2 ≤ 19 →
      lockPositionHash x y o = lockPositionHash x2 y2 o2 → x = x2 ∧ y = y2 ∧ o = o2) ∧
    (∃ added, out = lockPlacements ++ added ∧
      (∀ p ∈ added, p.tuckNotation ≠ '.') ∧
      (added.Pairwise fun p q =>
        lockPositionHash p.x p.y p.rotationIndex ≠
          lockPositionHash q.x q.y q.rotationIndex) ∧
      added.Pairwise fun p q =>
        ¬ (p.x = q.x ∧ p.y = q.y ∧ p.rotationIndex = q.rotationIndex)) ∧
    ∃ N : Nat, ∀ fuel2, N ≤ fuel2 →
      ∃ r, findTucks T fuel2 board piece atc minY lockPlacements = some r := by
  refine ⟨?_, ?_, ?_⟩
  · intro x y o x2 y2 o2 hx ho hy hx2 ho2 hy2 he
    unfold lockPositionHash at he
    refine ⟨?_, ?_, ?_⟩ <;> omega
  · obtain ⟨added, hadd, hall, hpw⟩ :=
      findTucks_dedup T fuel board piece atc minY lockPlacements out h
    refine ⟨added, hadd, hall, hpw, hpw.imp ?_⟩
    intro p q hne heq
    apply hne
    rw [heq.1, heq.2.1, heq.2.2]
  · obtain ⟨N, hN⟩ := exists_nat_bound (T.TUCK_SPOTS_LIST piece.index)
      (fun spot => (readAt piece.maxYByRotation spot.orientation 0 + spot.y).toNat)
    refine ⟨N, fun fuel2 hfuel => ?_⟩
    exact findTucks_terminates T board piece fuel2
      (fun spot hspot => le_trans (hN spot hspot) hfuel) atc minY lockPlacements

set_option maxRecDepth 100000 in
/-- C22 for the T piece on a board with three overhang cells: the cells of row 18
give the tucks in the columns 3 and 4; the cell of row 19 leads to the lock position
of the first tuck again and is dropped. -/
theorem tuck_dedup_witness :
    findTucks exampleTables 30 overhangBoard pieceT (List.replicate 40 17)
      (List.replicate 7 (-1)) [] = some [tuckPlacementT 3 18 2, tuckPlacementT 4 18 2] ∧
    ∃ added, [tuckPlacementT 3 18 2, tuckPlacementT 4 18 2] = [] ++ added ∧
      (∀ p ∈ added, p.tuckNotation ≠ '.') ∧
      (added.Pairwise fun p q =>
        lockPositionHash p.x p.y p.rotationIndex ≠
          lockPositionHash q.x q.y q.rotationIndex) ∧
      added.Pairwise fun p q =>
        ¬ (p.x = q.x ∧ p.y = q.y ∧ p.rotationIndex = q.rotationIndex) :=
  ⟨by decide!,
    (tuck_dedup exampleTables 30 overhangBoard pieceT (List.replicate 40 17)
      (List.replicate 7 (-1)) [] _ (by decide!)).2.1⟩

/-! ## The lock row and the row of the state -/

/-- C23 as stated fails: `rowsToShift` starts at 99999, so a state that is more than
99999 rows above its columns is shifted by 99999 rows only. The O piece in column 3
and row -100000 over the empty board gets the lock row -1, not the minimum 17 over
its columns, and not the lock row 17 of the same state in row -1. -/
theorem lock_row_capped :
    lockRow emptyGame.surfaceArray (stateO 3 (-100000) 0) = -1 ∧
    lockRow emptyGame.surfaceArray (stateO 3 (-1) 0) = 17 ∧
    20 - bottomOf pieceO 0 1 - readAt emptyGame.surfaceArray (3 + 1) 0 = 17 ∧
    20 - bottomOf pieceO 0 2 - readAt emptyGame.surfaceArray (3 + 2) 0 = 17 := by
  decide

/-- The lock row of a state that is at most 99999 rows above one of its columns: the
minimum over the occupied columns. -/
theorem lockRow_min (surf : List Int) (a : SimState)
    (hcap : ∃ c : Nat, c < 4 ∧ bottomOf a.piece a.rotationIndex c ≠ -1 ∧
      20 - bottomOf a.piece a.rotationIndex c - a.y - readAt surf (a.x + c) 0 ≤ 99999) :
    (∀ c : Nat, c < 4 → bottomOf a.piece a.rotationIndex c ≠ -1 →
      lockRow surf a ≤ 20 - bottomOf a.piece a.rotationIndex c - readAt surf (a.x + c) 0) ∧
    ∃ c : Nat, c < 4 ∧ bottomOf a.piece a.rotationIndex c ≠ -1 ∧
      lockRow surf a = 20 - bottomOf a.piece a.rotationIndex c - readAt surf (a.x + c) 0 := by
  obtain ⟨i1, i2, i3⟩ := rowsToShiftLoop_spec
    (readAt a.piece.bottomSurfaceByRotation a.rotationIndex []) surf a (intRange 0 3) 99999
  have hmem : ∀ c : Nat, c < 4 → (c : Int) ∈ intRange 0 3 :=
    fun c hc => mem_intRange 0 3 c (by omega) (by omega)
  unfold lockRow
  refine ⟨?_, ?_⟩
  · intro c hc hne
    have := i2 (c : Int) (hmem c hc) hne
    unfold bottomOf
    omega
  · rcases i3 with i3 | ⟨c, hc, hne, heq⟩
    · obtain ⟨c, hc, hne, hle⟩ := hcap
      have h2 := i2 (c : Int) (hmem c hc) hne
      unfold bottomOf at hne hle
      refine ⟨c, hc, hne, ?_⟩
      unfold bottomOf
      omega
    · obtain ⟨h0, h3⟩ := intRange_mem 0 3 c hc
      refine ⟨c.toNat, by omega, ?_, ?_⟩
      · unfold bottomOf
        rw [Int.toNat_of_nonneg h0]
        exact hne
      · unfold bottomOf
        rw [Int.toNat_of_nonneg h0]
        omega

/-- C23 (lock row ignores the in-flight row), amended. For a state that occupies a
column and is at most 99999 rows above it, the row that `getLockPlacementsFast`
writes into the lock placement and into `availableTuckCols` is the minimum over the
occupied columns `c` of `20 - bottomSurface[c] - surfaceArray[x + c]`; a second such
state of the same piece in the same rotation and column, whatever its row and its
frame index, gets the same lock placement. -/
theorem lock_row_ignores_row (surf : List Int) (a b : SimState) (atc : List Int)
    (lockPlacements : List LockPlacement)
    (hcap : ∃ c : Nat, c < 4 ∧ bottomOf a.piece a.rotationIndex c ≠ -1 ∧
      20 - bottomOf a.piece a.rotationIndex c - a.y - readAt surf (a.x + c) 0 ≤ 99999) :
    getLockPlacementsFast surf [a] atc lockPlacements =
      (writeAt atc (TUCK_COL_ENCODED a.rotationIndex a.x) (lockRow surf a),
        lockPlacements ++ [toLockPlacement surf a]) ∧
    (toLockPlacement surf a).y = lockRow surf a ∧
    (∀ c : Nat, c < 4 → bottomOf a.piece a.rotationIndex c ≠ -1 →
      lockRow surf a ≤ 20 - bottomOf a.piece a.rotationIndex c - readAt surf (a.x + c) 0) ∧
    (∃ c : Nat, c < 4 ∧ bottomOf a.piece a.rotationIndex c ≠ -1 ∧
      lockRow surf a = 20 - bottomOf a.piece a.rotationIndex c - readAt surf (a.x + c) 0) ∧
    (b.piece = a.piece → b.rotationIndex = a.rotationIndex → b.x = a.x →
      (∃ c : Nat, c < 4 ∧ bottomOf b.piece b.rotationIndex c ≠ -1 ∧
        20 - bottomOf b.piece b.rotationIndex c - b.y - readAt surf (b.x + c) 0 ≤ 99999) →
      lockRow surf b = lockRow surf a ∧ toLockPlacement surf b = toLockPlacement surf a) := by
  obtain ⟨hle, c, hc, hne, heq⟩ := lockRow_min surf a hcap
  refine ⟨rfl, rfl, hle, ⟨c, hc, hne, heq⟩, ?_⟩
  intro hp hr hx hcapb
  obtain ⟨hleb, cb, hcb, hneb, heqb⟩ := lockRow_min surf b hcapb
  rw [hp, hr] at hleb hneb heqb
  rw [hx] at hleb heqb
  have h1 := hle cb hcb hneb
  have h2 := hleb c hc hne
  have hrow : lockRow surf b = lockRow surf a := by omega
  refine ⟨hrow, ?_⟩
  unfold toLockPlacement
  rw [hrow, hp, hr, hx]

/-- C23 for the O piece over the empty board: in column 3 the states in row -1 at
frame 0 and in row 5 at frame 20 both get the lock row 17. -/
theorem lock_row_ignores_row_witness :
    lockRow emptyGame.surfaceArray (stateO 3 (-1) 0) = 17 ∧
    lockRow emptyGame.surfaceArray (stateO 3 5 20) =
      lockRow emptyGame.surfaceArray (stateO 3 (-1) 0) :=
  ⟨by decide,
    ((lock_row_ignores_row emptyGame.surfaceArray (stateO 3 (-1) 0) (stateO 3 5 20) [] []
      ⟨1, by decide, by decide, by decide⟩).2.2.2.2 rfl rfl rfl
      ⟨1, by decide, by decide, by decide⟩).1⟩

/-! ## The indices of `findTuckInput` -/

/-- The two array reads of `findTuckInput` use the indices `minYIndex` and
`tuckColIndex`. -/
theorem tuckInputPasses_indices (T : Tables) (board : List Nat) (s : SimState)
    (atc minY : List Int) (t : TuckInput) :
    tuckInputPasses T board s atc minY t =
      (if s.y < readAt minY (minYIndex s t) 0 ∨ s.y > readAt atc (tuckColIndex s t) 0 then false
      else if collision T board s.piece s.x s.y (preTuckRotIndex s.piece s.rotationIndex t) then
        false
      else if collision T board s.piece (s.x - t.xChange) s.y
          (preTuckRotIndex s.piece s.rotationIndex t) then false
      else true) := rfl

/-- The rotation before the tuck is a rotation index when the rotation after it
is one. -/
theorem preTuckRotIndex_range (piece : Piece) (rot : Int) (t : TuckInput)
    (h0 : 0 ≤ rot) (h3 : rot ≤ 3) :
    0 ≤ preTuckRotIndex piece rot t ∧ preTuckRotIndex piece rot t ≤ 3 := by
  unfold preTuckRotIndex numOrientations
  by_cases hid : piece.id = 'O'
  · simp only [hid, ne_eq, not_true_eq_false, if_false]
    exact ⟨h0, h3⟩
  · by_cases hr : readAt (readAt piece.rowsByRotation 3 []) 0 0 = -1
    · simp only [hid, hr, if_false, if_true, ne_eq, not_false_eq_true]
      rw [if_neg (by decide), land_one]
      omega
    · simp only [hid, hr, if_false, ne_eq, not_false_eq_true, if_true]
      rw [land_three]
      omega

/-- C24 (index safety of `findTuckInput`) at the failing inputs. For the T piece
after a tuck in column -2 and rotation 3, the input `R` (one shift to the right,
`preTuckX = -3`) gives `numInputs + 1 = 7`, past the 7 entries 0..6 of
`minTuckYValsByNumPrevInputs`, and the index 29 on `availableTuckCols`, which is the
entry of rotation 2 and column 7; in rotation 0 the same input gives the index -1;
in column 7 and rotation 3 the input `L` (`preTuckX = 8`) gives the index 40, past
the 40 entries. Whenever `preTuckX` is in -2..7 the two indices are in 1..6 and
0..39, and the second one stands for the pair `(preTuckRot, preTuckX)` only. -/
theorem findTuckInput_index_out_of_range :
    minYIndex (tuckState pieceT (-2) 5 3) tuckInputR = 7 ∧
    tuckColIndex (tuckState pieceT (-2) 5 3) tuckInputR = 29 ∧
    TUCK_COL_ENCODED 2 7 = 29 ∧
    tuckColIndex (tuckState pieceT (-2) 5 0) tuckInputR = -1 ∧
    tuckColIndex (tuckState pieceT 7 5 3) tuckInputL = 40 ∧
    (∀ (s : SimState) (t : TuckInput), 0 ≤ s.rotationIndex → s.rotationIndex ≤ 3 →
      -2 ≤ s.x - t.xChange → s.x - t.xChange ≤ 7 →
      (1 ≤ minYIndex s t ∧ minYIndex s t ≤ 6) ∧
      (0 ≤ tuckColIndex s t ∧ tuckColIndex s t ≤ 39) ∧
      ∀ rot x : Int, 0 ≤ rot → rot ≤ 3 → -2 ≤ x → x ≤ 7 →
        TUCK_COL_ENCODED rot x = tuckColIndex s t →
        rot = preTuckRotIndex s.piece s.rotationIndex t ∧ x = s.x - t.xChange) := by
  refine ⟨by decide, by decide, by decide, by decide, by decide, ?_⟩
  intro s t h0 h3 hx0 hx7
  obtain ⟨hr0, hr3⟩ := preTuckRotIndex_range s.piece s.rotationIndex t h0 h3
  unfold minYIndex tuckColIndex TUCK_COL_ENCODED SPAWN_X
  dsimp only
  refine ⟨?_, ?_, ?_⟩
  · have habs : |s.x - t.xChange - 3| ≤ 5 := abs_le.2 ⟨by omega, by omega⟩
    have habs0 : 0 ≤ |s.x - t.xChange - 3| := abs_nonneg _
    split
    · constructor
      · have := le_max_left (1 : Int) |s.x - t.xChange - 3|
        omega
      · have := max_le (show (1 : Int) ≤ 5 by decide) habs
        omega
    · rename_i hne
      constructor
      · have := le_max_right (preTuckRotIndex s.piece s.rotationIndex t)
          |s.x - t.xChange - 3|
        omega
      · have := max_le (show preTuckRotIndex s.piece s.rotationIndex t ≤ 5 by omega) habs
        omega
  · constructor <;> omega
  · intro rot x hrot0 hrot3 hx0' hx7' he
    constructor <;> omega

/-! ## The search does not read `arrIndex` -/

theorem inputPhase_withArrIndex (T : Tables) (board : List Nat) (k : Int) (s : SimState)
    (inc bound goal : Int) :
    inputPhase T board (withArrIndex k s) inc bound goal =
      (inputPhase T board s inc bound goal).map (withArrIndex k) := by
  unfold inputPhase withArrIndex
  dsimp only
  split
  · rfl
  · split
    · split
      · split
        · rfl
        · rfl
      · rfl
    · split
      · split
        · rfl
        · rfl
      · rfl

theorem exploreFrame_withArrIndex (T : Tables) (board : List Nat) (k : Int)
    (inc bound goal : Int) (timeline : List Char) (gravity : Int) (s : SimState) :
    exploreFrame T board inc bound goal timeline gravity (withArrIndex k s) =
      (exploreFrame T board inc bound goal timeline gravity s).map
        fun r => (withArrIndex k r.1, r.2.1, r.2.2) := by
  rw [exploreFrame_eq, exploreFrame_eq]
  have hf : (withArrIndex k s).frameIndex = s.frameIndex := rfl
  rw [hf]
  by_cases hin : shouldPerformInputsThisFrame s.frameIndex timeline = true
  · rw [if_pos hin, if_pos hin, inputPhase_withArrIndex]
    cases inputPhase T board s inc bound goal with
    | none => rfl
    | some s1 =>
      simp only [Option.map_some']
      unfold afterGravity withArrIndex
      dsimp only
      congr 2
      split <;> rfl
  · rw [if_neg hin, if_neg hin]
    simp only [Option.map_some']
    unfold afterGravity withArrIndex
    dsimp only
    congr 2
    split <;> rfl

theorem exploreHorizontally_withArrIndex (T : Tables) (board : List Nat) (k : Int)
    (inc bound goal : Int) (timeline : List Char) (gravity : Int) :
    ∀ (fuel : Nat) (s : SimState) (range : Int) (legal : List SimState),
      exploreHorizontally T board inc bound goal timeline gravity fuel (withArrIndex k s) range
          (legal.map (withArrIndex k)) =
        (exploreHorizontally T board inc bound goal timeline gravity fuel s range legal).map
          fun r => (r.1, r.2.map (withArrIndex k)) := by
  intro fuel
  induction fuel with
  | zero =>
    intro s range legal
    rw [exploreHorizontally, exploreHorizontally]
    have hx : (withArrIndex k s).x = s.x := rfl
    have hr : (withArrIndex k s).rotationIndex = s.rotationIndex := rfl
    rw [hx, hr]
    split <;> rfl
  | succ fuel ih =>
    intro s range legal
    rw [exploreHorizontally, exploreHorizontally]
    have hx : (withArrIndex k s).x = s.x := rfl
    have hr : (withArrIndex k s).rotationIndex = s.rotationIndex := rfl
    have hf : (withArrIndex k s).frameIndex = s.frameIndex := rfl
    rw [hx, hr, hf]
    by_cases hexit : s.x = bound ∧ s.rotationIndex = goal
    · rw [if_pos hexit, if_pos hexit]; rfl
    · rw [if_neg hexit, if_neg hexit]
      dsimp only
      rw [exploreFrame_withArrIndex]
      cases exploreFrame T board inc bound goal timeline gravity s with
      | none => rfl
      | some r =>
        obtain ⟨s3, fn, dl⟩ := r
        simp only [Option.map_some']
        have hx3 : (withArrIndex k s3).x = s3.x := rfl
        rw [hx3]
        have hlegal : (if fn = true then legal.map (withArrIndex k) ++ [withArrIndex k s3]
            else legal.map (withArrIndex k)) =
            (if fn = true then legal ++ [s3] else legal).map (withArrIndex k) := by
          split <;> simp
        rw [hlegal]
        cases dl with
        | true => rfl
        | false =>
          simp only [Bool.false_eq_true, if_false]
          exact ih s3 _ _

theorem forEachM_map_state {α σ : Type} (f g : α → σ → Option σ) (m : σ → σ)
    (hfg : ∀ a s, g a (m s) = (f a s).map m) :
    ∀ (l : List α) (s : σ), forEachM g l (m s) = (forEachM f l s).map m := by
  intro l
  induction l with
  | nil => intro s; rfl
  | cons a rest ih =>
    intro s
    rw [forEachM, forEachM, hfg]
    cases f a s with
    | none => rfl
    | some s1 => exact ih s1

theorem explorePlacementsNearSpawn_withArrIndex (T : Tables) (board : List Nat) (k : Int)
    (fuel : Nat) (s : SimState) (goal : Int) (timeline : List Char) (gravity : Int)
    (legal : List SimState) :
    explorePlacementsNearSpawn T board fuel (withArrIndex k s) goal timeline gravity
        (legal.map (withArrIndex k)) =
      (explorePlacementsNearSpawn T board fuel s goal timeline gravity legal).map
        (List.map (withArrIndex k)) := by
  unfold explorePlacementsNearSpawn
  dsimp only
  apply forEachM_map_state
  intro xOffset l
  have hx : (withArrIndex k s).x = s.x := rfl
  rw [hx, exploreHorizontally_withArrIndex]
  cases exploreHorizontally T board xOffset (s.x + xOffset) goal timeline gravity fuel s 0 l <;> rfl

theorem rotationLoop_withArrIndex (T : Tables) (fuel : Nat) (board : List Nat) (k : Int)
    (s : SimState) (piece : Piece) (timeline : List Char) (gravity : Int) :
    ∀ (goals : List Int) (legal : List SimState),
      rotationLoop T fuel board (withArrIndex k s) piece timeline gravity goals
          (legal.map (withArrIndex k)) =
        (rotationLoop T fuel board s piece timeline gravity goals legal).map
          (Option.map (List.map (withArrIndex k))) := by
  intro goals
  induction goals with
  | nil => intro legal; rfl
  | cons g rest ih =>
    intro legal
    rw [rotationLoop, rotationLoop]
    have hx : (withArrIndex k s).x = s.x := rfl
    have hy : (withArrIndex k s).y = s.y := rfl
    have hr : (withArrIndex k s).rotationIndex = s.rotationIndex := rfl
    rw [hx, hy, hr]
    split
    · exact ih legal
    · split
      · rfl
      · dsimp only
        have hl0 : (if g = 0 then legal.map (withArrIndex k) ++ [withArrIndex k s]
            else legal.map (withArrIndex k)) =
            (if g = 0 then legal ++ [s] else legal).map (withArrIndex k) := by
          split <;> simp
        rw [hl0, exploreHorizontally_withArrIndex]
        cases exploreHorizontally T board (-1) (-99) g timeline gravity fuel s 0
            (if g = 0 then legal ++ [s] else legal) with
        | none => rfl
        | some r1 =>
          simp only [Option.map_some']
          rw [exploreHorizontally_withArrIndex]
          cases exploreHorizontally T board 1 99 g timeline gravity fuel s 0 r1.2 with
          | none => rfl
          | some r2 =>
            simp only [Option.map_some']
            rw [explorePlacementsNearSpawn_withArrIndex]
            cases explorePlacementsNearSpawn T board fuel s g timeline gravity r2.2 with
            | none => rfl
            | some legal3 =>
              simp only [Option.map_some']
              exact ih legal3

theorem getLockPlacementsFast_withArrIndex (surfaceArray : List Int) (k : Int) :
    ∀ (legal : List SimState) (atc : List Int) (lockPlacements : List LockPlacement),
      getLockPlacementsFast surfaceArray (legal.map (withArrIndex k)) atc lockPlacements =
        getLockPlacementsFast surfaceArray legal atc lockPlacements := by
  intro legal
  induction legal with
  | nil => intro atc lockPlacements; rfl
  | cons s rest ih =>
    intro atc lockPlacements
    rw [List.map_cons, getLockPlacementsFast, getLockPlacementsFast]
    exact ih _ _

/-- `moveSearchInternal` gives the same result for start states that differ in
`arrIndex` only. -/
theorem moveSearchInternal_withArrIndex (T : Tables) (fuel : Nat) (gameState : GameState)
    (k : Int) (s : SimState) (piece : Piece) (timeline : List Char)
    (lockPlacements : List LockPlacement) :
    moveSearchInternal T fuel gameState (withArrIndex k s) piece timeline lockPlacements =
      moveSearchInternal T fuel gameState s piece timeline lockPlacements := by
  unfold moveSearchInternal
  dsimp only
  have h := rotationLoop_withArrIndex T fuel gameState.board k s piece timeline
    (getGravity gameState.level) (intRange 0 3) []
  rw [List.map_nil] at h
  rw [h]
  cases rotationLoop T fuel gameState.board s piece timeline (getGravity gameState.level)
      (intRange 0 3) [] with
  | none => rfl
  | some r =>
    cases r with
    | none => rfl
    | some legal =>
      simp only [Option.map_some']
      rw [getLockPlacementsFast_withArrIndex]

/-- `adjustmentSearch` is the search from the start state with `arrIndex` 0. -/
theorem adjustmentSearch_eq (T : Tables) (fuel : Nat) (gameState : GameState) (piece : Piece)
    (timeline : List Char) (dx dy rot frames : Int) (reset : Bool)
    (lockPlacements : List LockPlacement) :
    adjustmentSearch T fuel gameState piece timeline dx dy rot frames reset lockPlacements =
      moveSearchInternal T fuel gameState
        { x := INITIAL_X + dx, y := piece.initialY + dy, rotationIndex := 0, frameIndex := 0,
          arrIndex := 0, piece := piece } piece timeline lockPlacements := by
  unfold adjustmentSearch
  exact moveSearchInternal_withArrIndex T fuel gameState (if reset = true then 0 else frames)
    { x := INITIAL_X + dx, y := piece.initialY + dy, rotationIndex := 0, frameIndex := 0,
      arrIndex := 0, piece := piece } piece timeline lockPlacements

/-- C25 (`adjustmentSearch` ignores rotation and elapsed frames). For every game
state, piece, timeline and pair of offsets the result of `adjustmentSearch`, count
and placements, is the same for all values of `existingRotation`,
`framesAlreadyElapsed` and `arrWasReset`: these only set `arrIndex`, which the search
never reads. With both offsets 0 the result is that of `moveSearch`. The search
returns for all large enough fuel. -/
theorem adjustment_ignores_rotation_and_frames (T : Tables) (fuel : Nat)
    (gameState : GameState) (piece : Piece) (timeline : List Char) (dx dy : Int)
    (rot1 rot2 frames1 frames2 : Int) (reset1 reset2 : Bool)
    (lockPlacements : List LockPlacement) :
    adjustmentSearch T fuel gameState piece timeline dx dy rot1 frames1 reset1 lockPlacements =
      adjustmentSearch T fuel gameState piece timeline dx dy rot2 frames2 reset2
        lockPlacements ∧
    adjustmentSearch T fuel gameState piece timeline 0 0 rot1 frames1 reset1 lockPlacements =
      moveSearch T fuel gameState piece timeline lockPlacements ∧
    ∃ N : Nat, ∀ fuel2, N ≤ fuel2 →
      ∃ r, adjustmentSearch T fuel2 gameState piece timeline dx dy rot1 frames1 reset1
        lockPlacements = some r := by
  refine ⟨?_, ?_, ?_⟩
  · rw [adjustmentSearch_eq, adjustmentSearch_eq]
  · rw [adjustmentSearch_eq]
    unfold moveSearch
    simp only [add_zero]
  · obtain ⟨N, hN⟩ := moveSearchInternal_terminates T
      { x := INITIAL_X + dx, y := piece.initialY + dy, rotationIndex := 0, frameIndex := 0,
        arrIndex := 0, piece := piece } piece rfl (le_refl _)
    refine ⟨N, fun fuel2 hfuel => ?_⟩
    rw [adjustmentSearch_eq]
    exact hN gameState timeline fuel2 hfuel lockPlacements

/-! ## The rows that the surface scan reads -/

theorem le_surfaceScan (board : List Nat) (colMask : Nat) :
    ∀ fuel row : Nat, row ≤ surfaceScan board colMask fuel row := by
  intro fuel
  induction fuel with
  | zero => intro row; exact le_refl _
  | succ fuel ih =>
    intro row
    rw [surfaceScan]
    split
    · exact le_trans (Nat.le_succ _) (ih _)
    · exact le_refl _

/-- The scan reads the rows from its start row to the row at which it stops, that
row included. -/
theorem surfaceScanReads_eq (board : List Nat) (colMask : Nat) :
    ∀ fuel row : Nat, row ≤ 20 → 21 ≤ fuel + row →
      surfaceScanReads board colMask fuel row =
        (List.range (surfaceScan board colMask fuel row + 1 - row)).map
          fun (k : Nat) => row + k := by
  intro fuel
  induction fuel with
  | zero => intro row h1 h2; omega
  | succ fuel ih =>
    intro row h1 h2
    rw [surfaceScanReads, surfaceScan]
    by_cases hc : board.getD row 0 &&& colMask = 0 ∧ row < 20
    · rw [if_pos hc, if_pos hc, ih (row + 1) (by omega) (by omega)]
      have hle := le_surfaceScan board colMask fuel (row + 1)
      have hlen : surfaceScan board colMask fuel (row + 1) + 1 - row =
          (surfaceScan board colMask fuel (row + 1) + 1 - (row + 1)) + 1 := by omega
      rw [hlen, List.range_succ_eq_map, List.map_cons, List.map_map]
      simp only [Nat.add_zero, List.cons.injEq, true_and]
      apply List.map_congr_left
      intro k _
      simp only [Function.comp_apply]
      omega
    · rw [if_neg hc, if_neg hc]
      have : row + 1 - row = 1 := by omega
      rw [this]
      rfl

/-- C26 (bounds of `getSurfaceArray`) at the failing input: on the empty board of 20
rows the scan of every column reads the rows 0 to 20, `board[20]` included, because
the loop condition reads `board[row]` before it tests `row < 20`. In general the
scan of a column of any board reads exactly the rows from 0 to the row at which it
stops, so it reads `board[20]` exactly when no row 0..19 has the bit of the column
set, and only rows 0..19 otherwise. -/
theorem surface_scan_reads_row_20 :
    (∀ col ∈ List.range 10,
      surfaceScanReads emptyBoard (1 <<< (9 - col)) 21 0 = List.range 21) ∧
    (∀ (board : List Nat) (col : Nat),
      surfaceScanReads board (1 <<< (9 - col)) 21 0 =
        List.range (surfaceScan board (1 <<< (9 - col)) 21 0 + 1)) ∧
    (∀ (board : List Nat) (col : Nat), col < 10 →
      (20 ∈ surfaceScanReads board (1 <<< (9 - col)) 21 0 ↔
        ∀ r : Nat, r < 20 → (board.getD r 0).testBit (9 - col) = false)) := by
  have hreads : ∀ (board : List Nat) (col : Nat),
      surfaceScanReads board (1 <<< (9 - col)) 21 0 =
        List.range (surfaceScan board (1 <<< (9 - col)) 21 0 + 1) := by
    intro board col
    rw [surfaceScanReads_eq board _ 21 0 (by omega) (by omega)]
    simp
  refine ⟨by decide, hreads, ?_⟩
  intro board col hcol
  rw [hreads, List.mem_range, Nat.one_shiftLeft]
  obtain ⟨-, s2, s3, s4⟩ := surfaceScan_spec board (9 - col) 21 0 (by omega) (by omega)
  constructor
  · intro h r hr
    exact s3 r (by omega) (by omega)
  · intro h
    by_contra hcon
    have hlt : surfaceScan board (2 ^ (9 - col)) 21 0 < 20 := by omega
    have h1 := s4 hlt
    rw [h _ hlt] at h1
    exact absurd h1 (by simp)

end StackRabbit
